import Mathlib

/-!
# serve-img-optimized: cache store, parameter parser and orchestrator

A shallow embedding of the Go sources `cache/tmp-image.go`, `images/params.go`,
`images/downloader.go`, `images/optimizer.go` and `routes/optimized.routes.go`, followed by
theorems about them.

## Conventions of the embedding

* The cache directory is an explicit value `FS` that every operation takes and returns.  It is the
  listing of the directory in the order `os.ReadDir` reports it (by file name).  A cache key is
  used as the name of an entry directly under the cache directory, which is what
  `GenerateCacheKey` produces (32 hex digits followed by `.jpg`).  The cache entries are the
  regular files of that listing.
* The file system is deterministic: an operation fails only for a reason that can be read off the
  directory (the name is absent, the name is a directory, the directory is not empty).
* Instants and durations are integers counting nanoseconds.  The clock is an argument.
* Sizes are integers; the sums computed by the program are assumed to stay below `2^63`.
* A Go `error` result is `Option String` (`none` is `nil`); a Go `(value, error)` result is
  `Except String value`.
* Strings are sequences of Unicode characters; `int` has 64 bits.  Products of durations are
  those of `int64` (`time.mul`).
* What the program calls outside the repository is a parameter: the package `net/url`
  (`url.Lib`), the MD5 digest, the HTTP client and the image codecs (`images.Env`).  The regular
  expression of the parser, `strconv.Atoi`, `strings.Trim`, `strings.TrimSpace` and
  `strings.HasPrefix` are embedded, `strings.ToLower` is embedded on ASCII and takes the table
  `unicode.ToLower` as a parameter beyond it.
* Two calls of `OptimizeImage` that are in flight together are run along a schedule of two steps
  per call: the lookup (steps 1 to 3 of the method) and, after a miss, the rest (steps 4 to 6).
  `OptimizeImage` is these two steps one after the other (`images.OptimizeImage_split`), and it
  takes no lock between them, so every order of the four steps that keeps each call's own order
  is a run of the program.
-/

/-- Contents of a file. -/
abbrev Bytes := List UInt8

deriving instance DecidableEq for Except

namespace os

/-- What lives under one name of the cache directory: a regular file with its bytes and
modification time, or a sub-directory, of which only what the program can observe is kept:
its modification time, the total size of the regular files found anywhere beneath it, and
whether it has no children at all. -/
inductive Node where
  | file (data : Bytes) (modTime : Int)
  | dir (modTime : Int) (treeSize : Nat) (isEmpty : Bool)
deriving DecidableEq, Repr

/-- One entry of the cache directory. -/
structure DirEntry where
  name : String
  node : Node
deriving DecidableEq, Repr

/-- The cache directory: its entries, in the order `os.ReadDir` lists them. -/
abbrev FS := List DirEntry

/-- The fields of an `os.FileInfo` that the program reads. -/
structure FileInfo where
  Name : String
  Size : Int
  ModTime : Int
  IsDir : Bool
deriving DecidableEq, Repr

/-- Method `IsDir` of a node. -/
def Node.IsDir : Node → Bool
  | .file _ _ => false
  | .dir _ _ _ => true

/-- Modification time of a node. -/
def Node.ModTime : Node → Int
  | .file _ t => t
  | .dir t _ _ => t

/-- Size reported for a node: the length of a regular file.  The size reported for a directory
depends on the platform and is never read by the program; it is taken to be `0`. -/
def Node.Size : Node → Int
  | .file d _ => (d.length : Int)
  | .dir _ _ _ => 0

/-- Method `IsDir` of a directory entry. -/
def DirEntry.IsDir (e : DirEntry) : Bool := e.node.IsDir

/-- Method `Info` of a directory entry; it does not fail in this file system. -/
def DirEntry.Info (e : DirEntry) : Except String FileInfo :=
  .ok { Name := e.name, Size := e.node.Size, ModTime := e.node.ModTime, IsDir := e.node.IsDir }

/-- The entry stored under a name, if any. -/
def lookup (fs : FS) (name : String) : Option DirEntry :=
  fs.find? (fun e => decide (e.name = name))

/-- Function `os.Stat` on a name of the cache directory. -/
def Stat (fs : FS) (name : String) : Except String FileInfo :=
  match lookup fs name with
  | none => .error ("stat " ++ name ++ ": no such file or directory")
  | some e => e.Info

/-- Function `os.ReadFile`: the bytes of a regular file; an error for a missing name or a
directory. -/
def ReadFile (fs : FS) (name : String) : Except String Bytes :=
  match lookup fs name with
  | none => .error ("open " ++ name ++ ": no such file or directory")
  | some e =>
    match e.node with
    | .file data _ => .ok data
    | .dir _ _ _ => .error ("read " ++ name ++ ": is a directory")

/-- Function `os.Remove`: deletes a regular file or an empty directory. -/
def Remove (fs : FS) (name : String) : Except String FS :=
  match lookup fs name with
  | none => .error ("remove " ++ name ++ ": no such file or directory")
  | some e =>
    match e.node with
    | .file _ _ => .ok (fs.filter (fun d => decide (d.name ≠ name)))
    | .dir _ _ isEmpty =>
      if isEmpty then .ok (fs.filter (fun d => decide (d.name ≠ name)))
      else .error ("remove " ++ name ++ ": directory not empty")

/-- Puts a new entry at the place its name has in the listing by file name. -/
def insertByName (e : DirEntry) : FS → FS
  | [] => [e]
  | d :: ds => if e.name.data < d.name.data then e :: d :: ds else d :: insertByName e ds

/-- Function `os.WriteFile` at instant `now`: replaces the contents of an existing regular file
(which gets the modification time `now`), creates the file when the name is free, and fails when
the name is a directory. -/
def WriteFile (fs : FS) (name : String) (data : Bytes) (now : Int) : Except String FS :=
  match lookup fs name with
  | none => .ok (insertByName ⟨name, .file data now⟩ fs)
  | some e =>
    match e.node with
    | .file _ _ =>
      .ok (fs.map (fun d => if d.name = name then ⟨name, .file data now⟩ else d))
    | .dir _ _ _ => .error ("open " ++ name ++ ": is a directory")

/-- Function `os.ReadDir` on the cache directory. -/
def ReadDir (fs : FS) : Except String (List DirEntry) := .ok fs

/-- A directory has no two entries of the same name. -/
def WF (fs : FS) : Prop := (fs.map DirEntry.name).Nodup

instance (fs : FS) : Decidable (WF fs) := by unfold WF; infer_instance

end os

namespace time

/-- Largest `time.Duration`. -/
def maxDuration : Int := 2 ^ 63 - 1

/-- Smallest `time.Duration`. -/
def minDuration : Int := -(2 ^ 63)

/-- Method `Time.Sub`: the difference `t - u`, saturating at the ends of `time.Duration`. -/
def Sub (t u : Int) : Int :=
  let d := t - u
  if d > maxDuration then maxDuration else if d < minDuration then minDuration else d

/-- Function `time.Since` evaluated when the clock shows `now`. -/
def Since (now t : Int) : Int := Sub now t

/-- Method `Time.After`. -/
def After (t u : Int) : Bool := decide (u < t)

end time

namespace cache

open os

/-- The cache manager's configuration. -/
structure CacheManager where
  CacheDir : String
  CacheDuration : Int
  MaxCacheSize : Int
deriving DecidableEq, Repr

/-- Method `GetCachedImage` when the clock shows `now`: the directory afterwards and the pair
`(data, found)`; `nil` is the empty list. -/
def GetCachedImage (cm : CacheManager) (now : Int) (fs : FS) (cacheKey : String) :
    FS × (Bytes × Bool) :=
  match Stat fs cacheKey with
  | .error _ => (fs, ([], false))
  | .ok fileInfo =>
    if time.Since now fileInfo.ModTime > cm.CacheDuration then
      match Remove fs cacheKey with
      | .ok fs' => (fs', ([], false))
      | .error _ => (fs, ([], false))
    else
      match ReadFile fs cacheKey with
      | .error _ => (fs, ([], false))
      | .ok data => (fs, (data, true))

/-- What `filepath.Walk` adds up in `getCacheSize`: every regular file met in the tree, those
beneath sub-directories included; directories themselves add nothing. -/
def walkSize : FS → Int
  | [] => 0
  | e :: rest =>
    (match e.node with
     | .file data _ => (data.length : Int)
     | .dir _ treeSize _ => (treeSize : Int)) + walkSize rest

/-- Method `getCacheSize`. -/
def getCacheSize (fs : FS) : Except String Int := .ok (walkSize fs)

/-- First loop of `getCacheFilesSorted`: the infos of the entries that are not directories. -/
def collectInfos : List DirEntry → List FileInfo
  | [] => []
  | file :: rest =>
    if !file.IsDir then
      match file.Info with
      | .ok info => info :: collectInfos rest
      | .error _ => collectInfos rest
    else collectInfos rest

/-- Inner loop of the sort for one position `i`: `cur` is `fileInfos[i]`, the list is
`fileInfos[i+1:]`; whenever `cur` is after the element met, the two are exchanged.  The result is
the final `fileInfos[i]` and the final `fileInfos[i+1:]`. -/
def sortInner (cur : FileInfo) : List FileInfo → FileInfo × List FileInfo
  | [] => (cur, [])
  | x :: xs =>
    if time.After cur.ModTime x.ModTime then
      let r := sortInner x xs
      (r.1, cur :: r.2)
    else
      let r := sortInner cur xs
      (r.1, x :: r.2)

/-- Outer loop of the sort, run for `n` positions. -/
def sortOuter : Nat → List FileInfo → List FileInfo
  | 0, l => l
  | _ + 1, [] => []
  | n + 1, x :: xs =>
    let r := sortInner x xs
    r.1 :: sortOuter n r.2

/-- Method `getCacheFilesSorted`: the non-directory entries, oldest first. -/
def getCacheFilesSorted (fs : FS) : Except String (List FileInfo) :=
  match ReadDir fs with
  | .error err => .error err
  | .ok files =>
    let fileInfos := collectInfos files
    .ok (sortOuter (fileInfos.length - 1) fileInfos)

/-- Eviction loop of `cleanupIfNeeded` over the sorted listing: stops as soon as the new file
fits; a removal that fails leaves the running size as it is. -/
def evictLoop (cm : CacheManager) (newFileSize : Int) : List FileInfo → FS → Int → FS
  | [], fs, _ => fs
  | file :: rest, fs, currentSize =>
    if currentSize + newFileSize ≤ cm.MaxCacheSize then fs
    else
      let fileSize := file.Size
      match Remove fs file.Name with
      | .ok fs' => evictLoop cm newFileSize rest fs' (currentSize - fileSize)
      | .error _ => evictLoop cm newFileSize rest fs currentSize

/-- Method `cleanupIfNeeded`: the directory afterwards and the error returned. -/
def cleanupIfNeeded (cm : CacheManager) (fs : FS) (newFileSize : Int) : FS × Option String :=
  match getCacheSize fs with
  | .error err => (fs, some err)
  | .ok currentSize =>
    if currentSize + newFileSize ≤ cm.MaxCacheSize then (fs, none)
    else
      match getCacheFilesSorted fs with
      | .error err => (fs, some err)
      | .ok files => (evictLoop cm newFileSize files fs currentSize, none)

/-- Method `SaveToCache` when the clock shows `now`: the directory afterwards and the error
returned. -/
def SaveToCache (cm : CacheManager) (now : Int) (fs : FS) (cacheKey : String) (data : Bytes) :
    FS × Option String :=
  match cleanupIfNeeded cm fs (data.length : Int) with
  | (fs', some err) => (fs', some err)
  | (fs', none) =>
    match WriteFile fs' cacheKey data now with
    | .ok fs'' => (fs'', none)
    | .error err => (fs', some err)

/-- Method `SaveImageToCache`, an alias of `SaveToCache`. -/
def SaveImageToCache (cm : CacheManager) (now : Int) (fs : FS) (cacheKey : String)
    (data : Bytes) : FS × Option String :=
  SaveToCache cm now fs cacheKey data

end cache

namespace strconv

/-- The character of a decimal digit. -/
def digitChar (d : Nat) : Char := Char.ofNat (48 + d)

/-- The value of a decimal digit character. -/
def digitVal (c : Char) : Nat := c.toNat - 48

/-- Decimal digits of `n`, most significant first; `fuel` bounds the number of digits. -/
def natDigits : Nat → Nat → List Char
  | 0, _ => []
  | fuel + 1, n =>
    if n < 10 then [digitChar n] else natDigits fuel (n / 10) ++ [digitChar (n % 10)]

/-- Decimal rendering of a natural number. -/
def FormatUint (n : Nat) : List Char := natDigits (n + 1) n

/-- Function `strconv.Itoa`, which is also what the verb `%d` prints: a minus sign for a negative
number, then the decimal digits of the magnitude. -/
def Itoa (i : Int) : String :=
  if i < 0 then String.mk ('-' :: FormatUint i.natAbs) else String.mk (FormatUint i.toNat)

/-- The number written by a run of decimal digits. -/
def digitsValue (l : List Char) : Nat := l.foldl (fun acc c => acc * 10 + digitVal c) 0

/-- ASCII decimal digit, the class `\d` of the regular expressions and the digits of `Atoi`. -/
def isDigit (c : Char) : Bool := decide ('0' ≤ c) && decide (c ≤ '9')

/-- Function `strconv.Atoi` for a 64-bit `int`: an optional sign, then at least one decimal digit
and nothing else; a value outside the range of `int` is an error. -/
def Atoi (s : String) : Except String Int :=
  let body : List Char :=
    match s.data with
    | '+' :: r => r
    | '-' :: r => r
    | cs => cs
  let neg : Bool :=
    match s.data with
    | '-' :: _ => true
    | _ => false
  if body = [] ∨ body.all isDigit = false then
    .error ("strconv.Atoi: parsing " ++ s ++ ": invalid syntax")
  else if neg then
    if digitsValue body ≤ 2 ^ 63 then .ok (-(digitsValue body : Int))
    else .error ("strconv.Atoi: parsing " ++ s ++ ": value out of range")
  else
    if digitsValue body < 2 ^ 63 then .ok (digitsValue body : Int)
    else .error ("strconv.Atoi: parsing " ++ s ++ ": value out of range")

end strconv

namespace strings

/-- Function `strings.HasPrefix`. -/
def HasPrefix (s pre : String) : Bool := pre.data.isPrefixOf s.data

/-- Function `strings.Trim`: drops the leading and the trailing characters that belong to
`cutset`. -/
def Trim (s cutset : String) : String :=
  String.mk
    (((s.data.dropWhile (fun c => decide (c ∈ cutset.data))).reverse.dropWhile
      (fun c => decide (c ∈ cutset.data))).reverse)

end strings

namespace cache

/-- The string that `GenerateCacheKey` hashes: `fmt.Sprintf("%s_%d_%d", url, width, quality)`. -/
def cacheKeyData (url : String) (width quality : Int) : String :=
  url ++ "_" ++ strconv.Itoa width ++ "_" ++ strconv.Itoa quality

/-- Method `GenerateCacheKey`.  The MD5 digest printed in hexadecimal, a function of the standard
library, is the parameter `md5hex`. -/
def GenerateCacheKey (md5hex : String → String) (url : String) (width quality : Int) : String :=
  md5hex (cacheKeyData url width quality) ++ ".jpg"

end cache

namespace url

/-- The functions of the package `net/url` that the parser calls.  They belong to the standard
library and are parameters of the embedding: `URL` is the parsed form, `Host` its field and
`Render` its method `String`. -/
structure Lib where
  URL : Type
  QueryUnescape : String → Except String String
  Parse : String → Except String URL
  Host : URL → String
  Render : URL → String

/-- Unreserved characters of RFC 3986: ASCII letters and digits, `-`, `.`, `_`, `~`. -/
def unreserved (c : Char) : Bool :=
  c.isAlphanum || c == '-' || c == '.' || c == '_' || c == '~'

/-- What the theorems about well-formed requests assume of `net/url`, a part of its documented
behaviour: `QueryUnescape` returns a string without `%` and `+` as it is; `Parse` accepts
`https://host/path` when the host is a non-empty run of unreserved characters and the path is
empty or starts with `/` and consists of unreserved characters and `/`, the parsed value has
that host, and its method `String` gives the input back. -/
structure Lib.Plain (lib : Lib) : Prop where
  unescape_plain : ∀ s : String, (∀ c ∈ s.data, c ≠ '%' ∧ c ≠ '+') → lib.QueryUnescape s = .ok s
  parse_plain : ∀ host path : List Char, host ≠ [] → (∀ c ∈ host, unreserved c = true) →
    (path = [] ∨ path.head? = some '/') → (∀ c ∈ path, unreserved c = true ∨ c = '/') →
    ∃ u, lib.Parse (String.mk ("https://".data ++ host ++ path)) = .ok u ∧
      lib.Host u = String.mk host ∧
      lib.Render u = String.mk ("https://".data ++ host ++ path)

/-- Parsed form used by `plainLib`. -/
structure PlainURL where
  Host : String
  Text : String
deriving DecidableEq, Repr

/-- Splits `https://host/path` or `http://host/path` made of unreserved characters and `/`. -/
def parsePlain (s : String) : Except String PlainURL :=
  let rest : List Char :=
    if "https://".data.isPrefixOf s.data then s.data.drop 8
    else if "http://".data.isPrefixOf s.data then s.data.drop 7
    else []
  let host := rest.takeWhile (fun c => c != '/')
  if host ≠ [] ∧ rest.all (fun c => unreserved c || c == '/') = true then
    .ok { Host := String.mk host, Text := s }
  else .error ("parse " ++ s ++ ": outside the plain URLs")

/-- An instance of `Lib` that agrees with `net/url` on plain URLs, the ones made of a scheme
`http` or `https`, a host of unreserved characters and a path of unreserved characters and `/`,
without escapes, query, fragment, user or port.  Every other input is refused, which `net/url`
does not do: the instance is meant for evaluating the parser on plain URLs only. -/
def plainLib : Lib where
  URL := PlainURL
  QueryUnescape := fun s =>
    if s.data.all (fun c => c != '%' && c != '+') then .ok s
    else .error ("unescape " ++ s ++ ": outside the plain URLs")
  Parse := parsePlain
  Host := PlainURL.Host
  Render := PlainURL.Text

end url

namespace images

/-- The parameters of an image optimisation. -/
structure ImageParams where
  URL : String
  Quality : Int
  Width : Int
  Origin : String
deriving DecidableEq, Repr

/-- Removes the literal `pre` from the front of `s`. -/
def cutLiteral : List Char → List Char → Option (List Char)
  | [], s => some s
  | _ :: _, [] => none
  | p :: ps, c :: cs => if p = c then cutLiteral ps cs else none

/-- The end of the pattern, `(.+)$`: the whole remaining text, which must be non-empty and free
of line feeds (`.` matches no line feed, `$` only the end of the text). -/
def matchTail (s : List Char) : Option (List Char) :=
  if s ≠ [] ∧ '\n' ∉ s then some s else none

/-- The part `/?(.+)$`: the slash is taken when there is one, and given back when the rest of
the pattern fails after it. -/
def matchSlashTail (s : List Char) : Option (List Char) :=
  match cutLiteral ['/'] s with
  | some r =>
    match matchTail r with
    | some t => some t
    | none => matchTail s
  | none => matchTail s

/-- The part `\d+` followed by the continuation `k`: at least one digit; more digits are tried
first, and given back one by one when the continuation fails.  `acc` holds the digits taken. -/
def matchDigits {α : Type} (k : List Char → List Char → Option α) (acc : List Char) :
    List Char → Option α
  | [] => none
  | c :: cs =>
    if strconv.isDigit c then
      match matchDigits k (acc ++ [c]) cs with
      | some r => some r
      | none => k (acc ++ [c]) cs
    else none

/-- The part `(?:,q_(\d+))?/?(.+)$`: the text of group 2 (empty when the group took no part) and
of group 3. -/
def matchQuality (s : List Char) : Option (List Char × List Char) :=
  let skip := (matchSlashTail s).map (fun t => ([], t))
  match cutLiteral [',', 'q', '_'] s with
  | some r =>
    match matchDigits (fun ds r' => (matchSlashTail r').map (fun t => (ds, t))) [] r with
    | some m => some m
    | none => skip
  | none => skip

/-- The part `(?:w_(\d+))?(?:,q_(\d+))?/?(.+)$`: the texts of groups 1, 2 and 3. -/
def matchWidth (s : List Char) : Option (List Char × List Char × List Char) :=
  let skip := (matchQuality s).map (fun m => ([], m.1, m.2))
  match cutLiteral ['w', '_'] s with
  | some r =>
    match matchDigits (fun ds r' => (matchQuality r').map (fun m => (ds, m.1, m.2))) [] r with
    | some m => some m
    | none => skip
  | none => skip

/-- The call `re.FindStringSubmatch(fullPath)` for the pattern
`^/?(?:w_(\d+))?(?:,q_(\d+))?/?(.+)$`, with the leftmost-first rule of the package `regexp`:
every `?` and `+` prefers to take, and gives back only when the rest cannot match.  The result
is the text of the three groups; `none` is the `nil` slice of a failed match. -/
def FindStringSubmatch (fullPath : String) : Option (String × String × String) :=
  let run : Option (List Char × List Char × List Char) :=
    match cutLiteral ['/'] fullPath.data with
    | some r =>
      match matchWidth r with
      | some m => some m
      | none => matchWidth fullPath.data
    | none => matchWidth fullPath.data
  run.map (fun m => (String.mk m.1, String.mk m.2.1, String.mk m.2.2))

/-- Method `validateWidth`. -/
def validateWidth (width : Int) : Option String :=
  if width ≤ 0 then some "width must be greater than 0"
  else if width > 2000 then some "width cannot exceed 2000 pixels"
  else none

/-- Method `validateQuality`. -/
def validateQuality (quality : Int) : Option String :=
  if quality ≤ 0 then some "quality must be greater than 0"
  else if quality > 100 then some "quality cannot exceed 100"
  else none

/-- Method `parseImageURL`. -/
def parseImageURL (lib : url.Lib) (rawURL : String) : Except String String :=
  match lib.QueryUnescape rawURL with
  | .error err => .error ("failed to decode URL: " ++ err)
  | .ok decoded =>
    let decodedURL :=
      if !strings.HasPrefix decoded "http://" && !strings.HasPrefix decoded "https://" then
        "https://" ++ decoded
      else decoded
    match lib.Parse decodedURL with
    | .error err => .error ("invalid image URL: " ++ err)
    | .ok parsedURL =>
      if lib.Host parsedURL = "" then .error "invalid image URL: missing host"
      else .ok (lib.Render parsedURL)

/-- The block `// Parsear width` of `ParseURLParams`: a width that `Atoi` cannot read is ignored,
one that it reads is validated and stored. -/
def parseWidth (params : ImageParams) (m1 : String) : Except String ImageParams :=
  if m1 ≠ "" then
    match strconv.Atoi m1 with
    | .ok w =>
      match validateWidth w with
      | some err => .error err
      | none => .ok { params with Width := w }
    | .error _ => .ok params
  else .ok params

/-- The block `// Parsear quality` of `ParseURLParams`. -/
def parseQuality (params : ImageParams) (m2 : String) : Except String ImageParams :=
  if m2 ≠ "" then
    match strconv.Atoi m2 with
    | .ok q =>
      match validateQuality q with
      | some err => .error err
      | none => .ok { params with Quality := q }
    | .error _ => .ok params
  else .ok params

/-- Method `ParseURLParams`.  Of the request it reads `chi.URLParam(r, "*")`, here `fullPath`, and
the query value `origin` (empty when the query has none). -/
def ParseURLParams (lib : url.Lib) (fullPath origin : String) : Except String ImageParams :=
  if fullPath = "" then .error "no path provided"
  else
    match FindStringSubmatch fullPath with
    | none =>
      .error "invalid URL format. Expected: /w_400,q_90/url or /w_400/url or /q_90/url"
    | some (m1, m2, m3) =>
      match parseWidth { URL := "", Quality := 90, Width := 400, Origin := "" } m1 with
      | .error err => .error err
      | .ok params =>
        match parseQuality params m2 with
        | .error err => .error err
        | .ok params =>
          match parseImageURL lib m3 with
          | .error err => .error err
          | .ok imageURL =>
            let params := { params with URL := imageURL }
            if origin ≠ "" then .ok { params with Origin := strings.Trim origin "\"" }
            else .ok params

end images

namespace http

/-- An outgoing request: method, URL and headers. -/
structure Request where
  Method : String
  URL : String
  Header : List (String × String)
deriving DecidableEq, Repr

/-- What the downloader reads of a response: the status code, the header `Content-Type` and the
outcome of reading the body to its end. -/
structure Response where
  StatusCode : Int
  ContentType : String
  Body : Except String Bytes

/-- Method `Header.Set`: replaces the value of the key, or adds the key. -/
def headerSet (h : List (String × String)) (key value : String) : List (String × String) :=
  if h.any (fun kv => kv.1 = key) then h.map (fun kv => if kv.1 = key then (key, value) else kv)
  else h ++ [(key, value)]

end http

namespace images

/-- The collaborators of the optimizer that lie outside the repository: the package `net/url`,
the MD5 digest in hexadecimal, the HTTP client (the network) and the image codecs behind
`ProcessImage` (decoding, Lanczos resizing, JPEG encoding). -/
structure Env where
  net : url.Lib
  md5hex : String → String
  Do : http.Request → Except String http.Response
  ProcessImage : Bytes → Int → Int → Except String Bytes

/-- Method `ValidateImageURL` of the processor: the content type must start with `image/`. -/
def ValidateImageURL (contentType : String) : Option String :=
  if !strings.HasPrefix contentType "image/" then
    some ("URL does not point to an image: " ++ contentType)
  else none

/-- Function `http.NewRequest("GET", imageURL, nil)`: fails when the URL does not parse. -/
def NewRequest (lib : url.Lib) (method imageURL : String) : Except String http.Request :=
  match lib.Parse imageURL with
  | .error err => .error err
  | .ok _ => .ok { Method := method, URL := imageURL, Header := [] }

/-- Method `setHeaders` of the downloader. -/
def setHeaders (req : http.Request) (origin : String) : http.Request :=
  let h := http.headerSet req.Header "User-Agent"
    "Mozilla/5.0 (Windows NT 10.0; Win64; x64) AppleWebKit/537.36 (KHTML, like Gecko) Chrome/91.0.4472.124 Safari/537.36"
  let h := if origin ≠ "" then http.headerSet (http.headerSet h "Referer" origin) "Origin" origin
    else h
  let h := http.headerSet h "Accept" "image/webp,image/apng,image/*,*/*;q=0.8"
  let h := http.headerSet h "Accept-Language" "en-US,en;q=0.9"
  let h := http.headerSet h "Cache-Control" "no-cache"
  { req with Header := h }

/-- Method `DownloadImage` of the downloader. -/
def DownloadImage (env : Env) (imageURL origin : String) : Except String Bytes :=
  match NewRequest env.net "GET" imageURL with
  | .error err => .error ("failed to create request: " ++ err)
  | .ok req =>
    match env.Do (setHeaders req origin) with
    | .error err => .error ("failed to download image: " ++ err)
    | .ok resp =>
      if resp.StatusCode ≠ 200 then
        .error ("failed to download image: status " ++ strconv.Itoa resp.StatusCode)
      else
        match ValidateImageURL resp.ContentType with
        | some err => .error err
        | none =>
          match resp.Body with
          | .error err => .error ("failed to read image data: " ++ err)
          | .ok data => .ok data

/-- What a call of the optimizer does besides touching the cache directory. -/
inductive Event where
  | download (imageURL origin : String)
  | process (imageData : Bytes) (width quality : Int)
  | print (msg : String)
deriving DecidableEq, Repr

/-- The state a request runs in: the cache directory and the record of the downloader calls,
processor calls and printed lines so far. -/
structure World where
  fs : os.FS
  log : List Event
deriving DecidableEq, Repr

/-- Method `OptimizeImage`.  The clock shows `tLookup` when the cache is consulted and `tSave`
when the result is written.  The cache key is computed by `GenerateCacheKey`. -/
def OptimizeImage (env : Env) (cm : cache.CacheManager) (tLookup tSave : Int) (w : World)
    (fullPath origin : String) : World × Except String (Bytes × String) :=
  match ParseURLParams env.net fullPath origin with
  | .error err => (w, .error ("parameter parsing error: " ++ err))
  | .ok params =>
    let cacheKey := cache.GenerateCacheKey env.md5hex params.URL params.Width params.Quality
    match cache.GetCachedImage cm tLookup w.fs cacheKey with
    | (fs1, (cachedData, true)) => ({ w with fs := fs1 }, .ok (cachedData, "image/jpeg"))
    | (fs1, (_, false)) =>
      let log1 := w.log ++ [Event.download params.URL params.Origin]
      match DownloadImage env params.URL params.Origin with
      | .error err => ({ fs := fs1, log := log1 }, .error ("download error: " ++ err))
      | .ok imageData =>
        let log2 := log1 ++ [Event.process imageData params.Width params.Quality]
        match env.ProcessImage imageData params.Width params.Quality with
        | .error err => ({ fs := fs1, log := log2 }, .error ("processing error: " ++ err))
        | .ok processedData =>
          match cache.SaveImageToCache cm tSave fs1 cacheKey processedData with
          | (fs2, some err) =>
            ({ fs := fs2,
               log := log2 ++ [Event.print ("Warning: Failed to save to cache: " ++ err ++ "\n")] },
              .ok (processedData, "image/jpeg"))
          | (fs2, none) => ({ fs := fs2, log := log2 }, .ok (processedData, "image/jpeg"))

/-- The characters of a target host in a well-formed request: ASCII letters and digits, `.`
and `-`. -/
def hostChar (c : Char) : Bool := c.isAlphanum || c == '.' || c == '-'

/-- The width token `w_<digits>` of a request path, or nothing. -/
def widthToken : Option (List Char) → List Char
  | some ds => 'w' :: '_' :: ds
  | none => []

/-- The quality token `,q_<digits>` of a request path, or nothing. -/
def qualityToken : Option (List Char) → List Char
  | some ds => ',' :: 'q' :: '_' :: ds
  | none => []

/-- The request path `[/][w_<W>][,q_<Q>]/<target>`. -/
def requestPath (lead : Bool) (W Q : Option (List Char)) (target : List Char) : String :=
  String.mk ((if lead then ['/'] else []) ++
    (widthToken W ++ (qualityToken Q ++ '/' :: target)))

/-- The target of a well-formed request: a non-empty host of host characters followed by a path
that is empty or starts with `/` and is made of host characters and `/`. -/
structure Target (host path : List Char) : Prop where
  host_ne : host ≠ []
  host_chars : ∀ c ∈ host, hostChar c = true
  path_head : path = [] ∨ path.head? = some '/'
  path_chars : ∀ c ∈ path, hostChar c = true ∨ c = '/'

/-- A non-empty run of decimal digits whose value lies between `lo` and `hi`. -/
def DecimalIn (lo hi : Nat) (ds : List Char) : Prop :=
  ds ≠ [] ∧ (∀ c ∈ ds, strconv.isDigit c = true) ∧
    lo ≤ strconv.digitsValue ds ∧ strconv.digitsValue ds ≤ hi

/-- An environment for evaluating the optimizer on concrete requests: the URL library
`plainLib`, a checksum printed in decimal in place of the MD5 digest, a network that serves
three bytes of JPEG at `https://example.com/a.jpg` and nothing elsewhere, and a processor that
refuses empty input and otherwise returns the bytes in reverse order. -/
def demoEnv : Env where
  net := url.plainLib
  md5hex := fun data =>
    String.mk (strconv.FormatUint
      (data.data.foldl (fun h c => (h * 31 + c.toNat) % 1000000007) 7))
  Do := fun req =>
    if req.URL = "https://example.com/a.jpg" then
      .ok { StatusCode := 200, ContentType := "image/jpeg", Body := .ok [1, 2, 3] }
    else .error "dial tcp: no such host"
  ProcessImage := fun imageData _ _ =>
    if imageData = [] then .error "failed to decode image (format: ): image: unknown format"
    else .ok imageData.reverse

end images

namespace time

/-- Constant `time.Minute`, in nanoseconds. -/
def Minute : Int := 60 * 1000000000

/-- Constant `time.Hour`, in nanoseconds. -/
def Hour : Int := 60 * Minute

/-- The value an `int64` holds after an operation whose exact result is `x`: `x` reduced modulo
`2^64` into the range from `-2^63` to `2^63 - 1`. -/
def wrap64 (x : Int) : Int := (x + 2 ^ 63) % 2 ^ 64 - 2 ^ 63

/-- Multiplication of two values of type `time.Duration`, an `int64`. -/
def mul (a b : Int) : Int := wrap64 (a * b)

end time

namespace strings

/-- Function `unicode.IsSpace`. -/
def isSpace (c : Char) : Bool :=
  c == '\t' || c == '\n' || c.toNat == 11 || c.toNat == 12 || c == '\r' || c == ' ' ||
  c.toNat == 0x85 || c.toNat == 0xA0 || c.toNat == 0x1680 ||
  (decide (0x2000 ≤ c.toNat) && decide (c.toNat ≤ 0x200A)) ||
  c.toNat == 0x2028 || c.toNat == 0x2029 || c.toNat == 0x202F || c.toNat == 0x205F ||
  c.toNat == 0x3000

/-- Function `strings.TrimSpace`: drops the leading and the trailing white space. -/
def TrimSpace (s : String) : String :=
  String.mk (((s.data.dropWhile isSpace).reverse.dropWhile isSpace).reverse)

/-- Function `strings.ToLower`: every character is replaced by its lower case.  On ASCII that
moves `A` to `Z` onto `a` to `z`; beyond ASCII the mapping is the table `unicode.ToLower` of the
standard library, the parameter `unicodeToLower`. -/
def ToLower (unicodeToLower : Char → Char) (s : String) : String :=
  String.mk (s.data.map (fun c => if c.toNat < 128 then c.toLower else unicodeToLower c))

end strings

namespace cache

open os

/-- Loop of `CleanupOldFiles` over the listing: a file older than `CacheDuration` is removed, the
outcome of the removal is not looked at. -/
def sweepLoop (cm : CacheManager) (now : Int) : List FileInfo → FS → FS
  | [], fs => fs
  | file :: rest, fs =>
    if time.Since now file.ModTime > cm.CacheDuration then
      match Remove fs file.Name with
      | .ok fs' => sweepLoop cm now rest fs'
      | .error _ => sweepLoop cm now rest fs
    else sweepLoop cm now rest fs

/-- Method `CleanupOldFiles` when the clock shows `now`, the sweep being short enough for the
clock to show the same instant at every file: the directory afterwards and the error
returned. -/
def CleanupOldFiles (cm : CacheManager) (now : Int) (fs : FS) : FS × Option String :=
  match getCacheFilesSorted fs with
  | .error err => (fs, some err)
  | .ok files => (sweepLoop cm now files fs, none)

/-- Loop of `ParseCacheDuration` over the characters: the leading digits are collected in `num`,
the text from the first other character on is the unit. -/
def scanDuration : List Char → List Char → List Char × List Char
  | [], num => (num, [])
  | c :: cs, num =>
    if decide ('0' ≤ c) && decide (c ≤ '9') then scanDuration cs (num ++ [c])
    else (num, c :: cs)

/-- The statement `switch unit` of `ParseCacheDuration`; the products are those of `int64`. -/
def durationSwitch (value : Int) (unit : String) : Int :=
  if unit = "min" then time.mul value time.Minute
  else if unit = "h" then time.mul value time.Hour
  else if unit = "d" then time.mul (time.mul value 24) time.Hour
  else if unit = "w" then time.mul (time.mul (time.mul value 7) 24) time.Hour
  else if unit = "m" then time.mul (time.mul (time.mul value 30) 24) time.Hour
  else if unit = "y" then time.mul (time.mul (time.mul value 365) 24) time.Hour
  else time.Hour

/-- Function `ParseCacheDuration`; the result is a `time.Duration` in nanoseconds. -/
def ParseCacheDuration (unicodeToLower : Char → Char) (duration : String) : Int :=
  if duration = "" then time.Hour
  else
    let duration := strings.ToLower unicodeToLower (strings.TrimSpace duration)
    let scanned := scanDuration duration.data []
    let num := String.mk scanned.1
    let unit := String.mk scanned.2
    match strconv.Atoi num with
    | .error _ => time.Hour
    | .ok value => durationSwitch value unit

/-- The units of the duration grammar. -/
def durationUnits : List String := ["min", "h", "d", "w", "m", "y"]

/-- The duration of a unit as the specification gives it, in nanoseconds: `min` is one minute,
`h` one hour, `d` 24 hours, `w` 7 days, `m` 30 days, `y` 365 days. -/
def unitDuration (unit : String) : Int :=
  if unit = "min" then 60 * 1000000000
  else if unit = "h" then 3600 * 1000000000
  else if unit = "d" then 24 * (3600 * 1000000000)
  else if unit = "w" then 7 * (24 * (3600 * 1000000000))
  else if unit = "m" then 30 * (24 * (3600 * 1000000000))
  else if unit = "y" then 365 * (24 * (3600 * 1000000000))
  else 0

/-- The duration grammar: a non-empty run of decimal digits immediately followed by exactly one
unit. -/
def DurationGrammar (l : List Char) : Prop :=
  ∃ n : List Char, ∃ u : String, l = n ++ u.data ∧ n ≠ [] ∧
    (∀ c ∈ n, strconv.isDigit c = true) ∧ u ∈ durationUnits

end cache

namespace routes

/-- The body of a response: the bytes of an image or the text of an error. -/
inductive Body where
  | bytes (data : Bytes)
  | text (msg : String)
deriving DecidableEq, Repr

/-- What a handler wrote to its `http.ResponseWriter`: status code, headers set and body. -/
structure Response where
  Status : Int
  Header : List (String × String)
  Body : Body
deriving DecidableEq, Repr

/-- Constant `http.StatusInternalServerError`. -/
def StatusInternalServerError : Int := 500

/-- Function `http.Error`: a plain-text reply with the given status code. -/
def Error (msg : String) (code : Int) : Response :=
  { Status := code,
    Header := [("Content-Type", "text/plain; charset=utf-8"),
               ("X-Content-Type-Options", "nosniff")],
    Body := .text (msg ++ "\n") }

/-- Handler `OptimizeImageHandler` on one request: the state afterwards and the reply.  A reply
written without `WriteHeader` has the status 200. -/
def OptimizeImageHandler (env : images.Env) (cm : cache.CacheManager) (tLookup tSave : Int)
    (w : images.World) (fullPath origin : String) : images.World × Response :=
  match images.OptimizeImage env cm tLookup tSave w fullPath origin with
  | (w', .error err) =>
    (w', Error ("Error processing image: " ++ err) StatusInternalServerError)
  | (w', .ok (processedData, contentType)) =>
    (w', { Status := 200,
           Header := [("Content-Type", contentType),
                      ("Cache-Control", "public, max-age=31536000"),
                      ("Access-Control-Allow-Origin", "*"),
                      ("Access-Control-Allow-Methods", "GET, OPTIONS"),
                      ("Access-Control-Allow-Headers", "Content-Type")],
           Body := .bytes processedData })

end routes

namespace images

/-- An environment like `demoEnv` whose network answers every request with status 200 and a page
of HTML. -/
def htmlEnv : Env where
  net := demoEnv.net
  md5hex := demoEnv.md5hex
  Do := fun _ => .ok { StatusCode := 200, ContentType := "text/html", Body := .ok [60, 112, 62] }
  ProcessImage := demoEnv.ProcessImage

end images

namespace cache

/-- The directory without the `i` oldest files of the listing `files`. -/
def withoutOldest (fs : os.FS) (files : List os.FileInfo) (i : Nat) : os.FS :=
  fs.filter (fun d => decide (d.name ∉ (files.take i).map os.FileInfo.Name))

/-- A flat cache directory: it has no sub-directory. -/
def Flat (fs : os.FS) : Prop := ∀ e ∈ fs, e.IsDir = false

instance (fs : os.FS) : Decidable (Flat fs) := by unfold Flat; infer_instance

end cache

namespace images

/-- How steps 1 to 3 of `OptimizeImage` end: with the result of the call, which is a parameter
error or a cache hit, or with a miss, after which the download, the processing and the save
remain to be done for the parameters and the cache key. -/
inductive Lookup where
  | done (result : Except String (Bytes × String))
  | miss (params : ImageParams) (cacheKey : String)
deriving DecidableEq

/-- Steps 1 to 3 of `OptimizeImage`: the parameters are parsed, the cache key is generated and
the cache is consulted, the clock showing `tLookup`. -/
def lookupStep (env : Env) (cm : cache.CacheManager) (tLookup : Int) (w : World)
    (fullPath origin : String) : World × Lookup :=
  match ParseURLParams env.net fullPath origin with
  | .error err => (w, .done (.error ("parameter parsing error: " ++ err)))
  | .ok params =>
    let cacheKey := cache.GenerateCacheKey env.md5hex params.URL params.Width params.Quality
    match cache.GetCachedImage cm tLookup w.fs cacheKey with
    | (fs1, (cachedData, true)) => ({ w with fs := fs1 }, .done (.ok (cachedData, "image/jpeg")))
    | (fs1, (_, false)) => ({ w with fs := fs1 }, .miss params cacheKey)

/-- Steps 4 to 6 of `OptimizeImage`, taken after a miss: the image is downloaded, processed and
saved to the cache, the clock showing `tSave` at the write. -/
def fetchStep (env : Env) (cm : cache.CacheManager) (tSave : Int) (w : World)
    (params : ImageParams) (cacheKey : String) : World × Except String (Bytes × String) :=
  let log1 := w.log ++ [Event.download params.URL params.Origin]
  match DownloadImage env params.URL params.Origin with
  | .error err => ({ fs := w.fs, log := log1 }, .error ("download error: " ++ err))
  | .ok imageData =>
    let log2 := log1 ++ [Event.process imageData params.Width params.Quality]
    match env.ProcessImage imageData params.Width params.Quality with
    | .error err => ({ fs := w.fs, log := log2 }, .error ("processing error: " ++ err))
    | .ok processedData =>
      match cache.SaveImageToCache cm tSave w.fs cacheKey processedData with
      | (fs2, some err) =>
        ({ fs := fs2,
           log := log2 ++ [Event.print ("Warning: Failed to save to cache: " ++ err ++ "\n")] },
          .ok (processedData, "image/jpeg"))
      | (fs2, none) => ({ fs := fs2, log := log2 }, .ok (processedData, "image/jpeg"))

/-- Where a call of `OptimizeImage` stands when another call may run in between: not started,
past a lookup that missed, or returned. -/
inductive Phase where
  | start
  | pending (params : ImageParams) (cacheKey : String)
  | finished (result : Except String (Bytes × String))
deriving DecidableEq

/-- Two calls of `OptimizeImage`, `a` and `b`, that share the cache directory and the record of
downloader calls.  The code takes no lock, so nothing orders the steps of one call against the
steps of the other. -/
structure Run where
  world : World
  a : Phase
  b : Phase
deriving DecidableEq

/-- The next step of one call at instant `t`: the lookup when the call has not started, the
download, processing and save when its lookup missed; a call that returned does nothing. -/
def stepCall (env : Env) (cm : cache.CacheManager) (t : Int) (w : World)
    (fullPath origin : String) : Phase → World × Phase
  | .start =>
    match lookupStep env cm t w fullPath origin with
    | (w1, .done result) => (w1, .finished result)
    | (w1, .miss params cacheKey) => (w1, .pending params cacheKey)
  | .pending params cacheKey =>
    match fetchStep env cm t w params cacheKey with
    | (w2, result) => (w2, .finished result)
  | .finished result => (w, .finished result)

/-- Runs two calls for the same request along a schedule: each item names the call that takes
its next step (`true` is call `a`, `false` is call `b`) and the instant the clock shows. -/
def runSchedule (env : Env) (cm : cache.CacheManager) (fullPath origin : String) :
    List (Bool × Int) → Run → Run
  | [], r => r
  | (true, t) :: rest, r =>
    runSchedule env cm fullPath origin rest
      { world := (stepCall env cm t r.world fullPath origin r.a).1,
        a := (stepCall env cm t r.world fullPath origin r.a).2,
        b := r.b }
  | (false, t) :: rest, r =>
    runSchedule env cm fullPath origin rest
      { world := (stepCall env cm t r.world fullPath origin r.b).1,
        a := r.a,
        b := (stepCall env cm t r.world fullPath origin r.b).2 }

/-- The number of `DownloadImage` invocations in a record. -/
def downloads (log : List Event) : Nat :=
  log.countP (fun e =>
    match e with
    | .download _ _ => true
    | _ => false)

end images

/-! ## Facts about the file system -/

namespace os

theorem lookup_cons (d : DirEntry) (fs : FS) (name : String) :
    lookup (d :: fs) name = if d.name = name then some d else lookup fs name := by
  unfold lookup
  by_cases h : d.name = name <;> simp [List.find?, h]

theorem lookup_some_mem {fs : FS} {name : String} {e : DirEntry} (h : lookup fs name = some e) :
    e ∈ fs ∧ e.name = name := by
  unfold lookup at h
  exact ⟨List.mem_of_find?_eq_some h, by simpa using List.find?_some h⟩

theorem lookup_eq_none_iff {fs : FS} {name : String} :
    lookup fs name = none ↔ ∀ e ∈ fs, e.name ≠ name := by
  unfold lookup
  simp [List.find?_eq_none]

theorem lookup_filter_ne (fs : FS) (n name : String) :
    lookup (fs.filter (fun d => decide (d.name ≠ n))) name =
      if name = n then none else lookup fs name := by
  induction fs with
  | nil => simp [lookup]
  | cons d ds ih =>
    by_cases hd : d.name = n
    · have : (d :: ds).filter (fun d => decide (d.name ≠ n)) =
          ds.filter (fun d => decide (d.name ≠ n)) := by simp [List.filter, hd]
      rw [this, ih, lookup_cons]
      by_cases hk : name = n
      · simp [hk]
      · have : ¬ d.name = name := fun h => hk (h ▸ hd)
        simp [hk, this]
    · have : (d :: ds).filter (fun d => decide (d.name ≠ n)) =
          d :: ds.filter (fun d => decide (d.name ≠ n)) := by simp [List.filter, hd]
      rw [this, lookup_cons, lookup_cons, ih]
      by_cases hk : name = n
      · have : ¬ d.name = name := fun h => hd (h.trans hk)
        simp [hk, this, hd]
      · simp [hk]

theorem lookup_insertByName (e : DirEntry) (fs : FS) (h : lookup fs e.name = none) :
    lookup (insertByName e fs) e.name = some e := by
  induction fs with
  | nil => simp [insertByName, lookup_cons]
  | cons d ds ih =>
    rw [lookup_cons] at h
    by_cases hd : d.name = e.name
    · simp [hd] at h
    · simp only [hd, if_false] at h
      unfold insertByName
      by_cases hlt : e.name.data < d.name.data
      · simp [hlt, lookup_cons]
      · simp [hlt, lookup_cons, hd, ih h]

theorem lookup_map_replace (fs : FS) (name : String) (new : DirEntry) (hnew : new.name = name)
    {old : DirEntry} (h : lookup fs name = some old) :
    lookup (fs.map (fun d => if d.name = name then new else d)) name = some new := by
  induction fs with
  | nil => simp [lookup] at h
  | cons d ds ih =>
    rw [lookup_cons] at h
    rw [List.map_cons, lookup_cons]
    by_cases hd : d.name = name
    · simp [hd, hnew]
    · simp only [hd, if_false] at h ⊢
      exact ih h

/-- After a successful `WriteFile` the name holds a regular file with the written bytes and the
instant of the write. -/
theorem lookup_WriteFile {fs fs' : FS} {name : String} {data : Bytes} {now : Int}
    (h : WriteFile fs name data now = .ok fs') :
    lookup fs' name = some ⟨name, .file data now⟩ := by
  unfold WriteFile at h
  split at h
  · next hl =>
    injection h with h
    subst h
    exact lookup_insertByName ⟨name, .file data now⟩ fs hl
  · next e hl =>
    split at h
    · injection h with h
      subst h
      exact lookup_map_replace fs name ⟨name, .file data now⟩ rfl hl
    · cases h

/-- The function `WriteFile` fails exactly on the name of a directory. -/
theorem WriteFile_ok_of_not_dir (fs : FS) (name : String) (data : Bytes) (now : Int)
    (h : ∀ e, lookup fs name = some e → e.IsDir = false) :
    ∃ fs', WriteFile fs name data now = .ok fs' := by
  unfold WriteFile
  split
  · exact ⟨_, rfl⟩
  · next e hl =>
    have := h e hl
    split
    · exact ⟨_, rfl⟩
    · next hn => simp [DirEntry.IsDir, hn, Node.IsDir] at this

end os

open os cache

/-! ## Facts about the cache store -/

namespace os

theorem Remove_eq_filter {fs fs' : FS} {name : String} (h : Remove fs name = .ok fs') :
    fs' = fs.filter (fun d => decide (d.name ≠ name)) := by
  unfold Remove at h
  split at h
  · cases h
  · split at h
    · injection h with h; exact h.symm
    · split at h
      · injection h with h; exact h.symm
      · cases h

theorem Remove_file {fs : FS} {name : String} {e : DirEntry} (hl : lookup fs name = some e)
    (hf : e.IsDir = false) :
    Remove fs name = .ok (fs.filter (fun d => decide (d.name ≠ name))) := by
  unfold Remove
  rw [hl]
  cases e with
  | mk n node =>
    cases node with
    | file d t => rfl
    | dir t s b => simp [DirEntry.IsDir, Node.IsDir] at hf

end os

namespace cache

theorem GetCachedImage_file (cm : CacheManager) (now : Int) (fs : FS) (k : String)
    {n : String} {data : Bytes} {mt : Int} (hl : lookup fs k = some ⟨n, .file data mt⟩) :
    GetCachedImage cm now fs k =
      if time.Since now mt > cm.CacheDuration then
        (fs.filter (fun d => decide (d.name ≠ k)), ([], false))
      else (fs, (data, true)) := by
  have hr := Remove_file hl rfl
  simp only [GetCachedImage, Stat, hl, DirEntry.Info, Node.ModTime, hr, ReadFile]

theorem mem_collectInfos {fs : FS} {f : FileInfo} :
    f ∈ collectInfos fs ↔
      ∃ e ∈ fs, e.IsDir = false ∧
        f = { Name := e.name, Size := e.node.Size, ModTime := e.node.ModTime, IsDir := false } := by
  induction fs with
  | nil => simp [collectInfos]
  | cons d ds ih =>
    unfold collectInfos
    by_cases hd : d.IsDir = true
    · simp [hd, ih]
    · have hd' : d.IsDir = false := by simpa using hd
      have hn : d.node.IsDir = false := hd'
      simp [hd', DirEntry.Info, ih, hn]

theorem sortInner_perm (cur : FileInfo) (l : List FileInfo) :
    List.Perm ((sortInner cur l).1 :: (sortInner cur l).2) (cur :: l) := by
  induction l generalizing cur with
  | nil => simp [sortInner]
  | cons x xs ih =>
    unfold sortInner
    split
    · exact (List.Perm.swap _ _ _).trans ((ih x).cons cur)
    · exact ((List.Perm.swap _ _ _).trans ((ih cur).cons x)).trans (List.Perm.swap _ _ _)

theorem sortInner_length (cur : FileInfo) (l : List FileInfo) :
    (sortInner cur l).2.length = l.length := by
  have := (sortInner_perm cur l).length_eq
  simpa using this

theorem sortOuter_perm (n : Nat) (l : List FileInfo) : List.Perm (sortOuter n l) l := by
  induction n generalizing l with
  | zero => simp [sortOuter]
  | succ n ih =>
    cases l with
    | nil => simp [sortOuter]
    | cons x xs =>
      simp only [sortOuter]
      exact ((ih _).cons _).trans (sortInner_perm x xs)

theorem sortInner_fst_le_cur (cur : FileInfo) (l : List FileInfo) :
    (sortInner cur l).1.ModTime ≤ cur.ModTime := by
  induction l generalizing cur with
  | nil => simp [sortInner]
  | cons x xs ih =>
    unfold sortInner
    split
    · next h =>
      have h' : x.ModTime < cur.ModTime := by simpa [time.After] using h
      exact le_trans (ih x) (le_of_lt h')
    · exact ih cur

theorem sortInner_fst_le (cur : FileInfo) (l : List FileInfo) :
    ∀ y ∈ (sortInner cur l).2, (sortInner cur l).1.ModTime ≤ y.ModTime := by
  induction l generalizing cur with
  | nil => simp [sortInner]
  | cons x xs ih =>
    unfold sortInner
    split
    · next h =>
      have h' : x.ModTime < cur.ModTime := by simpa [time.After] using h
      intro y hy
      rcases List.mem_cons.1 hy with rfl | hy
      · exact le_trans (sortInner_fst_le_cur x xs) (le_of_lt h')
      · exact ih x y hy
    · next h =>
      have h' : cur.ModTime ≤ x.ModTime := by simpa [time.After] using h
      intro y hy
      rcases List.mem_cons.1 hy with rfl | hy
      · exact le_trans (sortInner_fst_le_cur cur xs) h'
      · exact ih cur y hy

/-- The exchange sort orders its input by modification time, oldest first. -/
theorem sortOuter_sorted (n : Nat) (l : List FileInfo) (hn : l.length - 1 ≤ n) :
    (sortOuter n l).Pairwise (fun a b => a.ModTime ≤ b.ModTime) := by
  induction n generalizing l with
  | zero =>
    match l, hn with
    | [], _ => simp [sortOuter]
    | [x], _ => simp [sortOuter]
    | x :: y :: ys, hn => simp at hn
  | succ n ih =>
    cases l with
    | nil => simp [sortOuter]
    | cons x xs =>
      simp only [sortOuter]
      refine List.pairwise_cons.2 ⟨?_, ih _ ?_⟩
      · intro y hy
        exact sortInner_fst_le x xs y ((sortOuter_perm n _).mem_iff.1 hy)
      · rw [sortInner_length]
        simp at hn
        omega

theorem getCacheFilesSorted_eq (fs : FS) :
    getCacheFilesSorted fs =
      .ok (sortOuter ((collectInfos fs).length - 1) (collectInfos fs)) := rfl

theorem mem_getCacheFilesSorted {fs : FS} {files : List FileInfo}
    (h : getCacheFilesSorted fs = .ok files) {f : FileInfo} :
    f ∈ files ↔ f ∈ collectInfos fs := by
  rw [getCacheFilesSorted_eq] at h
  injection h with h
  subst h
  exact (sortOuter_perm _ _).mem_iff

/-- Looking a key up after the eviction loop finds either nothing or what was there before. -/
theorem lookup_evictLoop (cm : CacheManager) (sz : Int) (files : List FileInfo) (fs : FS)
    (cur : Int) (k : String) :
    lookup (evictLoop cm sz files fs cur) k = none ∨
      lookup (evictLoop cm sz files fs cur) k = lookup fs k := by
  induction files generalizing fs cur with
  | nil => right; rfl
  | cons f rest ih =>
    unfold evictLoop
    split
    · right; rfl
    · simp only []
      split
      · next fs' hr =>
        rcases ih fs' (cur - f.Size) with h | h
        · left; exact h
        · rw [h, Remove_eq_filter hr, lookup_filter_ne]
          by_cases hk : k = f.Name
          · left; simp [hk]
          · right; simp [hk]
      · exact ih fs cur

theorem cleanupIfNeeded_snd (cm : CacheManager) (fs : FS) (sz : Int) :
    (cleanupIfNeeded cm fs sz).2 = none := by
  unfold cleanupIfNeeded
  simp only [getCacheSize, getCacheFilesSorted_eq]
  split <;> rfl

theorem lookup_cleanupIfNeeded (cm : CacheManager) (fs : FS) (sz : Int) (k : String) :
    lookup (cleanupIfNeeded cm fs sz).1 k = none ∨
      lookup (cleanupIfNeeded cm fs sz).1 k = lookup fs k := by
  unfold cleanupIfNeeded
  simp only [getCacheSize, getCacheFilesSorted_eq]
  split
  · right; rfl
  · exact lookup_evictLoop _ _ _ _ _ _

theorem SaveToCache_eq (cm : CacheManager) (now : Int) (fs : FS) (k : String) (b : Bytes) :
    SaveToCache cm now fs k b =
      match WriteFile (cleanupIfNeeded cm fs (b.length : Int)).1 k b now with
      | .ok fs'' => (fs'', none)
      | .error err => ((cleanupIfNeeded cm fs (b.length : Int)).1, some err) := by
  unfold SaveToCache
  have h := cleanupIfNeeded_snd cm fs (b.length : Int)
  generalize cleanupIfNeeded cm fs (b.length : Int) = r at h
  obtain ⟨fs', e⟩ := r
  simp only at h
  subst h
  rfl

/-- A save that reports no error leaves the written bytes under the key, stamped with the
instant of the write. -/
theorem lookup_SaveToCache {cm : CacheManager} {now : Int} {fs : FS} {k : String} {b : Bytes}
    (h : (SaveToCache cm now fs k b).2 = none) :
    lookup (SaveToCache cm now fs k b).1 k = some ⟨k, .file b now⟩ := by
  rw [SaveToCache_eq] at h ⊢
  split at h
  · next fs'' hw => exact lookup_WriteFile hw
  · cases h

end cache

namespace os

theorem WF.eq_of_name {fs : FS} (h : WF fs) {a b : DirEntry} (ha : a ∈ fs) (hb : b ∈ fs)
    (hab : a.name = b.name) : a = b :=
  List.inj_on_of_nodup_map h ha hb hab

theorem WF.lookup_of_mem {fs : FS} (h : WF fs) {a : DirEntry} (ha : a ∈ fs) :
    lookup fs a.name = some a := by
  cases hl : lookup fs a.name with
  | none => exact absurd rfl (lookup_eq_none_iff.1 hl a ha)
  | some e =>
    obtain ⟨he, hn⟩ := lookup_some_mem hl
    rw [h.eq_of_name he ha hn]

theorem lookup_insertByName_ne (e : DirEntry) (fs : FS) {n : String} (hn : n ≠ e.name) :
    lookup (insertByName e fs) n = lookup fs n := by
  induction fs with
  | nil => simp [insertByName, lookup_cons, Ne.symm hn, lookup]
  | cons d ds ih =>
    unfold insertByName
    split
    · rw [lookup_cons]; simp [Ne.symm hn]
    · rw [lookup_cons, lookup_cons, ih]

theorem lookup_map_replace_ne (fs : FS) (name : String) (new : DirEntry) (hnew : new.name = name)
    {n : String} (hn : n ≠ name) :
    lookup (fs.map (fun d => if d.name = name then new else d)) n = lookup fs n := by
  induction fs with
  | nil => rfl
  | cons d ds ih =>
    rw [List.map_cons, lookup_cons, lookup_cons, ih]
    by_cases hd : d.name = name
    · have h1 : ¬ new.name = n := fun h => hn (h ▸ hnew.symm ▸ rfl)
      have h2 : ¬ d.name = n := fun h => hn (h ▸ hd)
      rw [if_pos hd, if_neg h1, if_neg h2]
    · simp [hd]

/-- The function `WriteFile` touches no other name. -/
theorem lookup_WriteFile_ne {fs fs' : FS} {name : String} {data : Bytes} {now : Int}
    (h : WriteFile fs name data now = .ok fs') {n : String} (hn : n ≠ name) :
    lookup fs' n = lookup fs n := by
  unfold WriteFile at h
  split at h
  · injection h with h
    subst h
    exact lookup_insertByName_ne _ fs hn
  · split at h
    · injection h with h
      subst h
      exact lookup_map_replace_ne fs name _ rfl hn
    · cases h

end os

namespace cache

theorem collectInfos_names_sublist (fs : FS) :
    List.Sublist ((collectInfos fs).map FileInfo.Name) (fs.map DirEntry.name) := by
  induction fs with
  | nil => simp [collectInfos]
  | cons d ds ih =>
    unfold collectInfos
    by_cases hd : d.IsDir = true
    · simpa [hd] using ih.cons _
    · have hd' : d.IsDir = false := by simpa using hd
      simpa [hd', DirEntry.Info] using ih.cons₂ d.name

theorem getCacheFilesSorted_names_nodup {fs : FS} (hwf : WF fs) {files : List FileInfo}
    (h : getCacheFilesSorted fs = .ok files) : (files.map FileInfo.Name).Nodup := by
  rw [getCacheFilesSorted_eq] at h
  injection h with h
  subst h
  exact ((sortOuter_perm _ _).map _).nodup_iff.2
    ((collectInfos_names_sublist fs).nodup hwf)

theorem getCacheFilesSorted_sorted {fs : FS} {files : List FileInfo}
    (h : getCacheFilesSorted fs = .ok files) :
    files.Pairwise (fun a b => a.ModTime ≤ b.ModTime) := by
  rw [getCacheFilesSorted_eq] at h
  injection h with h
  subst h
  exact sortOuter_sorted _ _ le_rfl

theorem getCacheFilesSorted_lookup {fs : FS} (hwf : WF fs) {files : List FileInfo}
    (h : getCacheFilesSorted fs = .ok files) {f : FileInfo} (hf : f ∈ files) :
    ∃ e, lookup fs f.Name = some e ∧ e.IsDir = false ∧ e ∈ fs ∧
      f = { Name := e.name, Size := e.node.Size, ModTime := e.node.ModTime, IsDir := false } := by
  obtain ⟨e, he, hd, rfl⟩ := mem_collectInfos.1 ((mem_getCacheFilesSorted h).1 hf)
  exact ⟨e, hwf.lookup_of_mem he, hd, he, rfl⟩

/-- When every listed file is a regular file of the directory and no name is listed twice, the
eviction loop deletes exactly the names of a prefix of the listing. -/
theorem evictLoop_prefix (cm : CacheManager) (sz : Int) (files : List FileInfo) (fs : FS)
    (cur : Int)
    (hfile : ∀ f ∈ files, ∃ e, lookup fs f.Name = some e ∧ e.IsDir = false)
    (hnd : (files.map FileInfo.Name).Nodup) :
    ∃ k, k ≤ files.length ∧ evictLoop cm sz files fs cur =
      fs.filter (fun d => decide (d.name ∉ (files.take k).map FileInfo.Name)) := by
  induction files generalizing fs cur with
  | nil => exact ⟨0, le_rfl, by simp [evictLoop]⟩
  | cons f rest ih =>
    unfold evictLoop
    split
    · exact ⟨0, Nat.zero_le _, by simp⟩
    · obtain ⟨e, hl, hd⟩ := hfile f (List.mem_cons_self _ _)
      rw [Remove_file hl hd]
      simp only []
      have hnd' : f.Name ∉ rest.map FileInfo.Name ∧ (rest.map FileInfo.Name).Nodup :=
        List.nodup_cons.1 (by simpa using hnd)
      have hfile' : ∀ g ∈ rest, ∃ e,
          lookup (fs.filter (fun d => decide (d.name ≠ f.Name))) g.Name = some e ∧
            e.IsDir = false := by
        intro g hg
        obtain ⟨e', hl', hd'⟩ := hfile g (List.mem_cons_of_mem _ hg)
        have hne : g.Name ≠ f.Name := by
          intro heq
          exact hnd'.1 (heq ▸ List.mem_map_of_mem FileInfo.Name hg)
        exact ⟨e', by rw [lookup_filter_ne]; simp [hne, hl'], hd'⟩
      obtain ⟨k, hk, heq⟩ := ih (fs.filter (fun d => decide (d.name ≠ f.Name)))
        (cur - f.Size) hfile' hnd'.2
      refine ⟨k + 1, by simpa using hk, ?_⟩
      rw [heq, List.filter_filter]
      congr 1
      funext d
      simp [List.take, not_or, Bool.and_comm]

/-- The directory after `cleanupIfNeeded` is the directory before it without the names of a prefix
of the oldest-first listing. -/
theorem cleanupIfNeeded_prefix (cm : CacheManager) (fs : FS) (sz : Int) (hwf : WF fs) :
    ∃ files k, getCacheFilesSorted fs = .ok files ∧ k ≤ files.length ∧
      (cleanupIfNeeded cm fs sz).1 =
        fs.filter (fun d => decide (d.name ∉ (files.take k).map FileInfo.Name)) := by
  suffices h : ∃ k, k ≤ (sortOuter ((collectInfos fs).length - 1) (collectInfos fs)).length ∧
      (cleanupIfNeeded cm fs sz).1 = fs.filter (fun d => decide (d.name ∉
        ((sortOuter ((collectInfos fs).length - 1) (collectInfos fs)).take k).map
          FileInfo.Name)) by
    obtain ⟨k, hk, h⟩ := h
    exact ⟨_, k, getCacheFilesSorted_eq fs, hk, h⟩
  unfold cleanupIfNeeded
  simp only [getCacheSize, getCacheFilesSorted_eq]
  split
  · exact ⟨0, Nat.zero_le _, by simp⟩
  · apply evictLoop_prefix
    · intro f hf
      obtain ⟨e, hl, hd, _⟩ := getCacheFilesSorted_lookup hwf (getCacheFilesSorted_eq fs) hf
      exact ⟨e, hl, hd⟩
    · exact getCacheFilesSorted_names_nodup hwf (getCacheFilesSorted_eq fs)

end cache

/-! ## The cache store: round trip, expiry, eviction order, lenient budget -/

namespace cache

/-- Claim C1.  Whatever the directory, key and bytes: when `SaveToCache(k, b)` at instant `tWrite`
reports no error, `GetCachedImage(k)` at any instant `tRead` at which the age of the written
file, `time.Since` of its modification time, does not exceed `CacheDuration`, returns
`(b, true)`. -/
theorem SaveToCache_then_GetCachedImage (cm : CacheManager) (tWrite tRead : Int) (fs : FS)
    (k : String) (b : Bytes)
    (hsave : (SaveToCache cm tWrite fs k b).2 = none)
    (hage : time.Since tRead tWrite ≤ cm.CacheDuration) :
    (GetCachedImage cm tRead (SaveToCache cm tWrite fs k b).1 k).2 = (b, true) := by
  rw [GetCachedImage_file cm tRead _ k (lookup_SaveToCache hsave)]
  rw [if_neg (not_lt.2 hage)]

/-- A concrete round trip for C1: a save that has to evict, read back one hour later. -/
theorem SaveToCache_then_GetCachedImage_witness :
    (SaveToCache ⟨"cache", 3600, 4⟩ 100
        [⟨"a.jpg", .file [1, 2, 3] 7⟩, ⟨"b.jpg", .file [4] 3⟩] "k.jpg" [9, 8]).2 = none ∧
      time.Since 3700 100 ≤ (3600 : Int) ∧
      (GetCachedImage ⟨"cache", 3600, 4⟩ 3700
        (SaveToCache ⟨"cache", 3600, 4⟩ 100
          [⟨"a.jpg", .file [1, 2, 3] 7⟩, ⟨"b.jpg", .file [4] 3⟩] "k.jpg" [9, 8]).1 "k.jpg").2
        = ([9, 8], true) :=
  ⟨by decide, by decide,
    SaveToCache_then_GetCachedImage ⟨"cache", 3600, 4⟩ 100 3700
      [⟨"a.jpg", .file [1, 2, 3] 7⟩, ⟨"b.jpg", .file [4] 3⟩] "k.jpg" [9, 8]
      (by decide) (by decide)⟩

/-- Claim C2.  When the key names a regular file: if its age `time.Since now modTime` exceeds
`CacheDuration`, `GetCachedImage` returns `(nil, false)` and deletes the file, so that the key
is gone from the directory and `getCacheFilesSorted` afterwards returns a listing with no entry
of that name; if the age equals `CacheDuration` exactly, the call is a hit that returns the
bytes and leaves the directory as it was. -/
theorem GetCachedImage_expiry (cm : CacheManager) (now : Int) (fs : FS) (k : String)
    (data : Bytes) (mt : Int) (hfile : lookup fs k = some ⟨k, .file data mt⟩) :
    (cm.CacheDuration < time.Since now mt →
      (GetCachedImage cm now fs k).2 = ([], false) ∧
      lookup (GetCachedImage cm now fs k).1 k = none ∧
      ∃ files, getCacheFilesSorted (GetCachedImage cm now fs k).1 = .ok files ∧
        ∀ f ∈ files, f.Name ≠ k) ∧
    (time.Since now mt = cm.CacheDuration →
      GetCachedImage cm now fs k = (fs, (data, true))) := by
  rw [GetCachedImage_file cm now fs k hfile]
  constructor
  · intro hexp
    rw [if_pos hexp]
    refine ⟨rfl, ?_, _, getCacheFilesSorted_eq _, ?_⟩
    · show lookup (fs.filter (fun d => decide (d.name ≠ k))) k = none
      rw [lookup_filter_ne, if_pos rfl]
    · intro f hf
      obtain ⟨e, he, _, rfl⟩ :=
        mem_collectInfos.1 ((mem_getCacheFilesSorted (getCacheFilesSorted_eq _)).1 hf)
      simpa using (List.mem_filter.1 he).2
  · intro heq
    rw [if_neg (by rw [heq]; exact lt_irrefl _)]

/-- Concrete instances for C2: with a duration of 50, the file written at instant 10 is a miss
and is deleted at instant 61, and is still a hit at instant 60. -/
theorem GetCachedImage_expiry_witness :
    (GetCachedImage ⟨"cache", 50, 100⟩ 61
        [⟨"a.jpg", .file [1] 5⟩, ⟨"k.jpg", .file [7, 7] 10⟩] "k.jpg")
      = ([⟨"a.jpg", .file [1] 5⟩], ([], false)) ∧
    (GetCachedImage ⟨"cache", 50, 100⟩ 60
        [⟨"a.jpg", .file [1] 5⟩, ⟨"k.jpg", .file [7, 7] 10⟩] "k.jpg")
      = ([⟨"a.jpg", .file [1] 5⟩, ⟨"k.jpg", .file [7, 7] 10⟩], ([7, 7], true)) ∧
    (∃ files, getCacheFilesSorted (GetCachedImage ⟨"cache", 50, 100⟩ 61
        [⟨"a.jpg", .file [1] 5⟩, ⟨"k.jpg", .file [7, 7] 10⟩] "k.jpg").1 = .ok files ∧
        ∀ f ∈ files, f.Name ≠ "k.jpg") :=
  ⟨by decide,
    (GetCachedImage_expiry ⟨"cache", 50, 100⟩ 60
      [⟨"a.jpg", .file [1] 5⟩, ⟨"k.jpg", .file [7, 7] 10⟩] "k.jpg" [7, 7] 10
      (by decide)).2 (by decide),
    ((GetCachedImage_expiry ⟨"cache", 50, 100⟩ 61
      [⟨"a.jpg", .file [1] 5⟩, ⟨"k.jpg", .file [7, 7] 10⟩] "k.jpg" [7, 7] 10
      (by decide)).1 (by decide)).2.2⟩

/-- Claim C3.  In a directory without duplicate names, `SaveToCache(k, b)` evicts through
`cleanupIfNeeded(len b)` and then writes `k` only: every other name holds afterwards what the
eviction left.  Every regular file that the eviction removed has a modification time less than
or equal to that of every regular file that the eviction retained. -/
theorem SaveToCache_evicts_oldest_first (cm : CacheManager) (now : Int) (fs : FS) (k : String)
    (b : Bytes) (hwf : WF fs) :
    (∀ n, n ≠ k → lookup (SaveToCache cm now fs k b).1 n =
        lookup (cleanupIfNeeded cm fs (b.length : Int)).1 n) ∧
    (∀ r e : DirEntry, r ∈ fs → r.IsDir = false → e ∈ fs → e.IsDir = false →
      r ∉ (cleanupIfNeeded cm fs (b.length : Int)).1 →
      e ∈ (cleanupIfNeeded cm fs (b.length : Int)).1 →
      r.node.ModTime ≤ e.node.ModTime) := by
  constructor
  · intro n hn
    rw [SaveToCache_eq]
    split
    · next fs'' hw => exact lookup_WriteFile_ne hw hn
    · rfl
  · intro r e hr hrf he hef hrem hret
    obtain ⟨files, j, hfiles, _, hmid⟩ := cleanupIfNeeded_prefix cm fs (b.length : Int) hwf
    rw [hmid] at hrem hret
    have hrn : r.name ∈ (files.take j).map FileInfo.Name := by
      by_contra hcon
      exact hrem (List.mem_filter.2 ⟨hr, by simpa using hcon⟩)
    have hen : e.name ∉ (files.take j).map FileInfo.Name := by
      simpa using (List.mem_filter.1 hret).2
    obtain ⟨f, hf, hfn⟩ := List.mem_map.1 hrn
    obtain ⟨r', _, _, hr', hfr⟩ :=
      getCacheFilesSorted_lookup hwf hfiles (List.mem_of_mem_take hf)
    have hrr : r' = r := hwf.eq_of_name hr' hr (by rw [← hfn, hfr])
    subst hrr
    have hg : (⟨e.name, e.node.Size, e.node.ModTime, false⟩ : FileInfo) ∈ files :=
      (mem_getCacheFilesSorted hfiles).2 (mem_collectInfos.2 ⟨e, he, hef, rfl⟩)
    rw [← List.take_append_drop j files] at hg
    rcases List.mem_append.1 hg with hg | hg
    · exact absurd (List.mem_map_of_mem FileInfo.Name hg) hen
    · have hs := getCacheFilesSorted_sorted hfiles
      rw [← List.take_append_drop j files] at hs
      have := (List.pairwise_append.1 hs).2.2 f hf _ hg
      rw [hfr] at this
      exact this

/-- A concrete eviction for C3: with a budget of 4 bytes, saving 2 bytes next to files of 3 bytes
(time 7), 1 byte (time 3) and 1 byte (time 9) removes the file of time 3, keeps the one of time
7, and the removed one is the older. -/
theorem SaveToCache_evicts_oldest_first_witness :
    WF [⟨"a.jpg", .file [1, 2, 3] 7⟩, ⟨"b.jpg", .file [4] 3⟩, ⟨"c.jpg", .file [5] 9⟩] ∧
    (⟨"b.jpg", .file [4] 3⟩ : DirEntry) ∉ (cleanupIfNeeded ⟨"cache", 3600, 6⟩
      [⟨"a.jpg", .file [1, 2, 3] 7⟩, ⟨"b.jpg", .file [4] 3⟩, ⟨"c.jpg", .file [5] 9⟩] 2).1 ∧
    (⟨"a.jpg", .file [1, 2, 3] 7⟩ : DirEntry) ∈ (cleanupIfNeeded ⟨"cache", 3600, 6⟩
      [⟨"a.jpg", .file [1, 2, 3] 7⟩, ⟨"b.jpg", .file [4] 3⟩, ⟨"c.jpg", .file [5] 9⟩] 2).1 ∧
    (os.Node.file [4] 3).ModTime ≤ (os.Node.file [1, 2, 3] 7).ModTime :=
  ⟨by decide, by decide, by decide,
    (SaveToCache_evicts_oldest_first ⟨"cache", 3600, 6⟩ 100
      [⟨"a.jpg", .file [1, 2, 3] 7⟩, ⟨"b.jpg", .file [4] 3⟩, ⟨"c.jpg", .file [5] 9⟩]
      "k.jpg" [9, 8] (by decide)).2
      ⟨"b.jpg", .file [4] 3⟩ ⟨"a.jpg", .file [1, 2, 3] 7⟩
      (by decide) (by decide) (by decide) (by decide) (by decide) (by decide)⟩

/-- Claim C4.  The size budget never makes `SaveToCache` fail.  In this file system the only
operation of `SaveToCache` that can fail is the write onto a name that is a directory; whenever
the key is not the name of a directory, and whatever `MaxCacheSize` and the size of the bytes
are, `SaveToCache` returns `nil` and the key holds the bytes afterwards. -/
theorem SaveToCache_never_rejects_for_size (cm : CacheManager) (now : Int) (fs : FS)
    (k : String) (b : Bytes) (hk : ∀ e, lookup fs k = some e → e.IsDir = false) :
    (SaveToCache cm now fs k b).2 = none ∧
      ReadFile (SaveToCache cm now fs k b).1 k = .ok b := by
  have hmid : ∀ e, lookup (cleanupIfNeeded cm fs (b.length : Int)).1 k = some e →
      e.IsDir = false := by
    intro e he
    rcases lookup_cleanupIfNeeded cm fs (b.length : Int) k with h | h
    · rw [h] at he; cases he
    · exact hk e (h ▸ he)
  obtain ⟨fs'', hw⟩ := WriteFile_ok_of_not_dir _ k b now hmid
  have hnone : (SaveToCache cm now fs k b).2 = none := by
    rw [SaveToCache_eq, hw]
  refine ⟨hnone, ?_⟩
  simp only [ReadFile, lookup_SaveToCache hnone]

/-- A concrete save for C4: three bytes are saved under a budget of two bytes, with a
sub-directory holding nine bytes that eviction cannot touch; the save succeeds. -/
theorem SaveToCache_never_rejects_for_size_witness :
    (∀ e, lookup [⟨"a.jpg", .file [1] 7⟩, ⟨"sub", .dir 0 9 false⟩] "k.jpg" = some e →
      e.IsDir = false) ∧
    SaveToCache ⟨"cache", 3600, 2⟩ 100 [⟨"a.jpg", .file [1] 7⟩, ⟨"sub", .dir 0 9 false⟩]
      "k.jpg" [9, 8, 7] =
      ([⟨"k.jpg", .file [9, 8, 7] 100⟩, ⟨"sub", .dir 0 9 false⟩], none) ∧
    ReadFile (SaveToCache ⟨"cache", 3600, 2⟩ 100
      [⟨"a.jpg", .file [1] 7⟩, ⟨"sub", .dir 0 9 false⟩] "k.jpg" [9, 8, 7]).1 "k.jpg"
      = .ok [9, 8, 7] :=
  ⟨by decide, by decide,
    (SaveToCache_never_rejects_for_size ⟨"cache", 3600, 2⟩ 100
      [⟨"a.jpg", .file [1] 7⟩, ⟨"sub", .dir 0 9 false⟩] "k.jpg" [9, 8, 7] (by decide)).2⟩

end cache

/-! ## The cache key -/

namespace strconv

theorem digitVal_digitChar {d : Nat} (h : d < 10) : digitVal (digitChar d) = d := by
  interval_cases d <;> rfl

theorem digitChar_ne {d : Nat} (h : d < 10) (c : Char) (hc : c = '_' ∨ c = '-') :
    digitChar d ≠ c := by
  rcases hc with rfl | rfl <;> interval_cases d <;> decide

theorem digitsValue_append (l : List Char) (c : Char) :
    digitsValue (l ++ [c]) = digitsValue l * 10 + digitVal c := by
  simp [digitsValue, List.foldl_append]

theorem digitsValue_natDigits (fuel n : Nat) (h : n < fuel) :
    digitsValue (natDigits fuel n) = n := by
  induction fuel generalizing n with
  | zero => omega
  | succ fuel ih =>
    unfold natDigits
    split
    · next hlt => simp [digitsValue, digitVal_digitChar hlt]
    · next hge =>
      rw [digitsValue_append, ih (n / 10) (by omega), digitVal_digitChar (Nat.mod_lt _ (by omega))]
      omega

theorem mem_natDigits (fuel n : Nat) (c : Char) (hc : c ∈ natDigits fuel n) :
    ∃ d, d < 10 ∧ c = digitChar d := by
  induction fuel generalizing n with
  | zero => simp [natDigits] at hc
  | succ fuel ih =>
    unfold natDigits at hc
    split at hc
    · next hlt => exact ⟨n, hlt, by simpa using hc⟩
    · rcases List.mem_append.1 hc with h | h
      · exact ih _ h
      · exact ⟨n % 10, Nat.mod_lt _ (by omega), by simpa using h⟩

theorem FormatUint_injective {m n : Nat} (h : FormatUint m = FormatUint n) : m = n := by
  have := congrArg digitsValue h
  simpa [FormatUint, digitsValue_natDigits] using this

theorem not_mem_FormatUint (n : Nat) (c : Char) (hc : c = '_' ∨ c = '-') :
    c ∉ FormatUint n := by
  intro hmem
  obtain ⟨d, hd, rfl⟩ := mem_natDigits _ _ _ hmem
  exact digitChar_ne hd _ hc rfl

/-- The decimal rendering contains no underscore. -/
theorem underscore_not_mem_Itoa (i : Int) : '_' ∉ (Itoa i).data := by
  unfold Itoa
  split
  · simp only [List.mem_cons, not_or]
    exact ⟨by decide, not_mem_FormatUint _ _ (Or.inl rfl)⟩
  · exact not_mem_FormatUint _ _ (Or.inl rfl)

/-- Different integers are rendered differently. -/
theorem Itoa_injective {i j : Int} (h : Itoa i = Itoa j) : i = j := by
  unfold Itoa at h
  have key : ∀ n m : Nat, '-' :: FormatUint n ≠ FormatUint m := by
    intro n m hnm
    exact not_mem_FormatUint m '-' (Or.inr rfl) (hnm ▸ List.mem_cons_self _ _)
  split at h <;> split at h
  · have := FormatUint_injective (List.cons.inj (congrArg String.data h)).2
    omega
  · exact absurd (congrArg String.data h) (key _ _)
  · exact absurd (congrArg String.data h).symm (key _ _)
  · have := FormatUint_injective (congrArg String.data h)
    omega

end strconv

namespace cache

theorem append_sep_inj {c : Char} {a a' b b' : List Char} (hb : c ∉ b) (hb' : c ∉ b')
    (h : a ++ c :: b = a' ++ c :: b') : a = a' ∧ b = b' := by
  induction a generalizing a' with
  | nil =>
    cases a' with
    | nil => exact ⟨rfl, by simpa using h⟩
    | cons x t =>
      simp only [List.nil_append, List.cons_append, List.cons.injEq] at h
      exact absurd (h.2 ▸ List.mem_append_right t (List.mem_cons_self c b')) hb
  | cons y s ih =>
    cases a' with
    | nil =>
      simp only [List.nil_append, List.cons_append, List.cons.injEq] at h
      exact absurd (h.2 ▸ List.mem_append_right s (List.mem_cons_self c b)) hb'
    | cons x t =>
      simp only [List.cons_append, List.cons.injEq] at h
      obtain ⟨h1, h2⟩ := ih h.2
      exact ⟨by rw [h.1, h1], h2⟩

theorem cacheKeyData_data (url : String) (w q : Int) :
    (cacheKeyData url w q).data =
      (url.data ++ '_' :: (strconv.Itoa w).data) ++ '_' :: (strconv.Itoa q).data := by
  simp [cacheKeyData, String.data_append]

/-- Claim C5.  The string hashed by `GenerateCacheKey`, the URL, an underscore, the width in
decimal, an underscore and the quality in decimal, determines the triple: two triples that
differ in the URL, the width or the quality give different strings, whatever characters the URL
contains and whatever the two integers are. -/
theorem cacheKeyData_unambiguous (url1 url2 : String) (w1 q1 w2 q2 : Int)
    (hne : (url1, w1, q1) ≠ (url2, w2, q2)) :
    cacheKeyData url1 w1 q1 ≠ cacheKeyData url2 w2 q2 := by
  intro h
  have hd := congrArg String.data h
  rw [cacheKeyData_data, cacheKeyData_data] at hd
  obtain ⟨h1, hq⟩ := append_sep_inj (strconv.underscore_not_mem_Itoa q1)
    (strconv.underscore_not_mem_Itoa q2) hd
  obtain ⟨hu, hw⟩ := append_sep_inj (strconv.underscore_not_mem_Itoa w1)
    (strconv.underscore_not_mem_Itoa w2) h1
  apply hne
  rw [String.ext hu, strconv.Itoa_injective (String.ext hw),
    strconv.Itoa_injective (String.ext hq)]

/-- Two triples for C5 whose fields read the same when the separators are ignored: the URL
`a_1` with width 2 against the URL `a` with width 12. -/
theorem cacheKeyData_unambiguous_witness :
    (("a_1", 2, 3) : String × Int × Int) ≠ ("a", 12, 3) ∧
      cacheKeyData "a_1" 2 3 = "a_1_2_3" ∧ cacheKeyData "a" 12 3 = "a_12_3" ∧
      cacheKeyData "a_1" 2 3 ≠ cacheKeyData "a" 12 3 :=
  ⟨by decide, by decide, by decide,
    cacheKeyData_unambiguous "a_1" "a" 2 3 12 3 (by decide)⟩

end cache

/-! ## The parameter parser -/

namespace images

theorem cutLiteral_append (p s : List Char) : cutLiteral p (p ++ s) = some s := by
  induction p with
  | nil => cases s <;> rfl
  | cons c cs ih => simp [cutLiteral, ih]

theorem cutLiteral_head_ne {p c : Char} (ps cs : List Char) (h : p ≠ c) :
    cutLiteral (p :: ps) (c :: cs) = none := by
  simp [cutLiteral, h]

theorem matchTail_eq {s : List Char} (h1 : s ≠ []) (h2 : '\n' ∉ s) : matchTail s = some s := by
  simp [matchTail, h1, h2]

theorem matchDigits_cons {α : Type} (k : List Char → List Char → Option α)
    (acc : List Char) (c : Char) (cs : List Char) :
    matchDigits k acc (c :: cs) =
      if strconv.isDigit c then
        match matchDigits k (acc ++ [c]) cs with
        | some r => some r
        | none => k (acc ++ [c]) cs
      else none := rfl

theorem matchDigits_nondigit {α : Type} (k : List Char → List Char → Option α)
    (acc : List Char) {c : Char} (cs : List Char) (hc : strconv.isDigit c = false) :
    matchDigits k acc (c :: cs) = none := by
  rw [matchDigits_cons, hc]; rfl

/-- On a run of digits that ends before a character that is no digit, `\d+` takes the whole run
when the rest of the pattern matches after it. -/
theorem matchDigits_run {α : Type} (k : List Char → List Char → Option α) (ds : List Char)
    (acc : List Char) (c : Char) (rest : List Char) (r : α)
    (hds : ∀ d ∈ ds, strconv.isDigit d = true) (hne : ds ≠ [])
    (hc : strconv.isDigit c = false) (hk : k (acc ++ ds) (c :: rest) = some r) :
    matchDigits k acc (ds ++ c :: rest) = some r := by
  induction ds generalizing acc with
  | nil => exact absurd rfl hne
  | cons d ds ih =>
    have hd : strconv.isDigit d = true := hds d (List.mem_cons_self _ _)
    cases ds with
    | nil =>
      rw [List.cons_append, List.nil_append, matchDigits_cons, hd, if_pos rfl,
        matchDigits_nondigit k _ rest hc]
      exact hk
    | cons d' ds' =>
      have := ih (acc ++ [d]) (fun x hx => hds x (List.mem_cons_of_mem _ hx))
        (List.cons_ne_nil _ _) (by simpa using hk)
      rw [List.cons_append, matchDigits_cons, hd, if_pos rfl, this]

theorem hostChar_ne {c : Char} (h : hostChar c = true) (x : Char) (hx : hostChar x = false) :
    c ≠ x := by
  intro e
  rw [e, hx] at h
  cases h

theorem Target.chars {host path : List Char} (h : Target host path) :
    ∀ c ∈ host ++ path, hostChar c = true ∨ c = '/' := by
  intro c hc
  rcases List.mem_append.1 hc with hc | hc
  · exact Or.inl (h.host_chars c hc)
  · exact h.path_chars c hc

theorem Target.not_mem {host path : List Char} (h : Target host path) (x : Char)
    (hx : hostChar x = false) (hx' : x ≠ '/') : x ∉ host ++ path := by
  intro hmem
  rcases h.chars x hmem with h1 | h1
  · rw [hx] at h1; cases h1
  · exact hx' h1

theorem Target.cons {host path : List Char} (h : Target host path) :
    ∃ c t, host ++ path = c :: t ∧ hostChar c = true := by
  cases hh : host with
  | nil => exact absurd hh h.host_ne
  | cons c t => exact ⟨c, t ++ path, rfl, h.host_chars c (hh ▸ List.mem_cons_self _ _)⟩

theorem Target.matchTail_target {host path : List Char} (h : Target host path) :
    matchTail (host ++ path) = some (host ++ path) := by
  apply images.matchTail_eq
  · obtain ⟨c, t, e, _⟩ := h.cons
    rw [e]; exact List.cons_ne_nil _ _
  · exact h.not_mem '\n' (by decide) (by decide)

theorem Target.matchSlashTail_slash {host path : List Char} (h : Target host path) :
    matchSlashTail ('/' :: (host ++ path)) = some (host ++ path) := by
  have : cutLiteral ['/'] ('/' :: (host ++ path)) = some (host ++ path) :=
    cutLiteral_append ['/'] (host ++ path)
  simp only [matchSlashTail, this, h.matchTail_target]

theorem Target.matchSlashTail_eq {host path : List Char} (h : Target host path) :
    matchSlashTail (host ++ path) = some (host ++ path) := by
  obtain ⟨c, t, e, hc⟩ := h.cons
  have : cutLiteral ['/'] (host ++ path) = none := by
    rw [e]; exact cutLiteral_head_ne _ _ (hostChar_ne hc '/' (by decide)).symm
  simp only [matchSlashTail, this, h.matchTail_target]

/-- The part of the pattern after the width group, on `[,q_<Q>]/<target>`. -/
theorem Target.matchQuality_token {host path : List Char} (h : Target host path)
    (Q : Option (List Char)) (hQ : ∀ ds, Q = some ds → DecimalIn 1 100 ds) :
    matchQuality (qualityToken Q ++ '/' :: (host ++ path)) = some (Q.getD [], host ++ path) := by
  cases Q with
  | none =>
    have : cutLiteral [',', 'q', '_'] ('/' :: (host ++ path)) = none :=
      cutLiteral_head_ne _ _ (by decide)
    simp [qualityToken, matchQuality, this, h.matchSlashTail_slash]
  | some ds =>
    obtain ⟨hne, hds, _, _⟩ := hQ ds rfl
    have hcut : cutLiteral [',', 'q', '_'] (',' :: 'q' :: '_' :: (ds ++ '/' :: (host ++ path)))
        = some (ds ++ '/' :: (host ++ path)) :=
      cutLiteral_append [',', 'q', '_'] _
    have hrun := matchDigits_run
      (fun ds r' => (matchSlashTail r').map (fun t => (ds, t))) ds [] '/' (host ++ path)
      (ds, host ++ path) hds hne (by decide) (by simp [h.matchSlashTail_slash])
    simp only [qualityToken, List.cons_append, matchQuality, hcut, hrun, Option.getD_some]

/-- The pattern after the leading slash, on a target without tokens before it. -/
theorem Target.matchWidth_bare {host path : List Char} (h : Target host path) :
    matchWidth (host ++ path) = some ([], [], host ++ path) := by
  obtain ⟨c, t, e, hc⟩ := h.cons
  have hq : cutLiteral [',', 'q', '_'] (host ++ path) = none := by
    rw [e]; exact cutLiteral_head_ne _ _ (hostChar_ne hc ',' (by decide)).symm
  have hw : cutLiteral ['w', '_'] (host ++ path) = none := by
    rw [e]
    by_cases hcw : 'w' = c
    · cases t with
      | nil => simp [cutLiteral, hcw]
      | cons c' t' =>
        have : '_' ≠ c' := by
          intro e'
          apply h.not_mem '_' (by decide) (by decide)
          rw [e, ← e']
          simp
        simp [cutLiteral, hcw, this]
    · exact cutLiteral_head_ne _ _ hcw
  simp only [matchWidth, hw, matchQuality, hq, h.matchSlashTail_eq, Option.map_some']

/-- The pattern after the leading slash, on `[w_<W>][,q_<Q>]/<target>`. -/
theorem Target.matchWidth_token {host path : List Char} (h : Target host path)
    (W Q : Option (List Char)) (hW : ∀ ds, W = some ds → DecimalIn 1 2000 ds)
    (hQ : ∀ ds, Q = some ds → DecimalIn 1 100 ds) :
    matchWidth (widthToken W ++ (qualityToken Q ++ '/' :: (host ++ path))) =
      some (W.getD [], Q.getD [], host ++ path) := by
  have hq := h.matchQuality_token Q hQ
  obtain ⟨c, rest, hc, hcd, hcw⟩ : ∃ c rest, qualityToken Q ++ '/' :: (host ++ path) = c :: rest ∧
      strconv.isDigit c = false ∧ 'w' ≠ c := by
    cases Q with
    | none => exact ⟨'/', _, rfl, by decide, by decide⟩
    | some ds => exact ⟨',', _, rfl, by decide, by decide⟩
  cases W with
  | none =>
    have : cutLiteral ['w', '_'] (qualityToken Q ++ '/' :: (host ++ path)) = none := by
      rw [hc]; exact cutLiteral_head_ne _ _ hcw
    simp only [widthToken, List.nil_append, matchWidth, this, hq, Option.map_some',
      Option.getD_none]
  | some ds =>
    obtain ⟨hne, hds, _, _⟩ := hW ds rfl
    have hcut : cutLiteral ['w', '_']
        ('w' :: '_' :: (ds ++ (qualityToken Q ++ '/' :: (host ++ path))))
        = some (ds ++ (qualityToken Q ++ '/' :: (host ++ path))) :=
      cutLiteral_append ['w', '_'] _
    have hrun := matchDigits_run
      (fun ds r' => (matchQuality r').map (fun m => (ds, m.1, m.2))) ds [] c rest
      (ds, Q.getD [], host ++ path) hds hne hcd (by rw [← hc]; simp [hq])
    rw [← hc] at hrun
    simp only [widthToken, List.cons_append, matchWidth, hcut, hrun, Option.getD_some]

/-- The regular expression on a well-formed request path: the groups are the digits of the
width token, the digits of the quality token and the target. -/
theorem Target.FindStringSubmatch_eq {host path : List Char} (h : Target host path) (lead : Bool)
    (W Q : Option (List Char)) (hW : ∀ ds, W = some ds → DecimalIn 1 2000 ds)
    (hQ : ∀ ds, Q = some ds → DecimalIn 1 100 ds) :
    FindStringSubmatch (requestPath lead W Q (host ++ path)) =
      some (String.mk (W.getD []), String.mk (Q.getD []), String.mk (host ++ path)) := by
  have hm := h.matchWidth_token W Q hW hQ
  cases lead with
  | true =>
    have hcut : cutLiteral ['/']
        ('/' :: (widthToken W ++ (qualityToken Q ++ '/' :: (host ++ path)))) =
        some (widthToken W ++ (qualityToken Q ++ '/' :: (host ++ path))) :=
      cutLiteral_append ['/'] _
    simp [images.FindStringSubmatch, requestPath, hcut, hm]
  | false =>
    cases W with
    | some ds =>
      have hcut : cutLiteral ['/']
          (widthToken (some ds) ++ (qualityToken Q ++ '/' :: (host ++ path))) = none :=
        cutLiteral_head_ne _ _ (by decide)
      simp [images.FindStringSubmatch, requestPath, hcut, hm]
    | none =>
      cases Q with
      | some ds =>
        have hcut : cutLiteral ['/']
            (widthToken none ++ (qualityToken (some ds) ++ '/' :: (host ++ path))) = none :=
          cutLiteral_head_ne _ _ (by decide)
        simp [images.FindStringSubmatch, requestPath, hcut, hm]
      | none =>
        have hcut : cutLiteral ['/']
            (widthToken none ++ (qualityToken none ++ '/' :: (host ++ path))) =
            some (host ++ path) :=
          cutLiteral_append ['/'] _
        simp [images.FindStringSubmatch, requestPath, hcut, h.matchWidth_bare]

end images

namespace strconv

/-- On a non-empty run of digits whose value fits a 64-bit `int`, `Atoi` returns the value. -/
theorem Atoi_digits {ds : List Char} (hne : ds ≠ []) (hds : ∀ c ∈ ds, isDigit c = true)
    (hv : digitsValue ds < 2 ^ 63) : Atoi (String.mk ds) = .ok (digitsValue ds : Int) := by
  cases ds with
  | nil => exact absurd rfl hne
  | cons d ds' =>
    have hd := hds d (List.mem_cons_self _ _)
    have h1 : d ≠ '+' := fun e => by rw [e] at hd; revert hd; decide
    have h2 : d ≠ '-' := fun e => by rw [e] at hd; revert hd; decide
    have hbody : (match (d :: ds' : List Char) with
        | '+' :: r => r
        | '-' :: r => r
        | cs => cs) = d :: ds' := by
      split
      · next heq => exact absurd (List.cons.inj heq).1 h1
      · next heq => exact absurd (List.cons.inj heq).1 h2
      · rfl
    have hneg : (match (d :: ds' : List Char) with
        | '-' :: _ => true
        | _ => false) = false := by
      split
      · next heq => exact absurd (List.cons.inj heq).1 h2
      · rfl
    have hall : (d :: ds').all isDigit = true := List.all_eq_true.2 hds
    simp only [Atoi, hbody, hneg]
    rw [if_neg (by simp [hall]), if_neg (by simp), if_pos hv]

/-- On a run of digits whose value does not fit a 64-bit `int`, `Atoi` returns an error. -/
theorem Atoi_overflow {ds : List Char} (hne : ds ≠ []) (hds : ∀ c ∈ ds, isDigit c = true)
    (hv : 2 ^ 63 ≤ digitsValue ds) : ∃ err, Atoi (String.mk ds) = .error err := by
  cases ds with
  | nil => exact absurd rfl hne
  | cons d ds' =>
    have hd := hds d (List.mem_cons_self _ _)
    have h1 : d ≠ '+' := fun e => by rw [e] at hd; revert hd; decide
    have h2 : d ≠ '-' := fun e => by rw [e] at hd; revert hd; decide
    have hbody : (match (d :: ds' : List Char) with
        | '+' :: r => r
        | '-' :: r => r
        | cs => cs) = d :: ds' := by
      split
      · next heq => exact absurd (List.cons.inj heq).1 h1
      · next heq => exact absurd (List.cons.inj heq).1 h2
      · rfl
    have hneg : (match (d :: ds' : List Char) with
        | '-' :: _ => true
        | _ => false) = false := by
      split
      · next heq => exact absurd (List.cons.inj heq).1 h2
      · rfl
    have hall : (d :: ds').all isDigit = true := List.all_eq_true.2 hds
    simp only [Atoi, hbody, hneg]
    rw [if_neg (by simp [hall]), if_neg (by simp), if_neg (not_lt.2 hv)]
    exact ⟨_, rfl⟩

end strconv

namespace url

theorem unreserved_of_hostChar {c : Char} (h : images.hostChar c = true) :
    unreserved c = true := by
  simp only [images.hostChar, Bool.or_eq_true] at h
  simp only [unreserved, Bool.or_eq_true]
  tauto

/-- The instance `plainLib` meets the assumptions `Lib.Plain`. -/
theorem plainLib_plain : plainLib.Plain where
  unescape_plain := by
    intro s hs
    have : s.data.all (fun c => c != '%' && c != '+') = true := by
      rw [List.all_eq_true]
      intro c hc
      simp [(hs c hc).1, (hs c hc).2]
    show (if s.data.all (fun c => c != '%' && c != '+') then Except.ok s else _) = _
    rw [if_pos this]
  parse_plain := by
    intro host path hne hhost hpath hchars
    have hpre : "https://".data.isPrefixOf ("https://".data ++ host ++ path) = true := by
      rw [List.append_assoc, List.isPrefixOf_iff_prefix]
      exact List.prefix_append _ _
    have hdrop : ("https://".data ++ host ++ path).drop 8 = host ++ path := by
      rw [List.append_assoc]
      exact List.drop_left' rfl
    have htake : (host ++ path).takeWhile (fun c => c != '/') = host := by
      rw [List.takeWhile_append_of_pos]
      · rcases hpath with rfl | hp
        · simp
        · cases path with
          | nil => simp
          | cons c t =>
            simp only [List.head?_cons, Option.some.injEq] at hp
            subst hp
            simp [List.takeWhile]
      · intro c hc
        have := hhost c hc
        have hne' : c ≠ '/' := fun e => by rw [e] at this; revert this; decide
        simpa using hne'
    have hall : (host ++ path).all (fun c => unreserved c || c == '/') = true := by
      rw [List.all_eq_true]
      intro c hc
      rcases List.mem_append.1 hc with hc | hc
      · simp [hhost c hc]
      · rcases hchars c hc with h | h <;> simp [h]
    refine ⟨⟨String.mk host, String.mk ("https://".data ++ host ++ path)⟩, ?_, rfl, rfl⟩
    show parsePlain _ = _
    simp only [parsePlain, hpre, if_true, hdrop, htake, hall]
    rw [if_pos ⟨hne, trivial⟩]

end url

namespace images

theorem hasPrefix_false_of_not_mem (t : List Char) (pre : String) (x : Char)
    (hx : x ∈ pre.data) (ht : x ∉ t) : strings.HasPrefix (String.mk t) pre = false := by
  cases hp : strings.HasPrefix (String.mk t) pre with
  | false => rfl
  | true =>
    unfold strings.HasPrefix at hp
    rw [List.isPrefixOf_iff_prefix] at hp
    exact absurd (hp.subset hx) ht

/-- On a target of host characters `parseImageURL` only puts `https://` in front. -/
theorem parseImageURL_target (lib : url.Lib) (hlib : lib.Plain) {host path : List Char}
    (h : Target host path) :
    parseImageURL lib (String.mk (host ++ path)) = .ok ("https://" ++ String.mk (host ++ path)) := by
  have hq : lib.QueryUnescape (String.mk (host ++ path)) = .ok (String.mk (host ++ path)) :=
    hlib.unescape_plain _ (fun c hc =>
      ⟨fun e => h.not_mem '%' (by decide) (by decide) (e ▸ hc),
       fun e => h.not_mem '+' (by decide) (by decide) (e ▸ hc)⟩)
  have h1 : strings.HasPrefix (String.mk (host ++ path)) "http://" = false :=
    hasPrefix_false_of_not_mem _ _ ':' (by decide) (h.not_mem ':' (by decide) (by decide))
  have h2 : strings.HasPrefix (String.mk (host ++ path)) "https://" = false :=
    hasPrefix_false_of_not_mem _ _ ':' (by decide) (h.not_mem ':' (by decide) (by decide))
  obtain ⟨u, hu, hhost, hstr⟩ := hlib.parse_plain host path h.host_ne
    (fun c hc => url.unreserved_of_hostChar (h.host_chars c hc)) h.path_head
    (fun c hc => (h.path_chars c hc).imp url.unreserved_of_hostChar id)
  have hs : "https://" ++ String.mk (host ++ path) = String.mk ("https://".data ++ host ++ path) := by
    apply String.ext
    simp [String.data_append]
  have hne : lib.Host u ≠ "" := by
    rw [hhost]
    intro e
    exact h.host_ne (congrArg String.data e)
  simp only [parseImageURL, hq, h1, h2, Bool.not_false, Bool.and_self, if_true, hs, hu, hne,
    if_false, hstr]

theorem validateWidth_ok {w : Int} (h1 : 1 ≤ w) (h2 : w ≤ 2000) : validateWidth w = none := by
  unfold validateWidth
  rw [if_neg (by omega), if_neg (by omega)]

theorem validateQuality_ok {q : Int} (h1 : 1 ≤ q) (h2 : q ≤ 100) : validateQuality q = none := by
  unfold validateQuality
  rw [if_neg (by omega), if_neg (by omega)]

theorem mk_ne_empty {l : List Char} (h : l ≠ []) : String.mk l ≠ "" :=
  fun e => h (congrArg String.data e)

theorem parseWidth_token (params : ImageParams) (W : Option (List Char))
    (hW : ∀ ds, W = some ds → DecimalIn 1 2000 ds) :
    parseWidth params (String.mk (W.getD [])) =
      .ok { params with
        Width := match W with
          | some ds => (strconv.digitsValue ds : Int)
          | none => params.Width } := by
  cases W with
  | none => rfl
  | some ds =>
    obtain ⟨hne, hds, hlo, hhi⟩ := hW ds rfl
    have ha := strconv.Atoi_digits hne hds (lt_of_le_of_lt hhi (by norm_num))
    simp only [parseWidth, Option.getD_some, ha, if_pos (mk_ne_empty hne),
      validateWidth_ok (w := (strconv.digitsValue ds : Int)) (by exact_mod_cast hlo)
        (by exact_mod_cast hhi)]

theorem parseQuality_token (params : ImageParams) (Q : Option (List Char))
    (hQ : ∀ ds, Q = some ds → DecimalIn 1 100 ds) :
    parseQuality params (String.mk (Q.getD [])) =
      .ok { params with
        Quality := match Q with
          | some ds => (strconv.digitsValue ds : Int)
          | none => params.Quality } := by
  cases Q with
  | none => rfl
  | some ds =>
    obtain ⟨hne, hds, hlo, hhi⟩ := hQ ds rfl
    have ha := strconv.Atoi_digits hne hds (lt_of_le_of_lt hhi (by norm_num))
    simp only [parseQuality, Option.getD_some, ha, if_pos (mk_ne_empty hne),
      validateQuality_ok (q := (strconv.digitsValue ds : Int)) (by exact_mod_cast hlo)
        (by exact_mod_cast hhi)]

theorem Trim_empty (cutset : String) : strings.Trim "" cutset = "" := rfl

/-- Claim C6.  For a request path `[/][w_<W>][,q_<Q>]/<target>`, where `W` is a run of digits
of value 1 to 2000, `Q` a run of digits of value 1 to 100 and the target a host of ASCII
letters, digits, `.` and `-` followed by a path that is empty or starts with `/` and is made of
the same characters and `/`, and for a URL library that behaves on plain URLs as `net/url` is
documented to (`Lib.Plain`), `ParseURLParams` succeeds: the width is `W` when the width token
is there and 400 otherwise, the quality is `Q` when the quality token is there and 90
otherwise, the URL is `https://` followed by the target, and the origin is the query value
without its leading and trailing double quotes (empty when the query has none). -/
theorem ParseURLParams_well_formed (lib : url.Lib) (hlib : lib.Plain) (lead : Bool)
    (W Q : Option (List Char)) (host path : List Char) (origin : String)
    (hW : ∀ ds, W = some ds → DecimalIn 1 2000 ds)
    (hQ : ∀ ds, Q = some ds → DecimalIn 1 100 ds)
    (ht : Target host path) :
    ParseURLParams lib (requestPath lead W Q (host ++ path)) origin =
      .ok { URL := "https://" ++ String.mk (host ++ path),
            Quality := match Q with
              | some ds => (strconv.digitsValue ds : Int)
              | none => 90,
            Width := match W with
              | some ds => (strconv.digitsValue ds : Int)
              | none => 400,
            Origin := strings.Trim origin "\"" } := by
  have hpath : requestPath lead W Q (host ++ path) ≠ "" := by
    apply mk_ne_empty
    cases lead <;> cases W <;> cases Q <;> simp [widthToken, qualityToken]
  unfold ParseURLParams
  rw [if_neg hpath, ht.FindStringSubmatch_eq lead W Q hW hQ]
  simp only [parseWidth_token _ W hW, parseQuality_token _ Q hQ, parseImageURL_target lib hlib ht]
  by_cases ho : origin = ""
  · subst ho
    rw [if_neg (by simp), Trim_empty]
  · rw [if_pos ho]

/-- The two requests of the specification for C6, evaluated with `plainLib`. -/
theorem ParseURLParams_well_formed_witness :
    ParseURLParams url.plainLib "/w_300,q_80/example.com/pic.jpg" "\"foo.com\"" =
      .ok { URL := "https://example.com/pic.jpg", Quality := 80, Width := 300,
            Origin := "foo.com" } ∧
    ParseURLParams url.plainLib "/example.com/pic.jpg" "" =
      .ok { URL := "https://example.com/pic.jpg", Quality := 90, Width := 400,
            Origin := "" } :=
  ⟨ParseURLParams_well_formed url.plainLib url.plainLib_plain true
      (some "300".data) (some "80".data) "example.com".data "/pic.jpg".data "\"foo.com\""
      (by intro ds h; cases h; exact ⟨by decide, by decide, by decide, by decide⟩)
      (by intro ds h; cases h; exact ⟨by decide, by decide, by decide, by decide⟩)
      ⟨by decide, by decide, by decide, by decide⟩,
   ParseURLParams_well_formed url.plainLib url.plainLib_plain false
      none none "example.com".data "/pic.jpg".data ""
      (by intro ds h; cases h) (by intro ds h; cases h)
      ⟨by decide, by decide, by decide, by decide⟩⟩

end images

/-! ## Out-of-range parameters and the orchestrator -/

namespace images

/-- A width that `Atoi` cannot read, because it does not fit a 64-bit `int`, is not validated:
the block leaves the parameters as they are and reports no error. -/
theorem parseWidth_overflow (params : ImageParams) {ds : List Char} (hne : ds ≠ [])
    (hds : ∀ c ∈ ds, strconv.isDigit c = true) (hv : 2 ^ 63 ≤ strconv.digitsValue ds) :
    parseWidth params (String.mk ds) = .ok params := by
  obtain ⟨err, he⟩ := strconv.Atoi_overflow hne hds hv
  simp only [parseWidth, if_pos (mk_ne_empty hne), he]

/-- Claim C7, evaluated where it fails.  The width token `w_9223372036854775808` has the value
`2^63`, which is not in `(0, 2000]`; `Atoi` fails on it, the validation is skipped, and
`ParseURLParams` returns parameters with the default width 400 instead of an error. -/
theorem ParseURLParams_width_overflow_accepted :
    ParseURLParams url.plainLib "w_9223372036854775808/example.com/a.jpg" "" =
      .ok { URL := "https://example.com/a.jpg", Quality := 90, Width := 400, Origin := "" } := by
  decide

/-- Claim C8.  When `ParseURLParams` returns an error, `OptimizeImage` returns an error that
wraps it and leaves the state as it was: the cache directory is unchanged and the record of
downloader and processor calls has no new entry. -/
theorem OptimizeImage_parse_error (env : Env) (cm : cache.CacheManager) (tLookup tSave : Int)
    (w : World) (fullPath origin err : String)
    (hparse : ParseURLParams env.net fullPath origin = .error err) :
    OptimizeImage env cm tLookup tSave w fullPath origin =
      (w, .error ("parameter parsing error: " ++ err)) := by
  simp only [OptimizeImage, hparse]

/-- The request of the specification for C8: the width 2001 is refused, nothing is downloaded
and the cache directory keeps its one file. -/
theorem OptimizeImage_parse_error_witness :
    ParseURLParams demoEnv.net "w_2001/example.com/a.jpg" "" =
      .error "width cannot exceed 2000 pixels" ∧
    OptimizeImage demoEnv ⟨"cache", 3600, 100⟩ 10 11 ⟨[⟨"a.jpg", .file [1] 5⟩], []⟩
        "w_2001/example.com/a.jpg" "" =
      (⟨[⟨"a.jpg", .file [1] 5⟩], []⟩,
        .error "parameter parsing error: width cannot exceed 2000 pixels") :=
  ⟨by decide,
    OptimizeImage_parse_error demoEnv ⟨"cache", 3600, 100⟩ 10 11 ⟨[⟨"a.jpg", .file [1] 5⟩], []⟩
      "w_2001/example.com/a.jpg" "" "width cannot exceed 2000 pixels" (by decide)⟩

/-- Claim C9.  When the request parses and the cache directory holds, under the key
`GenerateCacheKey(URL, Width, Quality)`, a regular file whose age `time.Since` does not exceed
`CacheDuration`, `OptimizeImage` returns the bytes of that file with the content type
`image/jpeg` and no error, and the state is unchanged: the cache directory is as before and
nothing was downloaded or processed. -/
theorem OptimizeImage_cache_hit (env : Env) (cm : cache.CacheManager) (tLookup tSave : Int)
    (w : World) (fullPath origin : String) (params : ImageParams) (data : Bytes) (mt : Int)
    (hparse : ParseURLParams env.net fullPath origin = .ok params)
    (hentry : os.lookup w.fs
        (cache.GenerateCacheKey env.md5hex params.URL params.Width params.Quality) =
      some ⟨cache.GenerateCacheKey env.md5hex params.URL params.Width params.Quality,
        .file data mt⟩)
    (hfresh : time.Since tLookup mt ≤ cm.CacheDuration) :
    OptimizeImage env cm tLookup tSave w fullPath origin = (w, .ok (data, "image/jpeg")) := by
  simp only [OptimizeImage, hparse, cache.GetCachedImage_file cm tLookup w.fs _ hentry,
    if_neg (not_lt.2 hfresh)]

/-- A cache hit for C9: the file stored under the key of the request is returned, the network
of `demoEnv` is not consulted. -/
theorem OptimizeImage_cache_hit_witness :
    OptimizeImage demoEnv ⟨"cache", 3600, 100⟩ 50 51
        ⟨[⟨"492648779.jpg", .file [7, 7] 20⟩], []⟩
        "/w_300,q_80/example.org/b.png" "" =
      (⟨[⟨"492648779.jpg", .file [7, 7] 20⟩], []⟩,
        .ok ([7, 7], "image/jpeg")) :=
  OptimizeImage_cache_hit demoEnv ⟨"cache", 3600, 100⟩ 50 51
    ⟨[⟨"492648779.jpg", .file [7, 7] 20⟩], []⟩
    "/w_300,q_80/example.org/b.png" ""
    { URL := "https://example.org/b.png", Quality := 80, Width := 300, Origin := "" }
    [7, 7] 20 (by decide) (by decide) (by decide)

/-- Claim C10.  When the request parses, the cache lookup misses, the download succeeds and the
processor succeeds, `OptimizeImage` returns the processed bytes with the content type
`image/jpeg` and no error; the outcome of `SaveImageToCache` does not enter the result. -/
theorem OptimizeImage_miss_returns_processed (env : Env) (cm : cache.CacheManager)
    (tLookup tSave : Int) (w : World) (fullPath origin : String) (params : ImageParams)
    (imageData processedData : Bytes)
    (hparse : ParseURLParams env.net fullPath origin = .ok params)
    (hmiss : (cache.GetCachedImage cm tLookup w.fs
        (cache.GenerateCacheKey env.md5hex params.URL params.Width params.Quality)).2.2 = false)
    (hdownload : DownloadImage env params.URL params.Origin = .ok imageData)
    (hprocess : env.ProcessImage imageData params.Width params.Quality = .ok processedData) :
    (OptimizeImage env cm tLookup tSave w fullPath origin).2 =
      .ok (processedData, "image/jpeg") := by
  simp only [OptimizeImage, hparse]
  generalize cache.GetCachedImage cm tLookup w.fs _ = r at hmiss
  obtain ⟨fs1, cached, found⟩ := r
  simp only at hmiss
  subst hmiss
  simp only [hdownload, hprocess]
  split <;> rfl

/-- A miss for C10 in which the write to the cache fails, the key being the name of a
directory: `SaveImageToCache` returns an error and the caller still gets the processed bytes. -/
theorem OptimizeImage_miss_returns_processed_witness :
    (cache.SaveImageToCache ⟨"cache", 3600, 100⟩ 51
        [⟨"182185447.jpg", .dir 20 0 true⟩]
        "182185447.jpg" [3, 2, 1]).2 ≠ none ∧
    (OptimizeImage demoEnv ⟨"cache", 3600, 100⟩ 50 51
        ⟨[⟨"182185447.jpg", .dir 20 0 true⟩], []⟩
        "/example.com/a.jpg" "").2 = .ok ([3, 2, 1], "image/jpeg") :=
  ⟨by decide,
    OptimizeImage_miss_returns_processed demoEnv ⟨"cache", 3600, 100⟩ 50 51
      ⟨[⟨"182185447.jpg", .dir 20 0 true⟩], []⟩
      "/example.com/a.jpg" ""
      { URL := "https://example.com/a.jpg", Quality := 90, Width := 400, Origin := "" }
      [1, 2, 3] [3, 2, 1] (by decide) (by decide) (by decide) (by decide)⟩

end images

/-! ## Widths and qualities that `Atoi` reads are validated -/

namespace images

theorem cutLiteral_some {p s r : List Char} (h : cutLiteral p s = some r) : s = p ++ r := by
  induction p generalizing s with
  | nil =>
    cases s <;> simp only [cutLiteral, Option.some.injEq] at h <;> simp [h]
  | cons c cs ih =>
    cases s with
    | nil => simp [cutLiteral] at h
    | cons d ds =>
      simp only [cutLiteral] at h
      split at h
      · next hcd => rw [hcd, ih h]; rfl
      · cases h

theorem mem_of_cutLiteral {p s r : List Char} {x : Char} (h : cutLiteral p s = some r)
    (hx : x ∈ s) (hp : x ∉ p) : x ∈ r := by
  rw [cutLiteral_some h] at hx
  rcases List.mem_append.1 hx with h1 | h1
  · exact absurd h1 hp
  · exact h1

theorem matchTail_newline {s : List Char} (h : '\n' ∈ s) : matchTail s = none := by
  simp [matchTail, h]

theorem matchSlashTail_newline {s : List Char} (h : '\n' ∈ s) : matchSlashTail s = none := by
  unfold matchSlashTail
  split
  · next r hr =>
    rw [matchTail_newline (mem_of_cutLiteral hr h (by decide)), matchTail_newline h]
  · exact matchTail_newline h

theorem matchDigits_newline {α : Type} (k : List Char → List Char → Option α)
    (hk : ∀ acc s, '\n' ∈ s → k acc s = none) (acc s : List Char) (h : '\n' ∈ s) :
    matchDigits k acc s = none := by
  induction s generalizing acc with
  | nil => rfl
  | cons c cs ih =>
    rw [matchDigits_cons]
    split
    · next hc =>
      have hne : '\n' ≠ c := fun e => by rw [← e] at hc; revert hc; decide
      have hcs : '\n' ∈ cs := by
        rcases List.mem_cons.1 h with h1 | h1
        · exact absurd h1 hne
        · exact h1
      rw [ih _ hcs, hk _ _ hcs]
    · rfl

theorem matchQuality_newline {s : List Char} (h : '\n' ∈ s) : matchQuality s = none := by
  unfold matchQuality
  simp only [matchSlashTail_newline h, Option.map_none']
  split
  · next r hr =>
    rw [matchDigits_newline _ (fun acc s' hs' => by simp [matchSlashTail_newline hs']) _ _
      (mem_of_cutLiteral hr h (by decide))]
  · rfl

theorem matchWidth_newline {s : List Char} (h : '\n' ∈ s) : matchWidth s = none := by
  unfold matchWidth
  simp only [matchQuality_newline h, Option.map_none']
  split
  · next r hr =>
    rw [matchDigits_newline _ (fun acc s' hs' => by simp [matchQuality_newline hs']) _ _
      (mem_of_cutLiteral hr h (by decide))]
  · rfl

theorem FindStringSubmatch_newline {s : String} (h : '\n' ∈ s.data) :
    FindStringSubmatch s = none := by
  unfold FindStringSubmatch
  simp only [matchWidth_newline h]
  split
  · next r hr => rw [matchWidth_newline (mem_of_cutLiteral hr h (by decide))]; rfl
  · rfl

theorem matchSlashTail_slash_any {rest : List Char} (h : '\n' ∉ rest) :
    ∃ r, matchSlashTail ('/' :: rest) = some r := by
  have hcut : cutLiteral ['/'] ('/' :: rest) = some rest := cutLiteral_append ['/'] rest
  cases rest with
  | nil => exact ⟨['/'], by decide⟩
  | cons c cs =>
    refine ⟨c :: cs, ?_⟩
    simp only [matchSlashTail, hcut, matchTail_eq (List.cons_ne_nil c cs) h]

/-- The part of the pattern after the width group, on `[,q_<Q>]/<rest>` for any rest without a
line feed: group 2 is the whole run of digits. -/
theorem matchQuality_any {rest : List Char} (h : '\n' ∉ rest) (Q : Option (List Char))
    (hQ : ∀ ds, Q = some ds → ds ≠ [] ∧ ∀ c ∈ ds, strconv.isDigit c = true) :
    ∃ r, matchQuality (qualityToken Q ++ '/' :: rest) = some (Q.getD [], r) := by
  obtain ⟨r, hr⟩ := matchSlashTail_slash_any h
  refine ⟨r, ?_⟩
  cases Q with
  | none =>
    have : cutLiteral [',', 'q', '_'] ('/' :: rest) = none :=
      cutLiteral_head_ne _ _ (by decide)
    simp [qualityToken, matchQuality, this, hr]
  | some ds =>
    obtain ⟨hne, hds⟩ := hQ ds rfl
    have hcut : cutLiteral [',', 'q', '_'] (',' :: 'q' :: '_' :: (ds ++ '/' :: rest))
        = some (ds ++ '/' :: rest) :=
      cutLiteral_append [',', 'q', '_'] _
    have hrun := matchDigits_run
      (fun ds r' => (matchSlashTail r').map (fun t => (ds, t))) ds [] '/' rest
      (ds, r) hds hne (by decide) (by simp [hr])
    simp only [qualityToken, List.cons_append, matchQuality, hcut, hrun, Option.getD_some]

/-- The pattern after the leading slash, on `[w_<W>][,q_<Q>]/<rest>` for any rest without a line
feed: groups 1 and 2 are the whole runs of digits. -/
theorem matchWidth_any {rest : List Char} (h : '\n' ∉ rest) (W Q : Option (List Char))
    (hW : ∀ ds, W = some ds → ds ≠ [] ∧ ∀ c ∈ ds, strconv.isDigit c = true)
    (hQ : ∀ ds, Q = some ds → ds ≠ [] ∧ ∀ c ∈ ds, strconv.isDigit c = true) :
    ∃ r, matchWidth (widthToken W ++ (qualityToken Q ++ '/' :: rest)) =
      some (W.getD [], Q.getD [], r) := by
  obtain ⟨r, hq⟩ := matchQuality_any h Q hQ
  refine ⟨r, ?_⟩
  obtain ⟨c, tl, hc, hcd, hcw⟩ : ∃ c tl, qualityToken Q ++ '/' :: rest = c :: tl ∧
      strconv.isDigit c = false ∧ 'w' ≠ c := by
    cases Q with
    | none => exact ⟨'/', _, rfl, by decide, by decide⟩
    | some ds => exact ⟨',', _, rfl, by decide, by decide⟩
  cases W with
  | none =>
    have : cutLiteral ['w', '_'] (qualityToken Q ++ '/' :: rest) = none := by
      rw [hc]; exact cutLiteral_head_ne _ _ hcw
    simp only [widthToken, List.nil_append, matchWidth, this, hq, Option.map_some',
      Option.getD_none]
  | some ds =>
    obtain ⟨hne, hds⟩ := hW ds rfl
    have hcut : cutLiteral ['w', '_'] ('w' :: '_' :: (ds ++ (qualityToken Q ++ '/' :: rest)))
        = some (ds ++ (qualityToken Q ++ '/' :: rest)) :=
      cutLiteral_append ['w', '_'] _
    have hrun := matchDigits_run
      (fun ds r' => (matchQuality r').map (fun m => (ds, m.1, m.2))) ds [] c tl
      (ds, Q.getD [], r) hds hne hcd (by rw [← hc]; simp [hq])
    rw [← hc] at hrun
    simp only [widthToken, List.cons_append, matchWidth, hcut, hrun, Option.getD_some]

/-- On a path that carries a token before `/<rest>`, the regular expression either fails or
yields the whole digit runs of the tokens as groups 1 and 2. -/
theorem FindStringSubmatch_tokens (lead : Bool) (W Q : Option (List Char)) (rest : List Char)
    (hW : ∀ ds, W = some ds → ds ≠ [] ∧ ∀ c ∈ ds, strconv.isDigit c = true)
    (hQ : ∀ ds, Q = some ds → ds ≠ [] ∧ ∀ c ∈ ds, strconv.isDigit c = true)
    (htok : W ≠ none ∨ Q ≠ none) :
    FindStringSubmatch (requestPath lead W Q rest) = none ∨
      ∃ r, FindStringSubmatch (requestPath lead W Q rest) =
        some (String.mk (W.getD []), String.mk (Q.getD []), r) := by
  by_cases hnl : '\n' ∈ rest
  · left
    apply FindStringSubmatch_newline
    simp [requestPath, hnl]
  · right
    obtain ⟨r, hm⟩ := matchWidth_any hnl W Q hW hQ
    refine ⟨String.mk r, ?_⟩
    cases lead with
    | true =>
      have hcut : cutLiteral ['/'] ('/' :: (widthToken W ++ (qualityToken Q ++ '/' :: rest))) =
          some (widthToken W ++ (qualityToken Q ++ '/' :: rest)) :=
        cutLiteral_append ['/'] _
      simp [FindStringSubmatch, requestPath, hcut, hm]
    | false =>
      have hcut : cutLiteral ['/'] (widthToken W ++ (qualityToken Q ++ '/' :: rest)) = none := by
        cases W with
        | some ds => exact cutLiteral_head_ne _ _ (by decide)
        | none =>
          cases Q with
          | some ds => exact cutLiteral_head_ne _ _ (by decide)
          | none => simp at htok
      simp [FindStringSubmatch, requestPath, hcut, hm]

theorem parseWidth_out_of_range (params : ImageParams) {ds : List Char} (hne : ds ≠ [])
    (hds : ∀ c ∈ ds, strconv.isDigit c = true) (hv : strconv.digitsValue ds < 2 ^ 63)
    (hbad : ¬ (0 < strconv.digitsValue ds ∧ strconv.digitsValue ds ≤ 2000)) :
    ∃ err, parseWidth params (String.mk ds) = .error err := by
  have ha := strconv.Atoi_digits hne hds hv
  simp only [parseWidth, if_pos (mk_ne_empty hne), ha, validateWidth]
  by_cases h0 : (strconv.digitsValue ds : Int) ≤ 0
  · exact ⟨_, by rw [if_pos h0]⟩
  · have h1 : (strconv.digitsValue ds : Int) > 2000 := by
      have : 0 < strconv.digitsValue ds := by omega
      have : 2000 < strconv.digitsValue ds := by
        by_contra hc
        exact hbad ⟨this, by omega⟩
      exact_mod_cast this
    exact ⟨_, by rw [if_neg h0, if_pos h1]⟩

theorem parseQuality_out_of_range (params : ImageParams) {ds : List Char} (hne : ds ≠ [])
    (hds : ∀ c ∈ ds, strconv.isDigit c = true) (hv : strconv.digitsValue ds < 2 ^ 63)
    (hbad : ¬ (0 < strconv.digitsValue ds ∧ strconv.digitsValue ds ≤ 100)) :
    ∃ err, parseQuality params (String.mk ds) = .error err := by
  have ha := strconv.Atoi_digits hne hds hv
  simp only [parseQuality, if_pos (mk_ne_empty hne), ha, validateQuality]
  by_cases h0 : (strconv.digitsValue ds : Int) ≤ 0
  · exact ⟨_, by rw [if_pos h0]⟩
  · have h1 : (strconv.digitsValue ds : Int) > 100 := by
      have : 0 < strconv.digitsValue ds := by omega
      have : 100 < strconv.digitsValue ds := by
        by_contra hc
        exact hbad ⟨this, by omega⟩
      exact_mod_cast this
    exact ⟨_, by rw [if_neg h0, if_pos h1]⟩

/-- The part of C7 that the code does: on a path `[/][w_<W>][,q_<Q>]/<rest>`, whatever the rest
and the URL library, a width whose value fits a 64-bit `int` and is not in `(0, 2000]`, or a
quality whose value fits and is not in `(0, 100]`, makes `ParseURLParams` return an error. -/
theorem ParseURLParams_rejects_readable_out_of_range (lib : url.Lib) (lead : Bool)
    (W Q : Option (List Char)) (rest : List Char) (origin : String)
    (hW : ∀ ds, W = some ds → ds ≠ [] ∧ ∀ c ∈ ds, strconv.isDigit c = true)
    (hQ : ∀ ds, Q = some ds → ds ≠ [] ∧ ∀ c ∈ ds, strconv.isDigit c = true)
    (hbad : (∃ ds, W = some ds ∧ strconv.digitsValue ds < 2 ^ 63 ∧
              ¬ (0 < strconv.digitsValue ds ∧ strconv.digitsValue ds ≤ 2000)) ∨
            (∃ ds, Q = some ds ∧ strconv.digitsValue ds < 2 ^ 63 ∧
              ¬ (0 < strconv.digitsValue ds ∧ strconv.digitsValue ds ≤ 100))) :
    ∃ err, ParseURLParams lib (requestPath lead W Q rest) origin = .error err := by
  have htok : W ≠ none ∨ Q ≠ none := by
    rcases hbad with ⟨ds, h, _⟩ | ⟨ds, h, _⟩
    · left; rw [h]; simp
    · right; rw [h]; simp
  unfold ParseURLParams
  split
  · exact ⟨_, rfl⟩
  · rcases FindStringSubmatch_tokens lead W Q rest hW hQ htok with hnone | ⟨r, hsome⟩
    · rw [hnone]; exact ⟨_, rfl⟩
    · rw [hsome]
      simp only []
      rcases hbad with ⟨ds, hWs, hv, hb⟩ | ⟨ds, hQs, hv, hb⟩
      · subst hWs
        obtain ⟨err, he⟩ := parseWidth_out_of_range
          { URL := "", Quality := 90, Width := 400, Origin := "" } (hW ds rfl).1 (hW ds rfl).2 hv hb
        rw [Option.getD_some, he]
        exact ⟨_, rfl⟩
      · subst hQs
        split
        · exact ⟨_, rfl⟩
        · next params _ =>
          obtain ⟨err, he⟩ := parseQuality_out_of_range params (hQ ds rfl).1 (hQ ds rfl).2 hv hb
          rw [Option.getD_some, he]
          exact ⟨_, rfl⟩

/-- The requests of the specification for C7: width 2001 and quality 0 are refused. -/
theorem ParseURLParams_rejects_readable_out_of_range_witness :
    (∃ err, ParseURLParams url.plainLib "/w_2001/example.com/a.jpg" "" = .error err) ∧
    (∃ err, ParseURLParams url.plainLib ",q_0/example.com/a.jpg" "" = .error err) :=
  ⟨ParseURLParams_rejects_readable_out_of_range url.plainLib true (some "2001".data) none
      "example.com/a.jpg".data ""
      (by intro ds h; cases h; exact ⟨by decide, by decide⟩) (by intro ds h; cases h)
      (Or.inl ⟨_, rfl, by decide, by decide⟩),
   ParseURLParams_rejects_readable_out_of_range url.plainLib false none (some "0".data)
      "example.com/a.jpg".data ""
      (by intro ds h; cases h) (by intro ds h; cases h; exact ⟨by decide, by decide⟩)
      (Or.inr ⟨_, rfl, by decide, by decide⟩)⟩

end images

/-! ## The sweep, the listing and the frame of the cache operations -/

namespace cache

theorem collectInfos_eq (fs : FS) :
    collectInfos fs = (fs.filter (fun e => !e.IsDir)).map
      (fun e => { Name := e.name, Size := e.node.Size, ModTime := e.node.ModTime,
                  IsDir := e.node.IsDir }) := by
  induction fs with
  | nil => rfl
  | cons d ds ih =>
    unfold collectInfos
    by_cases hd : d.IsDir = true
    · simp [hd, ih]
    · have hd' : d.IsDir = false := by simpa using hd
      simp [hd', DirEntry.Info, ih]

/-- When every listed file is a regular file of the directory and no name is listed twice, the
sweep deletes exactly the names of the listed files that are older than `CacheDuration`. -/
theorem sweepLoop_eq (cm : CacheManager) (now : Int) (files : List FileInfo) (fs : FS)
    (hfile : ∀ f ∈ files, ∃ e, lookup fs f.Name = some e ∧ e.IsDir = false)
    (hnd : (files.map FileInfo.Name).Nodup) :
    sweepLoop cm now files fs =
      fs.filter (fun d => decide (d.name ∉
        (files.filter (fun f => decide (time.Since now f.ModTime > cm.CacheDuration))).map
          FileInfo.Name)) := by
  induction files generalizing fs with
  | nil => simp [sweepLoop]
  | cons f rest ih =>
    have hnd' : f.Name ∉ rest.map FileInfo.Name ∧ (rest.map FileInfo.Name).Nodup :=
      List.nodup_cons.1 (by simpa using hnd)
    unfold sweepLoop
    split
    · next hexp =>
      obtain ⟨e, hl, hd⟩ := hfile f (List.mem_cons_self _ _)
      rw [Remove_file hl hd]
      simp only []
      have hfile' : ∀ g ∈ rest, ∃ e,
          lookup (fs.filter (fun d => decide (d.name ≠ f.Name))) g.Name = some e ∧
            e.IsDir = false := by
        intro g hg
        obtain ⟨e', hl', hd'⟩ := hfile g (List.mem_cons_of_mem _ hg)
        have hne : g.Name ≠ f.Name := by
          intro heq
          exact hnd'.1 (heq ▸ List.mem_map_of_mem FileInfo.Name hg)
        exact ⟨e', by rw [lookup_filter_ne]; simp [hne, hl'], hd'⟩
      rw [ih _ hfile' hnd'.2, List.filter_filter]
      congr 1
      funext d
      simp [List.filter, hexp, not_or, Bool.and_comm]
    · next hexp =>
      rw [ih fs (fun g hg => hfile g (List.mem_cons_of_mem _ hg)) hnd'.2]
      congr 1
      funext d
      simp [List.filter, hexp]

/-- Claim C12.  In a directory without duplicate names, `CleanupOldFiles` at instant `now` returns
`nil` and leaves exactly the entries that are sub-directories, which the sweep never lists, or
whose age `time.Since now ModTime` does not exceed `CacheDuration`: a regular file is in the
directory afterwards if and only if it was there before and its age is at most `CacheDuration`.
Every cache file older than that is deleted and nothing else is. -/
theorem CleanupOldFiles_exact (cm : CacheManager) (now : Int) (fs : FS) (hwf : WF fs) :
    (CleanupOldFiles cm now fs).2 = none ∧
    (CleanupOldFiles cm now fs).1 = fs.filter (fun e =>
      e.IsDir || decide (time.Since now e.node.ModTime ≤ cm.CacheDuration)) ∧
    (∀ e : DirEntry, e.IsDir = false →
      (e ∈ (CleanupOldFiles cm now fs).1 ↔
        e ∈ fs ∧ time.Since now e.node.ModTime ≤ cm.CacheDuration)) := by
  have hstate : (CleanupOldFiles cm now fs).1 = fs.filter (fun e =>
      e.IsDir || decide (time.Since now e.node.ModTime ≤ cm.CacheDuration)) := by
    have hfiles := getCacheFilesSorted_eq fs
    simp only [CleanupOldFiles, hfiles]
    rw [sweepLoop_eq cm now _ fs
      (fun f hf => by
        obtain ⟨e, hl, hd, _⟩ := getCacheFilesSorted_lookup hwf hfiles hf
        exact ⟨e, hl, hd⟩)
      (getCacheFilesSorted_names_nodup hwf hfiles)]
    apply List.filter_congr
    intro d hd
    by_cases hdir : d.IsDir = true
    · have : d.name ∉ (List.filter
          (fun f => decide (time.Since now f.ModTime > cm.CacheDuration))
          (sortOuter ((collectInfos fs).length - 1) (collectInfos fs))).map FileInfo.Name := by
        intro hmem
        obtain ⟨f, hf, hfn⟩ := List.mem_map.1 hmem
        obtain ⟨e, _, he, hemem, hfe⟩ :=
          getCacheFilesSorted_lookup hwf hfiles (List.mem_filter.1 hf).1
        have : e = d := hwf.eq_of_name hemem hd (by rw [← hfn, hfe])
        rw [this, hdir] at he
        cases he
      simp [this, hdir]
    · have hdir' : d.IsDir = false := by simpa using hdir
      have hinfo : (⟨d.name, d.node.Size, d.node.ModTime, false⟩ : FileInfo) ∈
          sortOuter ((collectInfos fs).length - 1) (collectInfos fs) :=
        (mem_getCacheFilesSorted hfiles).2 (mem_collectInfos.2 ⟨d, hd, hdir', rfl⟩)
      by_cases hexp : time.Since now d.node.ModTime > cm.CacheDuration
      · have : d.name ∈ (List.filter
            (fun f => decide (time.Since now f.ModTime > cm.CacheDuration))
            (sortOuter ((collectInfos fs).length - 1) (collectInfos fs))).map FileInfo.Name :=
          List.mem_map.2 ⟨_, List.mem_filter.2 ⟨hinfo, by simpa using hexp⟩, rfl⟩
        simp [this, hdir', not_le.2 hexp]
      · have : d.name ∉ (List.filter
            (fun f => decide (time.Since now f.ModTime > cm.CacheDuration))
            (sortOuter ((collectInfos fs).length - 1) (collectInfos fs))).map FileInfo.Name := by
          intro hmem
          obtain ⟨f, hf, hfn⟩ := List.mem_map.1 hmem
          obtain ⟨e, _, _, hemem, hfe⟩ :=
            getCacheFilesSorted_lookup hwf hfiles (List.mem_filter.1 hf).1
          have : e = d := hwf.eq_of_name hemem hd (by rw [← hfn, hfe])
          have hfexp := (List.mem_filter.1 hf).2
          rw [hfe, this] at hfexp
          exact hexp (by simpa using hfexp)
        simp [this, hdir', not_lt.1 hexp]
  refine ⟨rfl, hstate, ?_⟩
  intro e he
  rw [hstate, List.mem_filter]
  simp [he]

/-- A sweep for C12 at instant 100 with a duration of 10: the file of instant 95 and the
sub-directory stay, the file of instant 3 goes. -/
theorem CleanupOldFiles_exact_witness :
    WF [⟨"a", .file [1, 2, 3] 95⟩, ⟨"b", .file [1, 2] 3⟩, ⟨"d", .dir 0 9 false⟩] ∧
    (CleanupOldFiles ⟨"cache", 10, 5⟩ 100
      [⟨"a", .file [1, 2, 3] 95⟩, ⟨"b", .file [1, 2] 3⟩, ⟨"d", .dir 0 9 false⟩]).1
      = [⟨"a", .file [1, 2, 3] 95⟩, ⟨"d", .dir 0 9 false⟩] :=
  ⟨by decide,
    (CleanupOldFiles_exact ⟨"cache", 10, 5⟩ 100
      [⟨"a", .file [1, 2, 3] 95⟩, ⟨"b", .file [1, 2] 3⟩, ⟨"d", .dir 0 9 false⟩]
      (by decide)).2.1.trans (by decide)⟩

/-- Claim C13.  Whatever the directory holds, `getCacheFilesSorted` returns a listing that is a
permutation of the infos of the entries that are not directories, each of them once, and along
which the modification time never decreases. -/
theorem getCacheFilesSorted_sorted_permutation (fs : FS) :
    ∃ files, getCacheFilesSorted fs = .ok files ∧
      List.Perm files ((fs.filter (fun e => !e.IsDir)).map
        (fun e => { Name := e.name, Size := e.node.Size, ModTime := e.node.ModTime,
                    IsDir := e.node.IsDir })) ∧
      files.Pairwise (fun a b => a.ModTime ≤ b.ModTime) := by
  refine ⟨_, getCacheFilesSorted_eq fs, ?_, getCacheFilesSorted_sorted (getCacheFilesSorted_eq fs)⟩
  rw [← collectInfos_eq]
  exact sortOuter_perm _ _

end cache

namespace cache

/-- What the sweep leaves under a name is what was there before. -/
theorem lookup_sweepLoop (cm : CacheManager) (now : Int) (files : List FileInfo) (fs : FS)
    (n : String) :
    lookup (sweepLoop cm now files fs) n = none ∨
      lookup (sweepLoop cm now files fs) n = lookup fs n := by
  induction files generalizing fs with
  | nil => right; rfl
  | cons f rest ih =>
    unfold sweepLoop
    split
    · split
      · next fs' hr =>
        rcases ih fs' with h | h
        · left; exact h
        · rw [h, Remove_eq_filter hr, lookup_filter_ne]
          by_cases hk : n = f.Name
          · left; simp [hk]
          · right; simp [hk]
      · exact ih fs
    · exact ih fs

/-- The directory after `GetCachedImage` is the directory before it, or that directory without
the key. -/
theorem GetCachedImage_state (cm : CacheManager) (now : Int) (fs : FS) (k : String) :
    (GetCachedImage cm now fs k).1 = fs ∨
      ((GetCachedImage cm now fs k).1 = fs.filter (fun d => decide (d.name ≠ k)) ∧
        (GetCachedImage cm now fs k).2 = ([], false)) := by
  unfold GetCachedImage
  split
  · left; rfl
  · split
    · split
      · next fs' hr => right; exact ⟨Remove_eq_filter hr, rfl⟩
      · left; rfl
    · split <;> (left; rfl)

/-- Claim C20.  No operation of the cache store changes an entry in place.  After
`GetCachedImage(k)` and after `CleanupOldFiles`, every name that still has an entry has the
entry it had before, with the same bytes and the same modification time, and a call of
`GetCachedImage` that reports a hit leaves the whole directory as it was.  After
`SaveToCache(k, b)`, every name other than `k` that still has an entry has the entry it had
before. -/
theorem cache_entries_not_mutated (cm : CacheManager) (now : Int) (fs : FS) (k : String)
    (b : Bytes) :
    (∀ n e, lookup (GetCachedImage cm now fs k).1 n = some e → lookup fs n = some e) ∧
    ((GetCachedImage cm now fs k).2.2 = true → (GetCachedImage cm now fs k).1 = fs) ∧
    (∀ n e, lookup (CleanupOldFiles cm now fs).1 n = some e → lookup fs n = some e) ∧
    (∀ n e, n ≠ k → lookup (SaveToCache cm now fs k b).1 n = some e →
      lookup fs n = some e) := by
  refine ⟨?_, ?_, ?_, ?_⟩
  · intro n e h
    rcases GetCachedImage_state cm now fs k with hs | ⟨hs, _⟩
    · rw [hs] at h; exact h
    · rw [hs, lookup_filter_ne] at h
      split at h
      · cases h
      · exact h
  · intro hfound
    rcases GetCachedImage_state cm now fs k with hs | ⟨_, hr⟩
    · exact hs
    · rw [hr] at hfound; cases hfound
  · intro n e h
    have hstate : (CleanupOldFiles cm now fs).1 =
        sweepLoop cm now (sortOuter ((collectInfos fs).length - 1) (collectInfos fs)) fs := by
      simp only [CleanupOldFiles, getCacheFilesSorted_eq]
    rw [hstate] at h
    rcases lookup_sweepLoop cm now _ fs n with h' | h'
    · rw [h'] at h; cases h
    · rw [h'] at h; exact h
  · intro n e hn h
    have hsave : lookup (SaveToCache cm now fs k b).1 n =
        lookup (cleanupIfNeeded cm fs (b.length : Int)).1 n := by
      rw [SaveToCache_eq]
      split
      · next fs'' hw => exact lookup_WriteFile_ne hw hn
      · rfl
    rw [hsave] at h
    rcases lookup_cleanupIfNeeded cm fs (b.length : Int) n with h' | h'
    · rw [h'] at h; cases h
    · rw [h'] at h; exact h

/-- Concrete calls for C20: a hit at instant 12 returns the bytes and leaves the file of instant
10 with its instant; a save that evicts the oldest file leaves the other file as it was. -/
theorem cache_entries_not_mutated_witness :
    GetCachedImage ⟨"cache", 50, 100⟩ 12
        [⟨"a.jpg", .file [1] 5⟩, ⟨"k.jpg", .file [7, 7] 10⟩] "k.jpg" =
      ([⟨"a.jpg", .file [1] 5⟩, ⟨"k.jpg", .file [7, 7] 10⟩], ([7, 7], true)) ∧
    lookup (SaveToCache ⟨"cache", 50, 4⟩ 100
        [⟨"a.jpg", .file [1, 2] 9⟩, ⟨"b.jpg", .file [3] 5⟩] "k.jpg" [8, 8]).1 "a.jpg" =
      some ⟨"a.jpg", .file [1, 2] 9⟩ ∧
    lookup [⟨"a.jpg", .file [1, 2] 9⟩, ⟨"b.jpg", .file [3] 5⟩] "a.jpg" =
      some ⟨"a.jpg", .file [1, 2] 9⟩ :=
  ⟨by decide, by decide,
    (cache_entries_not_mutated ⟨"cache", 50, 4⟩ 100
      [⟨"a.jpg", .file [1, 2] 9⟩, ⟨"b.jpg", .file [3] 5⟩] "k.jpg" [8, 8]).2.2.2
      "a.jpg" ⟨"a.jpg", .file [1, 2] 9⟩ (by decide) (by decide)⟩

end cache

/-! ## Responses that are not images, parameter bounds, the quality-only path, status codes -/

namespace cache

/-- After a lookup that misses, the key names no regular file: it is absent or a directory. -/
theorem GetCachedImage_miss_no_file (cm : CacheManager) (now : Int) (fs : FS) (k : String)
    (hmiss : (GetCachedImage cm now fs k).2.2 = false) :
    ∀ e, lookup (GetCachedImage cm now fs k).1 k = some e → e.IsDir = true := by
  intro e he
  rcases GetCachedImage_state cm now fs k with hs | ⟨hs, _⟩
  · rw [hs] at he
    cases hn : e.node with
    | dir t sz em => simp [DirEntry.IsDir, hn, Node.IsDir]
    | file data mt =>
      have hl : lookup fs k = some ⟨e.name, .file data mt⟩ := by
        rw [he]; cases e; simp only at hn; rw [hn]
      rw [GetCachedImage_file cm now fs k hl] at hmiss hs
      split at hmiss
      · next hexp =>
        rw [if_pos hexp] at hs
        have hnone : lookup fs k = none := by
          have := congrArg (fun s => lookup s k) hs
          simp only [lookup_filter_ne, if_true] at this
          exact this.symm
        rw [hnone] at hl; cases hl
      · cases hmiss
  · rw [hs, lookup_filter_ne, if_pos rfl] at he
    cases he

end cache

namespace images

/-- A response with status 200 whose content type does not start with `image/` makes
`DownloadImage` return the error of `ValidateImageURL`. -/
theorem DownloadImage_not_an_image (env : Env) (imageURL origin : String) (req : http.Request)
    (resp : http.Response) (hreq : NewRequest env.net "GET" imageURL = .ok req)
    (hresp : env.Do (setHeaders req origin) = .ok resp) (hstatus : resp.StatusCode = 200)
    (hct : strings.HasPrefix resp.ContentType "image/" = false) :
    DownloadImage env imageURL origin =
      .error ("URL does not point to an image: " ++ resp.ContentType) := by
  simp only [DownloadImage, hreq, hresp, hstatus, ValidateImageURL, hct]
  rfl

/-- Claim C11.  When the request parses, the cache lookup misses, and the upstream answers the
request of the downloader with status 200 and a content type that does not start with `image/`:
`DownloadImage` returns an error, `OptimizeImage` returns an error, nothing is written to the
cache (the directory afterwards is the one the lookup left), and no regular file exists under
the cache key of the request. -/
theorem OptimizeImage_not_an_image (env : Env) (cm : cache.CacheManager) (tLookup tSave : Int)
    (w : World) (fullPath origin : String) (params : ImageParams) (req : http.Request)
    (resp : http.Response)
    (hparse : ParseURLParams env.net fullPath origin = .ok params)
    (hmiss : (cache.GetCachedImage cm tLookup w.fs
        (cache.GenerateCacheKey env.md5hex params.URL params.Width params.Quality)).2.2 = false)
    (hreq : NewRequest env.net "GET" params.URL = .ok req)
    (hresp : env.Do (setHeaders req params.Origin) = .ok resp)
    (hstatus : resp.StatusCode = 200)
    (hct : strings.HasPrefix resp.ContentType "image/" = false) :
    DownloadImage env params.URL params.Origin =
      .error ("URL does not point to an image: " ++ resp.ContentType) ∧
    (OptimizeImage env cm tLookup tSave w fullPath origin).2 =
      .error ("download error: " ++ ("URL does not point to an image: " ++ resp.ContentType)) ∧
    (OptimizeImage env cm tLookup tSave w fullPath origin).1.fs =
      (cache.GetCachedImage cm tLookup w.fs
        (cache.GenerateCacheKey env.md5hex params.URL params.Width params.Quality)).1 ∧
    (∀ e, os.lookup (OptimizeImage env cm tLookup tSave w fullPath origin).1.fs
        (cache.GenerateCacheKey env.md5hex params.URL params.Width params.Quality) = some e →
      e.IsDir = true) := by
  have hd := DownloadImage_not_an_image env params.URL params.Origin req resp hreq hresp
    hstatus hct
  have hno := cache.GetCachedImage_miss_no_file cm tLookup w.fs _ hmiss
  have hrun : (OptimizeImage env cm tLookup tSave w fullPath origin).2 =
        .error ("download error: " ++ ("URL does not point to an image: " ++ resp.ContentType)) ∧
      (OptimizeImage env cm tLookup tSave w fullPath origin).1.fs =
        (cache.GetCachedImage cm tLookup w.fs
          (cache.GenerateCacheKey env.md5hex params.URL params.Width params.Quality)).1 := by
    simp only [OptimizeImage, hparse]
    generalize cache.GetCachedImage cm tLookup w.fs _ = r at hmiss
    obtain ⟨fs1, cached, found⟩ := r
    simp only at hmiss
    subst hmiss
    rw [hd]
    exact ⟨rfl, rfl⟩
  refine ⟨hd, hrun.1, hrun.2, ?_⟩
  rw [hrun.2]
  exact hno

end images

namespace images

/-- A fetch for C11 that is answered with `text/html`: the call fails, the downloader was called
once, and the cache directory still holds its one file and nothing else. -/
theorem OptimizeImage_not_an_image_witness :
    OptimizeImage htmlEnv ⟨"cache", 3600, 100⟩ 50 51 ⟨[⟨"a.jpg", .file [1] 5⟩], []⟩
        "/example.com/page" "" =
      (⟨[⟨"a.jpg", .file [1] 5⟩], [Event.download "https://example.com/page" ""]⟩,
        .error "download error: URL does not point to an image: text/html") ∧
    (OptimizeImage htmlEnv ⟨"cache", 3600, 100⟩ 50 51 ⟨[⟨"a.jpg", .file [1] 5⟩], []⟩
        "/example.com/page" "").1.fs = [⟨"a.jpg", .file [1] 5⟩] :=
  ⟨by decide,
    (OptimizeImage_not_an_image htmlEnv ⟨"cache", 3600, 100⟩ 50 51
      ⟨[⟨"a.jpg", .file [1] 5⟩], []⟩ "/example.com/page" ""
      { URL := "https://example.com/page", Quality := 90, Width := 400, Origin := "" }
      { Method := "GET", URL := "https://example.com/page", Header := [] }
      { StatusCode := 200, ContentType := "text/html", Body := .ok [60, 112, 62] }
      (by decide) (by decide) (by decide) rfl rfl (by decide)).2.2.1.trans (by decide)⟩

theorem validateWidth_none {w : Int} (h : validateWidth w = none) : 0 < w ∧ w ≤ 2000 := by
  unfold validateWidth at h
  split at h
  · cases h
  · split at h
    · cases h
    · omega

theorem validateQuality_none {q : Int} (h : validateQuality q = none) : 0 < q ∧ q ≤ 100 := by
  unfold validateQuality at h
  split at h
  · cases h
  · split at h
    · cases h
    · omega

/-- The width block keeps the other fields and either keeps the width or stores a validated
one. -/
theorem parseWidth_ok {p p' : ImageParams} {m : String} (h : parseWidth p m = .ok p') :
    p'.Quality = p.Quality ∧ (p'.Width = p.Width ∨ (0 < p'.Width ∧ p'.Width ≤ 2000)) := by
  unfold parseWidth at h
  split at h
  · split at h
    · next w _ =>
      split at h
      · cases h
      · next hv =>
        injection h with h
        subst h
        exact ⟨rfl, Or.inr (validateWidth_none hv)⟩
    · injection h with h
      subst h
      exact ⟨rfl, Or.inl rfl⟩
  · injection h with h
    subst h
    exact ⟨rfl, Or.inl rfl⟩

/-- The quality block keeps the other fields and either keeps the quality or stores a validated
one. -/
theorem parseQuality_ok {p p' : ImageParams} {m : String} (h : parseQuality p m = .ok p') :
    p'.Width = p.Width ∧ (p'.Quality = p.Quality ∨ (0 < p'.Quality ∧ p'.Quality ≤ 100)) := by
  unfold parseQuality at h
  split at h
  · split at h
    · next q _ =>
      split at h
      · cases h
      · next hv =>
        injection h with h
        subst h
        exact ⟨rfl, Or.inr (validateQuality_none hv)⟩
    · injection h with h
      subst h
      exact ⟨rfl, Or.inl rfl⟩
  · injection h with h
    subst h
    exact ⟨rfl, Or.inl rfl⟩

/-- Claim C19.  Whatever the path, the origin and the URL library, parameters that
`ParseURLParams` returns without an error have a width in `(0, 2000]` and a quality in
`(0, 100]`. -/
theorem ParseURLParams_bounds (lib : url.Lib) (fullPath origin : String) (params : ImageParams)
    (h : ParseURLParams lib fullPath origin = .ok params) :
    0 < params.Width ∧ params.Width ≤ 2000 ∧ 0 < params.Quality ∧ params.Quality ≤ 100 := by
  unfold ParseURLParams at h
  split at h
  · cases h
  · split at h
    · cases h
    · split at h
      · cases h
      · next p1 hw =>
        split at h
        · cases h
        · next p2 hq =>
          obtain ⟨hq1, hw1⟩ := parseWidth_ok hw
          obtain ⟨hw2, hq2⟩ := parseQuality_ok hq
          simp only at hq1 hw1
          have hW : 0 < p2.Width ∧ p2.Width ≤ 2000 := by
            rw [hw2]
            rcases hw1 with e | e
            · rw [e]; omega
            · exact e
          have hQ : 0 < p2.Quality ∧ p2.Quality ≤ 100 := by
            rcases hq2 with e | e
            · rw [e, hq1]; omega
            · exact e
          split at h
          · cases h
          · split at h <;>
            · injection h with h
              subst h
              exact ⟨hW.1, hW.2, hQ.1, hQ.2⟩

/-- Accepted requests for C19: a path without tokens gets the defaults, and a path whose width
digits overflow `int` gets the default width; both are within the bounds. -/
theorem ParseURLParams_bounds_witness :
    ParseURLParams url.plainLib "w_9223372036854775808,q_7/example.com/a.jpg" "" =
      .ok { URL := "https://example.com/a.jpg", Quality := 7, Width := 400, Origin := "" } ∧
    ((0 : Int) < 400 ∧ (400 : Int) ≤ 2000 ∧ (0 : Int) < 7 ∧ (7 : Int) ≤ 100) :=
  ⟨by decide,
    ParseURLParams_bounds url.plainLib "w_9223372036854775808,q_7/example.com/a.jpg" ""
      { URL := "https://example.com/a.jpg", Quality := 7, Width := 400, Origin := "" }
      (by decide)⟩

/-- Claim C18, evaluated where it fails.  The path `/q_80/example.com/pic.jpg` has the form
`/q_90/url` that the error message of the parser announces; the pattern wants a comma before
`q_`, so no token is read: the quality is the default 90, not 80, and `q_80` becomes the host
of the URL. -/
theorem ParseURLParams_quality_only_misread :
    ParseURLParams url.plainLib "/q_80/example.com/pic.jpg" "" =
      .ok { URL := "https://q_80/example.com/pic.jpg", Quality := 90, Width := 400,
            Origin := "" } := by
  decide

end images

namespace routes

/-- Every error of `OptimizeImage` is answered with the status 500. -/
theorem OptimizeImageHandler_error_status (env : images.Env) (cm : cache.CacheManager)
    (tLookup tSave : Int) (w : images.World) (fullPath origin err : String)
    (h : (images.OptimizeImage env cm tLookup tSave w fullPath origin).2 = .error err) :
    (OptimizeImageHandler env cm tLookup tSave w fullPath origin).2.Status = 500 := by
  unfold OptimizeImageHandler
  generalize images.OptimizeImage env cm tLookup tSave w fullPath origin = r at h
  obtain ⟨w', res⟩ := r
  simp only at h
  subst h
  rfl

/-- Claim C16, evaluated where it fails.  The request `w_2001/example.com/a.jpg` fails parameter
parsing with `width cannot exceed 2000 pixels`, and `OptimizeImageHandler` answers it with the
status 500, a server error, not with a status of the class 4xx. -/
theorem OptimizeImageHandler_parameter_error_is_500 :
    images.ParseURLParams images.demoEnv.net "w_2001/example.com/a.jpg" "" =
      .error "width cannot exceed 2000 pixels" ∧
    (OptimizeImageHandler images.demoEnv ⟨"cache", 3600, 100⟩ 10 11 ⟨[], []⟩
        "w_2001/example.com/a.jpg" "").2 =
      Error "Error processing image: parameter parsing error: width cannot exceed 2000 pixels"
        500 ∧
    ¬ (400 ≤ (OptimizeImageHandler images.demoEnv ⟨"cache", 3600, 100⟩ 10 11 ⟨[], []⟩
        "w_2001/example.com/a.jpg" "").2.Status ∧
      (OptimizeImageHandler images.demoEnv ⟨"cache", 3600, 100⟩ 10 11 ⟨[], []⟩
        "w_2001/example.com/a.jpg" "").2.Status < 500) := by
  decide

end routes

/-! ## The duration grammar -/

namespace strconv

theorem isDigit_toNat {c : Char} (h : isDigit c = true) : 48 ≤ c.toNat ∧ c.toNat ≤ 57 := by
  simp only [isDigit, Bool.and_eq_true, decide_eq_true_eq] at h
  obtain ⟨h1, h2⟩ := h
  have h1' : ('0' : Char).toNat ≤ c.toNat := h1
  have h2' : c.toNat ≤ ('9' : Char).toNat := h2
  exact ⟨h1', h2'⟩

theorem Atoi_empty_error : ∃ err, Atoi "" = .error err := ⟨_, rfl⟩

end strconv

namespace strings

theorem isSpace_of_digit {c : Char} (h : strconv.isDigit c = true) : isSpace c = false := by
  obtain ⟨h1, h2⟩ := strconv.isDigit_toNat h
  have e1 : c ≠ '\t' := fun e => by rw [e] at h; revert h; decide
  have e2 : c ≠ '\n' := fun e => by rw [e] at h; revert h; decide
  have e3 : c ≠ '\r' := fun e => by rw [e] at h; revert h; decide
  have e4 : c ≠ ' ' := fun e => by rw [e] at h; revert h; decide
  simp only [isSpace, beq_iff_eq, e1, e2, e3, e4, Bool.or_eq_false_iff, Bool.and_eq_false_imp,
    decide_eq_false_iff_not, decide_eq_true_eq, beq_eq_false_iff_ne, ne_eq, Bool.false_or,
    decide_False, not_false_eq_true]
  and_intros <;> first | trivial | omega

theorem dropWhile_of_head {l : List Char} {p : Char → Bool}
    (h : ∀ c, l.head? = some c → p c = false) : l.dropWhile p = l := by
  cases l with
  | nil => rfl
  | cons a t => simp [List.dropWhile, h a rfl]

/-- A string that neither starts nor ends with white space is left as it is by `TrimSpace`. -/
theorem TrimSpace_eq {l : List Char} (hh : ∀ c, l.head? = some c → isSpace c = false)
    (hl : ∀ c, l.getLast? = some c → isSpace c = false) :
    TrimSpace (String.mk l) = String.mk l := by
  unfold TrimSpace
  simp only
  rw [dropWhile_of_head hh, dropWhile_of_head (by simpa using hl), List.reverse_reverse]

theorem lower_of_digit {c : Char} (h : strconv.isDigit c = true) (lower : Char → Char) :
    (if c.toNat < 128 then c.toLower else lower c) = c := by
  obtain ⟨h1, h2⟩ := strconv.isDigit_toNat h
  rw [if_pos (by omega)]
  unfold Char.toLower
  simp only []
  rw [if_neg (by omega)]

end strings

namespace time

theorem wrap64_eq {x : Int} (h0 : 0 ≤ x) (h1 : x < 2 ^ 63) : wrap64 x = x := by
  unfold wrap64
  omega

theorem mul_eq {a b : Int} (h0 : 0 ≤ a * b) (h1 : a * b < 2 ^ 63) : mul a b = a * b :=
  wrap64_eq h0 h1

end time

namespace cache

/-- The scan splits the text into its longest prefix of digits and the rest. -/
theorem scanDuration_spec (l num : List Char) :
    ∃ pre, scanDuration l num = (num ++ pre, (scanDuration l num).2) ∧
      l = pre ++ (scanDuration l num).2 ∧ (∀ c ∈ pre, strconv.isDigit c = true) ∧
      (∀ c, (scanDuration l num).2.head? = some c → strconv.isDigit c = false) := by
  induction l generalizing num with
  | nil => exact ⟨[], by simp [scanDuration]⟩
  | cons c cs ih =>
    by_cases hc : strconv.isDigit c = true
    · have hstep : scanDuration (c :: cs) num = scanDuration cs (num ++ [c]) := by
        have hc' := hc
        unfold strconv.isDigit at hc'
        rw [scanDuration, if_pos hc']
      obtain ⟨pre, h1, h2, h3, h4⟩ := ih (num ++ [c])
      rw [hstep]
      refine ⟨c :: pre, ?_, ?_, ?_, h4⟩
      · rw [h1]; simp
      · simp only [List.cons_append]; rw [← h2]
      · intro d hd
        rcases List.mem_cons.1 hd with rfl | hd
        · exact hc
        · exact h3 d hd
    · have hstep : scanDuration (c :: cs) num = (num, c :: cs) := by
        have hc' := hc
        unfold strconv.isDigit at hc'
        rw [scanDuration, if_neg hc']
      rw [hstep]
      exact ⟨[], by simp, rfl, by simp, by simpa using hc⟩

/-- On digits followed by a text that does not start with a digit, the scan returns the two. -/
theorem scanDuration_digits (n rest : List Char) (hds : ∀ c ∈ n, strconv.isDigit c = true)
    (hrest : ∀ c, rest.head? = some c → strconv.isDigit c = false) (num : List Char) :
    scanDuration (n ++ rest) num = (num ++ n, rest) := by
  induction n generalizing num with
  | nil =>
    cases rest with
    | nil => simp [scanDuration]
    | cons c cs =>
      have hc := hrest c rfl
      unfold strconv.isDigit at hc
      simp only [List.nil_append, scanDuration, hc, List.append_nil]
      rfl
  | cons d ds ih =>
    have hd := hds d (List.mem_cons_self _ _)
    unfold strconv.isDigit at hd
    rw [List.cons_append, scanDuration, if_pos hd, ih (fun c hc => hds c (List.mem_cons_of_mem _ hc))]
    simp

end cache

namespace strings

/-- ASCII lower-case letter. -/
theorem lowerLetter_facts {c : Char} (h1 : 97 ≤ c.toNat) (h2 : c.toNat ≤ 122)
    (lower : Char → Char) :
    isSpace c = false ∧ strconv.isDigit c = false ∧
      (if c.toNat < 128 then c.toLower else lower c) = c := by
  refine ⟨?_, ?_, ?_⟩
  · cases hs : isSpace c with
    | false => rfl
    | true =>
      exfalso
      simp only [isSpace, Bool.or_eq_true, beq_iff_eq, Bool.and_eq_true, decide_eq_true_eq] at hs
      have e1 : c ≠ '\t' := fun e => by rw [e] at h1; revert h1; decide
      have e2 : c ≠ '\n' := fun e => by rw [e] at h1; revert h1; decide
      have e3 : c ≠ '\r' := fun e => by rw [e] at h1; revert h1; decide
      have e4 : c ≠ ' ' := fun e => by rw [e] at h1; revert h1; decide
      simp only [e1, e2, e3, e4, false_or, or_false] at hs
      omega
  · cases hd : strconv.isDigit c with
    | false => rfl
    | true => have := strconv.isDigit_toNat hd; omega
  · rw [if_pos (by omega)]
    unfold Char.toLower
    simp only []
    rw [if_neg (by omega)]

end strings

namespace cache

/-- On a non-empty run of digits whose value fits `int`, followed by a non-empty text of ASCII
lower-case letters, `ParseCacheDuration` reaches its `switch` with the value of the digits and
that text as the unit. -/
theorem ParseCacheDuration_digits_letters (unicodeToLower : Char → Char) (n u : List Char)
    (hne : n ≠ []) (hds : ∀ c ∈ n, strconv.isDigit c = true)
    (hv : strconv.digitsValue n < 2 ^ 63) (hune : u ≠ [])
    (hu : ∀ c ∈ u, 97 ≤ c.toNat ∧ c.toNat ≤ 122) :
    ParseCacheDuration unicodeToLower (String.mk (n ++ u)) =
      durationSwitch (strconv.digitsValue n : Int) (String.mk u) := by
  have hnonempty : String.mk (n ++ u) ≠ "" :=
    fun e => hne (List.append_eq_nil.1 (congrArg String.data e)).1
  have hhead : ∀ c, (n ++ u).head? = some c → strings.isSpace c = false := by
    intro c hc
    cases n with
    | nil => exact absurd rfl hne
    | cons d ds =>
      simp only [List.cons_append, List.head?_cons, Option.some.injEq] at hc
      exact hc ▸ strings.isSpace_of_digit (hds d (List.mem_cons_self _ _))
  have hlast : ∀ c, (n ++ u).getLast? = some c → strings.isSpace c = false := by
    intro c hc
    rw [List.getLast?_append] at hc
    cases hul : u.getLast? with
    | none => exact absurd (List.getLast?_eq_none_iff.1 hul) hune
    | some x =>
      rw [hul] at hc
      simp only [Option.or_some, Option.some.injEq] at hc
      have hx : x ∈ u := List.mem_of_mem_getLast? (by rw [hul]; exact rfl)
      exact hc ▸ (strings.lowerLetter_facts (hu x hx).1 (hu x hx).2 unicodeToLower).1
  have hmap : (n ++ u).map (fun c => if c.toNat < 128 then c.toLower else unicodeToLower c)
      = n ++ u := by
    conv_rhs => rw [← List.map_id (n ++ u)]
    apply List.map_congr_left
    intro c hc
    rcases List.mem_append.1 hc with h | h
    · simpa using strings.lower_of_digit (hds c h) unicodeToLower
    · simpa using (strings.lowerLetter_facts (hu c h).1 (hu c h).2 unicodeToLower).2.2
  have hscan := scanDuration_digits n u hds
    (fun c hc => (strings.lowerLetter_facts (hu c (List.mem_of_mem_head? hc)).1
      (hu c (List.mem_of_mem_head? hc)).2 unicodeToLower).2.1) []
  have hatoi := strconv.Atoi_digits hne hds hv
  simp only [ParseCacheDuration, if_neg hnonempty, strings.TrimSpace_eq hhead hlast,
    strings.ToLower, hmap, hscan, List.nil_append, hatoi]

end cache

namespace cache

theorem unitDuration_pos {u : String} (hu : u ∈ durationUnits) : 0 < unitDuration u := by
  simp only [durationUnits, List.mem_cons, List.mem_singleton, List.not_mem_nil, or_false] at hu
  rcases hu with rfl | rfl | rfl | rfl | rfl | rfl <;> decide

/-- When the exact product fits `time.Duration`, the `switch` computes the value times the
duration of the unit. -/
theorem durationSwitch_in_range {v : Int} {u : String} (hv : 0 ≤ v) (hu : u ∈ durationUnits)
    (hfit : v * unitDuration u < 2 ^ 63) : durationSwitch v u = v * unitDuration u := by
  simp only [durationUnits, List.mem_cons, List.mem_singleton, List.not_mem_nil, or_false] at hu
  rcases hu with rfl | rfl | rfl | rfl | rfl | rfl
  · have e : unitDuration "min" = 60000000000 := by decide
    rw [e] at hfit ⊢
    have : durationSwitch v "min" = time.mul v 60000000000 := rfl
    rw [this, time.mul_eq (by omega) (by omega)]
  · have e : unitDuration "h" = 3600000000000 := by decide
    rw [e] at hfit ⊢
    have : durationSwitch v "h" = time.mul v 3600000000000 := rfl
    rw [this, time.mul_eq (by omega) (by omega)]
  · have e : unitDuration "d" = 86400000000000 := by decide
    rw [e] at hfit ⊢
    have : durationSwitch v "d" = time.mul (time.mul v 24) 3600000000000 := rfl
    rw [this, time.mul_eq (a := v) (by omega) (by omega), time.mul_eq (by omega) (by omega)]
    omega
  · have e : unitDuration "w" = 604800000000000 := by decide
    rw [e] at hfit ⊢
    have : durationSwitch v "w" = time.mul (time.mul (time.mul v 7) 24) 3600000000000 := rfl
    rw [this, time.mul_eq (a := v) (by omega) (by omega),
      time.mul_eq (a := v * 7) (by omega) (by omega), time.mul_eq (by omega) (by omega)]
    omega
  · have e : unitDuration "m" = 2592000000000000 := by decide
    rw [e] at hfit ⊢
    have : durationSwitch v "m" = time.mul (time.mul (time.mul v 30) 24) 3600000000000 := rfl
    rw [this, time.mul_eq (a := v) (by omega) (by omega),
      time.mul_eq (a := v * 30) (by omega) (by omega), time.mul_eq (by omega) (by omega)]
    omega
  · have e : unitDuration "y" = 31536000000000000 := by decide
    rw [e] at hfit ⊢
    have : durationSwitch v "y" = time.mul (time.mul (time.mul v 365) 24) 3600000000000 := rfl
    rw [this, time.mul_eq (a := v) (by omega) (by omega),
      time.mul_eq (a := v * 365) (by omega) (by omega), time.mul_eq (by omega) (by omega)]
    omega

theorem durationUnits_letters {u : String} (hu : u ∈ durationUnits) :
    u.data ≠ [] ∧ ∀ c ∈ u.data, 97 ≤ c.toNat ∧ c.toNat ≤ 122 := by
  simp only [durationUnits, List.mem_cons, List.mem_singleton, List.not_mem_nil, or_false] at hu
  rcases hu with rfl | rfl | rfl | rfl | rfl | rfl <;> decide

/-- Claim C14, as the code has it.  For every non-empty run of decimal digits `n` and every unit
`u` among `min`, `h`, `d`, `w`, `m`, `y` such that the value of `n` times the duration of the
unit is below `2^63` nanoseconds, the range of `time.Duration`, `ParseCacheDuration(n ++ u)` is
the value of `n` times the duration of the unit, where `min` is one minute, `h` one hour, `d` 24
hours, `w` 7 days, `m` 30 days and `y` 365 days; the result is then not negative. -/
theorem ParseCacheDuration_in_range (unicodeToLower : Char → Char) (n : List Char) (u : String)
    (hne : n ≠ []) (hds : ∀ c ∈ n, strconv.isDigit c = true) (hu : u ∈ durationUnits)
    (hfit : (strconv.digitsValue n : Int) * unitDuration u < 2 ^ 63) :
    ParseCacheDuration unicodeToLower (String.mk (n ++ u.data)) =
      (strconv.digitsValue n : Int) * unitDuration u ∧
    0 ≤ ParseCacheDuration unicodeToLower (String.mk (n ++ u.data)) := by
  have hv0 : (0 : Int) ≤ (strconv.digitsValue n : Int) := Int.natCast_nonneg _
  have hpos := unitDuration_pos hu
  have hvfit : strconv.digitsValue n < 2 ^ 63 := by
    have : (strconv.digitsValue n : Int) < 2 ^ 63 := by nlinarith
    exact_mod_cast this
  obtain ⟨hune, hletters⟩ := durationUnits_letters hu
  have h := ParseCacheDuration_digits_letters unicodeToLower n u.data hne hds hvfit hune hletters
  rw [h, durationSwitch_in_range hv0 hu hfit]
  exact ⟨rfl, mul_nonneg hv0 (le_of_lt hpos)⟩

/-- Durations for C14 within the range: 90 minutes and 2 years. -/
theorem ParseCacheDuration_in_range_witness :
    ParseCacheDuration (fun c => c) "90min" = 90 * unitDuration "min" ∧
    ParseCacheDuration (fun c => c) "2y" = 2 * (365 * (24 * (3600 * 1000000000))) :=
  ⟨(ParseCacheDuration_in_range (fun c => c) "90".data "min" (by decide) (by decide)
      (by decide) (by decide)).1,
   (ParseCacheDuration_in_range (fun c => c) "2".data "y" (by decide) (by decide)
      (by decide) (by decide)).1⟩

/-- Claim C14, refuted as stated.  For the digits `2562048` and the unit `h` the exact product
exceeds the range of `time.Duration`: `ParseCacheDuration("2562048h")` is
`-9223371273709551616` nanoseconds, which is neither `2562048` hours nor a non-negative
duration.  For the digits `9223372036854775808`, which `Atoi` cannot read, the result is the
default of one hour. -/
theorem ParseCacheDuration_overflow :
    ParseCacheDuration (fun c => c) "2562048h" = -9223371273709551616 ∧
    ParseCacheDuration (fun c => c) "2562048h" ≠ 2562048 * unitDuration "h" ∧
    ¬ (0 ≤ ParseCacheDuration (fun c => c) "2562048h") ∧
    ParseCacheDuration (fun c => c) "9223372036854775808h" = time.Hour ∧
    ParseCacheDuration (fun c => c) "9223372036854775808h" ≠
      9223372036854775808 * unitDuration "h" := by
  decide

end cache

namespace cache

theorem durationSwitch_default (v : Int) {u : String} (hu : u ∉ durationUnits) :
    durationSwitch v u = time.Hour := by
  simp only [durationUnits, List.mem_cons, List.mem_singleton, List.not_mem_nil, or_false,
    not_or] at hu
  obtain ⟨h1, h2, h3, h4, h5, h6⟩ := hu
  unfold durationSwitch
  rw [if_neg h1, if_neg h2, if_neg h3, if_neg h4, if_neg h5, if_neg h6]

/-- Claim C15.  For every input that is empty, or that after `strings.TrimSpace` and
`strings.ToLower` is not a non-empty run of decimal digits immediately followed by exactly one
of `min`, `h`, `d`, `w`, `m`, `y`, `ParseCacheDuration` returns one hour. -/
theorem ParseCacheDuration_default (unicodeToLower : Char → Char) (s : String)
    (h : s = "" ∨
      ¬ DurationGrammar (strings.ToLower unicodeToLower (strings.TrimSpace s)).data) :
    ParseCacheDuration unicodeToLower s = time.Hour := by
  by_cases hs : s = ""
  · simp only [ParseCacheDuration, hs, if_true]
  · have hg := h.resolve_left hs
    simp only [ParseCacheDuration, if_neg hs]
    obtain ⟨pre, h1, h2, h3, _⟩ :=
      scanDuration_spec (strings.ToLower unicodeToLower (strings.TrimSpace s)).data []
    generalize scanDuration (strings.ToLower unicodeToLower (strings.TrimSpace s)).data [] = sc
      at h1 h2
    obtain ⟨num, suf⟩ := sc
    simp only [List.nil_append, Prod.mk.injEq, and_true] at h1 h2
    subst h1
    split
    · rfl
    · next value hatoi =>
      apply durationSwitch_default
      intro hu
      apply hg
      refine ⟨num, String.mk suf, h2, ?_, h3, hu⟩
      intro hnil
      rw [hnil] at hatoi
      obtain ⟨err, he⟩ := strconv.Atoi_empty_error
      rw [show String.mk [] = "" from rfl, he] at hatoi
      cases hatoi

/-- Inputs for C15 outside the grammar: a leading sign, and a number without a unit. -/
theorem ParseCacheDuration_default_witness :
    ParseCacheDuration (fun c => c) "+5h" = time.Hour ∧
    ParseCacheDuration (fun c => c) " 5 " = time.Hour :=
  ⟨ParseCacheDuration_default (fun c => c) "+5h" (Or.inr (by
      rintro ⟨n, u, hl, hne, hds, _⟩
      cases n with
      | nil => exact hne rfl
      | cons d ds =>
        have hd := hds d (List.mem_cons_self _ _)
        have : '+' = d := (List.cons.inj hl).1
        rw [← this] at hd
        revert hd
        decide)),
   ParseCacheDuration_default (fun c => c) " 5 " (Or.inr (by
      rintro ⟨n, u, hl, hne, hds, hu⟩
      have hlen := congrArg List.length hl
      have hul : 0 < u.data.length := by
        simp only [durationUnits, List.mem_cons, List.mem_singleton, List.not_mem_nil,
          or_false] at hu
        rcases hu with rfl | rfl | rfl | rfl | rfl | rfl <;> decide
      have hnl : 0 < n.length := List.length_pos.2 hne
      have h1 : ((strings.ToLower (fun c => c) (strings.TrimSpace " 5 ")).data).length = 1 := by
        decide
      rw [h1, List.length_append] at hlen
      omega))⟩

end cache

/-! ## Tokens without a target, minimal eviction, the budget after a save -/

namespace images

/-- Claim C22, evaluated where it fails.  The path `w_300` holds a width token and no target.
The pattern asks for at least one character after the tokens, so the digits give one back: the
width read is 30, the target is `0`, and `ParseURLParams` returns parameters with the URL
`https://0` instead of an error.  The same happens with a leading slash. -/
theorem ParseURLParams_tokens_only_accepted :
    ParseURLParams url.plainLib "w_300" "" =
      .ok { URL := "https://0", Quality := 90, Width := 30, Origin := "" } ∧
    ParseURLParams url.plainLib "/w_300" "" =
      .ok { URL := "https://0", Quality := 90, Width := 30, Origin := "" } ∧
    ParseURLParams url.plainLib "w_300,q_80" "" =
      .ok { URL := "https://0", Quality := 8, Width := 300, Origin := "" } := by
  decide

end images

namespace cache

/-- When every listed file is a regular file of the directory and no name is listed twice, the
eviction loop deletes the names of the shortest prefix of the listing after which the running
size plus the new file fits the budget, and of the whole listing when no prefix does. -/
theorem evictLoop_shortest (cm : CacheManager) (sz : Int) (files : List FileInfo) (fs : FS)
    (cur : Int)
    (hfile : ∀ f ∈ files, ∃ e, lookup fs f.Name = some e ∧ e.IsDir = false)
    (hnd : (files.map FileInfo.Name).Nodup) :
    ∃ j, j ≤ files.length ∧
      evictLoop cm sz files fs cur =
        fs.filter (fun d => decide (d.name ∉ (files.take j).map FileInfo.Name)) ∧
      (∀ i, i < j → ¬ (cur - ((files.take i).map FileInfo.Size).sum + sz ≤ cm.MaxCacheSize)) ∧
      (j = files.length ∨
        cur - ((files.take j).map FileInfo.Size).sum + sz ≤ cm.MaxCacheSize) := by
  induction files generalizing fs cur with
  | nil => exact ⟨0, le_rfl, by simp [evictLoop], by simp, Or.inl rfl⟩
  | cons f rest ih =>
    unfold evictLoop
    split
    · next hfit =>
      exact ⟨0, Nat.zero_le _, by simp, by simp, Or.inr (by simpa using hfit)⟩
    · next hfit =>
      obtain ⟨e, hl, hd⟩ := hfile f (List.mem_cons_self _ _)
      rw [Remove_file hl hd]
      simp only []
      have hnd' : f.Name ∉ rest.map FileInfo.Name ∧ (rest.map FileInfo.Name).Nodup :=
        List.nodup_cons.1 (by simpa using hnd)
      have hfile' : ∀ g ∈ rest, ∃ e,
          lookup (fs.filter (fun d => decide (d.name ≠ f.Name))) g.Name = some e ∧
            e.IsDir = false := by
        intro g hg
        obtain ⟨e', hl', hd'⟩ := hfile g (List.mem_cons_of_mem _ hg)
        have hne : g.Name ≠ f.Name := by
          intro heq
          exact hnd'.1 (heq ▸ List.mem_map_of_mem FileInfo.Name hg)
        exact ⟨e', by rw [lookup_filter_ne]; simp [hne, hl'], hd'⟩
      obtain ⟨j, hj, heq, hmin, hend⟩ := ih (fs.filter (fun d => decide (d.name ≠ f.Name)))
        (cur - f.Size) hfile' hnd'.2
      refine ⟨j + 1, by simpa using hj, ?_, ?_, ?_⟩
      · rw [heq, List.filter_filter]
        congr 1
        funext d
        simp [List.take, not_or, Bool.and_comm]
      · intro i hi
        cases i with
        | zero => simpa using hfit
        | succ i =>
          have := hmin i (by omega)
          simp only [List.take_succ_cons, List.map_cons, List.sum_cons]
          intro hc
          apply this
          omega
      · rcases hend with h | h
        · left; simp [h]
        · right
          simp only [List.take_succ_cons, List.map_cons, List.sum_cons]
          omega

end cache

namespace os

theorem WF.filter {fs : FS} (h : WF fs) (p : DirEntry → Bool) : WF (fs.filter p) :=
  List.Nodup.sublist ((List.filter_sublist fs).map DirEntry.name) h

theorem WF.tail {d : DirEntry} {ds : FS} (h : WF (d :: ds)) :
    (∀ e ∈ ds, e.name ≠ d.name) ∧ WF ds := by
  have h' : d.name ∉ ds.map DirEntry.name ∧ (ds.map DirEntry.name).Nodup :=
    List.nodup_cons.1 (by simpa [WF] using h)
  exact ⟨fun e he heq => h'.1 (heq ▸ List.mem_map_of_mem DirEntry.name he), h'.2⟩

/-- Looking a name up after a filter on names. -/
theorem lookup_filter_name (fs : FS) (p : String → Bool) (n : String) :
    lookup (fs.filter (fun d => p d.name)) n = if p n = true then lookup fs n else none := by
  induction fs with
  | nil => simp [lookup]
  | cons d ds ih =>
    by_cases hd : p d.name = true
    · have hf : (d :: ds).filter (fun d => p d.name) = d :: ds.filter (fun d => p d.name) :=
        List.filter_cons_of_pos hd
      rw [hf, lookup_cons, lookup_cons, ih]
      by_cases hn : d.name = n
      · rw [if_pos hn, if_pos hn, if_pos (hn ▸ hd)]
      · rw [if_neg hn, if_neg hn]
    · have hf : (d :: ds).filter (fun d => p d.name) = ds.filter (fun d => p d.name) :=
        List.filter_cons_of_neg hd
      rw [hf, lookup_cons, ih]
      by_cases hn : d.name = n
      · have hpn : ¬ p n = true := hn ▸ hd
        rw [if_neg hpn, if_neg hpn]
      · rw [if_neg hn]

end os

namespace cache

theorem walkSize_cons (d : DirEntry) (ds : FS) :
    walkSize (d :: ds) =
      (match d.node with
       | .file data _ => (data.length : Int)
       | .dir _ treeSize _ => (treeSize : Int)) + walkSize ds := rfl

theorem walkSize_cons_file {d : DirEntry} (hd : d.IsDir = false) (ds : FS) :
    walkSize (d :: ds) = d.node.Size + walkSize ds := by
  rw [walkSize_cons]
  cases hn : d.node with
  | file data t => simp [Node.Size]
  | dir t sz em => simp [DirEntry.IsDir, hn, Node.IsDir] at hd

theorem walkSize_nonneg (fs : FS) : 0 ≤ walkSize fs := by
  induction fs with
  | nil => simp [walkSize]
  | cons d ds ih =>
    rw [walkSize_cons]
    cases d.node <;> simp only <;> omega

theorem Size_nonneg (node : Node) : 0 ≤ node.Size := by
  cases node <;> simp [Node.Size]

theorem filter_ne_of_absent {ds : FS} {n : String} (h : ∀ e ∈ ds, e.name ≠ n) :
    ds.filter (fun d => decide (d.name ≠ n)) = ds :=
  List.filter_eq_self.2 (fun e he => by simpa using h e he)

/-- Removing the one regular file of a name takes its size off the total. -/
theorem walkSize_filter_ne {fs : FS} (hwf : WF fs) {n : String} {e : DirEntry}
    (hl : lookup fs n = some e) (hd : e.IsDir = false) :
    walkSize (fs.filter (fun d => decide (d.name ≠ n))) = walkSize fs - e.node.Size := by
  induction fs with
  | nil => simp [lookup] at hl
  | cons d ds ih =>
    obtain ⟨habs, hwf'⟩ := hwf.tail
    rw [lookup_cons] at hl
    by_cases hdn : d.name = n
    · rw [if_pos hdn] at hl
      injection hl with hl
      subst hl
      rw [List.filter_cons_of_neg (by simpa using hdn),
        filter_ne_of_absent (fun e he => hdn ▸ habs e he), walkSize_cons_file hd]
      omega
    · rw [if_neg hdn] at hl
      rw [List.filter_cons_of_pos (by simpa using hdn), walkSize_cons, walkSize_cons, ih hwf' hl]
      omega

/-- Removing listed regular files of distinct names takes their sizes off the total. -/
theorem walkSize_filter_names (files : List FileInfo) (fs : FS) (hwf : WF fs)
    (hfile : ∀ f ∈ files, ∃ e, lookup fs f.Name = some e ∧ e.IsDir = false ∧
      e.node.Size = f.Size)
    (hnd : (files.map FileInfo.Name).Nodup) :
    walkSize (fs.filter (fun d => decide (d.name ∉ files.map FileInfo.Name))) =
      walkSize fs - (files.map FileInfo.Size).sum := by
  induction files generalizing fs with
  | nil => simp
  | cons f rest ih =>
    obtain ⟨e, hl, hd, hsz⟩ := hfile f (List.mem_cons_self _ _)
    have hnd' : f.Name ∉ rest.map FileInfo.Name ∧ (rest.map FileInfo.Name).Nodup :=
      List.nodup_cons.1 (by simpa using hnd)
    have hfile' : ∀ g ∈ rest, ∃ e,
        lookup (fs.filter (fun d => decide (d.name ≠ f.Name))) g.Name = some e ∧
          e.IsDir = false ∧ e.node.Size = g.Size := by
      intro g hg
      obtain ⟨e', hl', hd', hs'⟩ := hfile g (List.mem_cons_of_mem _ hg)
      have hne : g.Name ≠ f.Name := by
        intro heq
        exact hnd'.1 (heq ▸ List.mem_map_of_mem FileInfo.Name hg)
      exact ⟨e', by rw [lookup_filter_ne]; simp [hne, hl'], hd', hs'⟩
    have hstep : fs.filter (fun d => decide (d.name ∉ (f :: rest).map FileInfo.Name)) =
        (fs.filter (fun d => decide (d.name ≠ f.Name))).filter
          (fun d => decide (d.name ∉ rest.map FileInfo.Name)) := by
      rw [List.filter_filter]
      congr 1
      funext d
      simp [not_or, Bool.and_comm]
    rw [hstep, ih _ (hwf.filter _) hfile' hnd'.2, walkSize_filter_ne hwf hl hd, hsz]
    simp only [List.map_cons, List.sum_cons]
    omega

end cache

namespace cache

theorem withoutOldest_zero (fs : FS) (files : List FileInfo) : withoutOldest fs files 0 = fs := by
  simp [withoutOldest]

/-- The total size of the directory without the `i` oldest listed files. -/
theorem walkSize_withoutOldest {fs : FS} (hwf : WF fs) {files : List FileInfo}
    (hfiles : getCacheFilesSorted fs = .ok files) (i : Nat) :
    walkSize (withoutOldest fs files i) =
      walkSize fs - ((files.take i).map FileInfo.Size).sum := by
  unfold withoutOldest
  apply walkSize_filter_names _ _ hwf
  · intro f hf
    obtain ⟨e, hl, hd, _, hfe⟩ := getCacheFilesSorted_lookup hwf hfiles (List.mem_of_mem_take hf)
    exact ⟨e, hl, hd, by rw [hfe]⟩
  · exact List.Nodup.sublist ((List.take_sublist i files).map FileInfo.Name)
      (getCacheFilesSorted_names_nodup hwf hfiles)

/-- In a directory without duplicate names, `cleanupIfNeeded` removes the `j` oldest listed
files, where `j` is the least number after which the rest plus the new file fits the budget, or
the length of the listing when no number does. -/
theorem cleanupIfNeeded_minimal (cm : CacheManager) (fs : FS) (sz : Int) (hwf : WF fs) :
    ∃ files j, getCacheFilesSorted fs = .ok files ∧ j ≤ files.length ∧
      (cleanupIfNeeded cm fs sz).1 = withoutOldest fs files j ∧
      (∀ i, i < j → ¬ (walkSize (withoutOldest fs files i) + sz ≤ cm.MaxCacheSize)) ∧
      (j = files.length ∨ walkSize (withoutOldest fs files j) + sz ≤ cm.MaxCacheSize) := by
  have hfiles := getCacheFilesSorted_eq fs
  suffices h : ∃ j, j ≤ (sortOuter ((collectInfos fs).length - 1) (collectInfos fs)).length ∧
      (cleanupIfNeeded cm fs sz).1 =
        withoutOldest fs (sortOuter ((collectInfos fs).length - 1) (collectInfos fs)) j ∧
      (∀ i, i < j → ¬ (walkSize (withoutOldest fs
        (sortOuter ((collectInfos fs).length - 1) (collectInfos fs)) i) + sz ≤
          cm.MaxCacheSize)) ∧
      (j = (sortOuter ((collectInfos fs).length - 1) (collectInfos fs)).length ∨
        walkSize (withoutOldest fs
          (sortOuter ((collectInfos fs).length - 1) (collectInfos fs)) j) + sz ≤
            cm.MaxCacheSize) by
    obtain ⟨j, h1, h2, h3, h4⟩ := h
    exact ⟨_, j, hfiles, h1, h2, h3, h4⟩
  by_cases hfit : walkSize fs + sz ≤ cm.MaxCacheSize
  · refine ⟨0, Nat.zero_le _, ?_, by simp, Or.inr ?_⟩
    · rw [withoutOldest_zero]
      simp only [cleanupIfNeeded, getCacheSize, if_pos hfit]
    · rw [withoutOldest_zero]; exact hfit
  · obtain ⟨j, hj, heq, hmin, hend⟩ := evictLoop_shortest cm sz
      (sortOuter ((collectInfos fs).length - 1) (collectInfos fs)) fs (walkSize fs)
      (fun f hf => by
        obtain ⟨e, hl, hd, _⟩ := getCacheFilesSorted_lookup hwf hfiles hf
        exact ⟨e, hl, hd⟩)
      (getCacheFilesSorted_names_nodup hwf hfiles)
    refine ⟨j, hj, ?_, ?_, ?_⟩
    · simp only [cleanupIfNeeded, getCacheSize, if_neg hfit, getCacheFilesSorted_eq]
      exact heq
    · intro i hi
      rw [walkSize_withoutOldest hwf hfiles]
      exact hmin i hi
    · rw [walkSize_withoutOldest hwf hfiles]
      exact hend

end cache

namespace cache

theorem walkSize_insertByName (name : String) (data : Bytes) (now : Int) (fs : FS) :
    walkSize (insertByName ⟨name, .file data now⟩ fs) = (data.length : Int) + walkSize fs := by
  induction fs with
  | nil => simp [insertByName, walkSize]
  | cons d ds ih =>
    unfold insertByName
    split
    · rw [walkSize_cons]
    · rw [walkSize_cons, walkSize_cons, ih]
      omega

theorem walkSize_map_replace {fs : FS} (hwf : WF fs) {k : String} {e : DirEntry}
    (hl : lookup fs k = some e) (hd : e.IsDir = false) (data : Bytes) (now : Int) :
    walkSize (fs.map (fun d => if d.name = k then ⟨k, .file data now⟩ else d)) =
      walkSize fs - e.node.Size + (data.length : Int) := by
  induction fs with
  | nil => simp [lookup] at hl
  | cons d ds ih =>
    obtain ⟨habs, hwf'⟩ := hwf.tail
    rw [lookup_cons] at hl
    rw [List.map_cons]
    by_cases hdn : d.name = k
    · rw [if_pos hdn] at hl
      injection hl with hl
      subst hl
      have htail : ds.map (fun x => if x.name = k then (⟨k, .file data now⟩ : DirEntry) else x)
          = ds := by
        conv_rhs => rw [← List.map_id ds]
        apply List.map_congr_left
        intro x hx
        have : x.name ≠ k := hdn ▸ habs x hx
        simp [this]
      rw [if_pos hdn, htail, walkSize_cons, walkSize_cons_file hd]
      simp only
      omega
    · rw [if_neg hdn] at hl
      rw [if_neg hdn, walkSize_cons, walkSize_cons, ih hwf' hl]
      omega

/-- A write adds at most the length of the written bytes to the total size. -/
theorem walkSize_WriteFile {fs fs' : FS} (hwf : WF fs) {k : String} {data : Bytes} {now : Int}
    (h : WriteFile fs k data now = .ok fs') :
    walkSize fs' ≤ walkSize fs + (data.length : Int) := by
  unfold WriteFile at h
  split at h
  · injection h with h
    subst h
    rw [walkSize_insertByName]
    omega
  · next e hl =>
    split at h
    · next d t hn =>
      injection h with h
      subst h
      have hd : e.IsDir = false := by simp [DirEntry.IsDir, hn, Node.IsDir]
      rw [walkSize_map_replace hwf hl hd]
      have := Size_nonneg e.node
      omega
    · cases h

/-- In a flat directory, when the new file is no larger than the budget, the directory that
`cleanupIfNeeded` leaves has room for it. -/
theorem cleanupIfNeeded_room (cm : CacheManager) (fs : FS) (sz : Int) (hwf : WF fs)
    (hflat : Flat fs) (hsz : sz ≤ cm.MaxCacheSize) :
    walkSize (cleanupIfNeeded cm fs sz).1 + sz ≤ cm.MaxCacheSize := by
  obtain ⟨files, j, hfiles, _, hmid, _, hend⟩ := cleanupIfNeeded_minimal cm fs sz hwf
  rw [hmid]
  rcases hend with hall | hfit
  · have hnil : withoutOldest fs files j = [] := by
      unfold withoutOldest
      rw [hall, List.take_length, List.filter_eq_nil_iff]
      intro d hd
      have hmem : (⟨d.name, d.node.Size, d.node.ModTime, false⟩ : FileInfo) ∈ files :=
        (mem_getCacheFilesSorted hfiles).2 (mem_collectInfos.2 ⟨d, hd, hflat d hd, rfl⟩)
      have : d.name ∈ files.map FileInfo.Name := List.mem_map.2 ⟨_, hmem, rfl⟩
      simpa using this
    rw [hnil]
    simpa [walkSize] using hsz
  · exact hfit

end cache

namespace cache

/-- Claim C21.  In a directory without duplicate names, `SaveToCache(k, b)` evicts through
`cleanupIfNeeded(len b)` and then writes `k` only.  With `files` the oldest-first listing, the
eviction removes exactly the `j` oldest listed files, where: when the total size plus `len b`
is within `MaxCacheSize` nothing is removed; no shorter prefix of the listing leaves a directory
whose total size plus `len b` is within `MaxCacheSize`; and either the directory left is within
it, or the whole listing was removed. -/
theorem SaveToCache_evicts_no_more_than_needed (cm : CacheManager) (now : Int) (fs : FS)
    (k : String) (b : Bytes) (hwf : WF fs) :
    ∃ files j, getCacheFilesSorted fs = .ok files ∧ j ≤ files.length ∧
      (cleanupIfNeeded cm fs (b.length : Int)).1 = withoutOldest fs files j ∧
      (∀ f ∈ files,
        (lookup (cleanupIfNeeded cm fs (b.length : Int)).1 f.Name = none ↔
          f ∈ files.take j)) ∧
      (walkSize fs + (b.length : Int) ≤ cm.MaxCacheSize →
        (cleanupIfNeeded cm fs (b.length : Int)).1 = fs) ∧
      (∀ i, i < j →
        ¬ (walkSize (withoutOldest fs files i) + (b.length : Int) ≤ cm.MaxCacheSize)) ∧
      (j = files.length ∨
        walkSize (withoutOldest fs files j) + (b.length : Int) ≤ cm.MaxCacheSize) ∧
      (∀ n, n ≠ k → lookup (SaveToCache cm now fs k b).1 n =
        lookup (cleanupIfNeeded cm fs (b.length : Int)).1 n) := by
  obtain ⟨files, j, hfiles, hj, hmid, hmin, hend⟩ :=
    cleanupIfNeeded_minimal cm fs (b.length : Int) hwf
  refine ⟨files, j, hfiles, hj, hmid, ?_, ?_, hmin, hend, ?_⟩
  · intro f hf
    obtain ⟨e, hl, _⟩ := getCacheFilesSorted_lookup hwf hfiles hf
    have hlk := lookup_filter_name fs
      (fun n => decide (n ∉ (files.take j).map FileInfo.Name)) f.Name
    rw [hmid]
    unfold withoutOldest
    rw [hlk, hl]
    constructor
    · intro h
      by_cases hmem : f.Name ∈ (files.take j).map FileInfo.Name
      · obtain ⟨g, hg, hgn⟩ := List.mem_map.1 hmem
        have : g = f := List.inj_on_of_nodup_map (getCacheFilesSorted_names_nodup hwf hfiles)
          (List.mem_of_mem_take hg) hf hgn
        exact this ▸ hg
      · rw [if_pos (by simpa using hmem)] at h
        cases h
    · intro h
      have hmem : f.Name ∈ (files.take j).map FileInfo.Name := List.mem_map_of_mem _ h
      rw [if_neg (by simpa using hmem)]
  · intro hfit
    have hj0 : j = 0 := by
      by_contra hne
      exact hmin 0 (Nat.pos_of_ne_zero hne) (by rw [withoutOldest_zero]; exact hfit)
    rw [hmid, hj0, withoutOldest_zero]
  · intro n hn
    rw [SaveToCache_eq]
    split
    · next fs'' hw => exact lookup_WriteFile_ne hw hn
    · rfl

/-- An eviction for C21: with a budget of 6 bytes and files of 3 bytes (time 7), 1 byte (time 3)
and 2 bytes (time 5), saving 3 bytes removes the files of times 3 and 5; removing the file of
time 3 alone would leave 5 + 3 bytes. -/
theorem SaveToCache_evicts_no_more_than_needed_witness :
    WF [⟨"a.jpg", .file [1, 2, 3] 7⟩, ⟨"b.jpg", .file [4] 3⟩, ⟨"c.jpg", .file [5, 6] 5⟩] ∧
    (cleanupIfNeeded ⟨"cache", 3600, 6⟩
      [⟨"a.jpg", .file [1, 2, 3] 7⟩, ⟨"b.jpg", .file [4] 3⟩, ⟨"c.jpg", .file [5, 6] 5⟩] 3).1 =
      [⟨"a.jpg", .file [1, 2, 3] 7⟩] ∧
    (∃ files j, getCacheFilesSorted
        [⟨"a.jpg", .file [1, 2, 3] 7⟩, ⟨"b.jpg", .file [4] 3⟩, ⟨"c.jpg", .file [5, 6] 5⟩] =
          .ok files ∧ j ≤ files.length ∧
      (cleanupIfNeeded ⟨"cache", 3600, 6⟩
        [⟨"a.jpg", .file [1, 2, 3] 7⟩, ⟨"b.jpg", .file [4] 3⟩, ⟨"c.jpg", .file [5, 6] 5⟩]
        3).1 = withoutOldest
          [⟨"a.jpg", .file [1, 2, 3] 7⟩, ⟨"b.jpg", .file [4] 3⟩, ⟨"c.jpg", .file [5, 6] 5⟩]
          files j) :=
  ⟨by decide, by decide,
    (SaveToCache_evicts_no_more_than_needed ⟨"cache", 3600, 6⟩ 100
      [⟨"a.jpg", .file [1, 2, 3] 7⟩, ⟨"b.jpg", .file [4] 3⟩, ⟨"c.jpg", .file [5, 6] 5⟩]
      "k.jpg" [9, 9, 9] (by decide)).imp
      (fun _ h => h.imp (fun _ h' => ⟨h'.1, h'.2.1, h'.2.2.1⟩))⟩

/-- Claim C23.  In a flat cache directory without duplicate names, for every key `k` and bytes
`b` with `len b` at most `MaxCacheSize`, `SaveToCache(k, b)` returns `nil` and the total size
that `getCacheSize` reports afterwards is at most `MaxCacheSize`, whatever the total size was
before the call and whether or not the key had an entry. -/
theorem SaveToCache_within_budget (cm : CacheManager) (now : Int) (fs : FS) (k : String)
    (b : Bytes) (hwf : WF fs) (hflat : Flat fs) (hb : (b.length : Int) ≤ cm.MaxCacheSize) :
    (SaveToCache cm now fs k b).2 = none ∧
      ∃ total, getCacheSize (SaveToCache cm now fs k b).1 = .ok total ∧
        total ≤ cm.MaxCacheSize := by
  have hroom := cleanupIfNeeded_room cm fs (b.length : Int) hwf hflat hb
  obtain ⟨files, j, _, _, hmid, _, _⟩ := cleanupIfNeeded_minimal cm fs (b.length : Int) hwf
  have hwfmid : WF (cleanupIfNeeded cm fs (b.length : Int)).1 := by
    rw [hmid]; exact hwf.filter _
  have hflatmid : ∀ e, lookup (cleanupIfNeeded cm fs (b.length : Int)).1 k = some e →
      e.IsDir = false := by
    intro e he
    have hmem := (lookup_some_mem he).1
    rw [hmid] at hmem
    exact hflat e (List.mem_of_mem_filter hmem)
  obtain ⟨fs'', hw⟩ := WriteFile_ok_of_not_dir _ k b now hflatmid
  have hsave : SaveToCache cm now fs k b = (fs'', none) := by
    rw [SaveToCache_eq, hw]
  rw [hsave]
  refine ⟨rfl, walkSize fs'', rfl, ?_⟩
  have := walkSize_WriteFile hwfmid hw
  omega

/-- A save for C23 into a directory that is over its budget of 4 bytes and already holds the
key: afterwards the directory holds 3 bytes. -/
theorem SaveToCache_within_budget_witness :
    WF [⟨"a.jpg", .file [1, 2, 3] 7⟩, ⟨"k.jpg", .file [4, 4, 4, 4] 9⟩] ∧
    Flat [⟨"a.jpg", .file [1, 2, 3] 7⟩, ⟨"k.jpg", .file [4, 4, 4, 4] 9⟩] ∧
    getCacheSize [⟨"a.jpg", .file [1, 2, 3] 7⟩, ⟨"k.jpg", .file [4, 4, 4, 4] 9⟩] = .ok 7 ∧
    SaveToCache ⟨"cache", 3600, 4⟩ 100
        [⟨"a.jpg", .file [1, 2, 3] 7⟩, ⟨"k.jpg", .file [4, 4, 4, 4] 9⟩] "k.jpg" [5, 5, 5] =
      ([⟨"k.jpg", .file [5, 5, 5] 100⟩], none) ∧
    (∃ total, getCacheSize (SaveToCache ⟨"cache", 3600, 4⟩ 100
        [⟨"a.jpg", .file [1, 2, 3] 7⟩, ⟨"k.jpg", .file [4, 4, 4, 4] 9⟩] "k.jpg" [5, 5, 5]).1 =
          .ok total ∧ total ≤ (4 : Int)) :=
  ⟨by decide, by decide, by decide, by decide,
    (SaveToCache_within_budget ⟨"cache", 3600, 4⟩ 100
      [⟨"a.jpg", .file [1, 2, 3] 7⟩, ⟨"k.jpg", .file [4, 4, 4, 4] 9⟩] "k.jpg" [5, 5, 5]
      (by decide) (by decide) (by decide)).2⟩

end cache

/-! ## Two calls for the same request -/

namespace cache

/-- When the key names no regular file, the lookup misses. -/
theorem GetCachedImage_miss_of_no_file (cm : CacheManager) (now : Int) (fs : FS) (k : String)
    (h : ∀ e, lookup fs k = some e → e.IsDir = true) :
    (GetCachedImage cm now fs k).2.2 = false := by
  cases hfound : (GetCachedImage cm now fs k).2.2 with
  | false => rfl
  | true =>
    exfalso
    unfold GetCachedImage at hfound
    unfold Stat ReadFile at hfound
    cases hl : lookup fs k with
    | none => simp [hl] at hfound
    | some e =>
      have hd := h e hl
      cases hn : e.node with
      | file data mt => simp [DirEntry.IsDir, hn, Node.IsDir] at hd
      | dir t sz em =>
        simp only [hl, hn, DirEntry.Info] at hfound
        split at hfound
        · split at hfound <;> cases hfound
        · cases hfound

end cache

namespace images

/-- The method `OptimizeImage` is its steps 1 to 3 followed, after a miss, by its steps 4 to 6. -/
theorem OptimizeImage_split (env : Env) (cm : cache.CacheManager) (tLookup tSave : Int)
    (w : World) (fullPath origin : String) :
    OptimizeImage env cm tLookup tSave w fullPath origin =
      match lookupStep env cm tLookup w fullPath origin with
      | (w1, .done result) => (w1, result)
      | (w1, .miss params cacheKey) => fetchStep env cm tSave w1 params cacheKey := by
  unfold OptimizeImage lookupStep
  cases ParseURLParams env.net fullPath origin with
  | error err => rfl
  | ok params =>
    simp only
    generalize cache.GetCachedImage cm tLookup w.fs _ = r
    obtain ⟨fs1, cached, found⟩ := r
    cases found <;> rfl

/-- A call that takes its two steps with no step of the other call in between is a call of
`OptimizeImage`. -/
theorem runSchedule_alone (env : Env) (cm : cache.CacheManager) (tLookup tSave : Int)
    (w : World) (fullPath origin : String) (b : Phase) :
    runSchedule env cm fullPath origin [(true, tLookup), (true, tSave)] ⟨w, .start, b⟩ =
      ⟨(OptimizeImage env cm tLookup tSave w fullPath origin).1,
        .finished (OptimizeImage env cm tLookup tSave w fullPath origin).2, b⟩ := by
  rw [OptimizeImage_split]
  simp only [runSchedule, stepCall]
  generalize lookupStep env cm tLookup w fullPath origin = r
  obtain ⟨w1, l⟩ := r
  cases l <;> rfl

theorem lookupStep_miss (env : Env) (cm : cache.CacheManager) (t : Int) (w : World)
    (fullPath origin : String) (params : ImageParams)
    (hparse : ParseURLParams env.net fullPath origin = .ok params)
    (hmiss : (cache.GetCachedImage cm t w.fs
        (cache.GenerateCacheKey env.md5hex params.URL params.Width params.Quality)).2.2 = false) :
    lookupStep env cm t w fullPath origin =
      ({ fs := (cache.GetCachedImage cm t w.fs
            (cache.GenerateCacheKey env.md5hex params.URL params.Width params.Quality)).1,
         log := w.log },
        .miss params
          (cache.GenerateCacheKey env.md5hex params.URL params.Width params.Quality)) := by
  simp only [lookupStep, hparse]
  generalize cache.GetCachedImage cm t w.fs _ = r at hmiss
  obtain ⟨fs1, cached, found⟩ := r
  simp only at hmiss
  subst hmiss
  rfl

theorem lookupStep_hit (env : Env) (cm : cache.CacheManager) (t : Int) (w : World)
    (fullPath origin : String) (params : ImageParams) (data : Bytes) (mt : Int)
    (hparse : ParseURLParams env.net fullPath origin = .ok params)
    (hentry : os.lookup w.fs
        (cache.GenerateCacheKey env.md5hex params.URL params.Width params.Quality) =
      some ⟨cache.GenerateCacheKey env.md5hex params.URL params.Width params.Quality,
        .file data mt⟩)
    (hfresh : time.Since t mt ≤ cm.CacheDuration) :
    lookupStep env cm t w fullPath origin = (w, .done (.ok (data, "image/jpeg"))) := by
  simp only [lookupStep, hparse, cache.GetCachedImage_file cm t w.fs _ hentry,
    if_neg (not_lt.2 hfresh)]

/-- Steps 4 to 6 call the downloader once, whatever their outcome. -/
theorem downloads_fetchStep (env : Env) (cm : cache.CacheManager) (t : Int) (w : World)
    (params : ImageParams) (cacheKey : String) :
    downloads (fetchStep env cm t w params cacheKey).1.log = downloads w.log + 1 := by
  unfold fetchStep
  simp only
  split
  · simp [downloads, List.countP_append]
  · split
    · simp [downloads, List.countP_append]
    · split <;> simp [downloads, List.countP_append]

theorem fetchStep_fs_of_saved (env : Env) (cm : cache.CacheManager) (t : Int) (w : World)
    (params : ImageParams) (cacheKey : String) (imageData processedData : Bytes)
    (hdownload : DownloadImage env params.URL params.Origin = .ok imageData)
    (hprocess : env.ProcessImage imageData params.Width params.Quality = .ok processedData)
    (hsave : (cache.SaveImageToCache cm t w.fs cacheKey processedData).2 = none) :
    fetchStep env cm t w params cacheKey =
      ({ fs := (cache.SaveImageToCache cm t w.fs cacheKey processedData).1,
         log := w.log ++ [Event.download params.URL params.Origin] ++
           [Event.process imageData params.Width params.Quality] },
        .ok (processedData, "image/jpeg")) := by
  simp only [fetchStep, hdownload, hprocess]
  generalize cache.SaveImageToCache cm t w.fs cacheKey processedData = r at hsave
  obtain ⟨fs2, err⟩ := r
  simp only at hsave
  subst hsave
  rfl

end images

namespace images

/-- Steps 4 to 6 return the processed bytes once the download and the processing succeeded,
whether or not the write to the cache does. -/
theorem fetchStep_result (env : Env) (cm : cache.CacheManager) (t : Int) (w : World)
    (params : ImageParams) (cacheKey : String) (imageData processedData : Bytes)
    (hdownload : DownloadImage env params.URL params.Origin = .ok imageData)
    (hprocess : env.ProcessImage imageData params.Width params.Quality = .ok processedData) :
    (fetchStep env cm t w params cacheKey).2 = .ok (processedData, "image/jpeg") := by
  simp only [fetchStep, hdownload, hprocess]
  split <;> rfl

/-- Two calls one after the other, as a schedule: the first call takes both its steps, then the
second call takes both of its own. -/
theorem runSchedule_sequential (env : Env) (cm : cache.CacheManager) (t1 t2 t3 t4 : Int)
    (w : World) (fullPath origin : String) :
    runSchedule env cm fullPath origin [(true, t1), (true, t2), (false, t3), (false, t4)]
        ⟨w, .start, .start⟩ =
      ⟨(OptimizeImage env cm t3 t4 (OptimizeImage env cm t1 t2 w fullPath origin).1
          fullPath origin).1,
        .finished (OptimizeImage env cm t1 t2 w fullPath origin).2,
        .finished (OptimizeImage env cm t3 t4 (OptimizeImage env cm t1 t2 w fullPath origin).1
          fullPath origin).2⟩ := by
  have ha := runSchedule_alone env cm t1 t2 w fullPath origin .start
  simp only [runSchedule, Run.mk.injEq, and_true] at ha ⊢
  obtain ⟨hw, hp⟩ := ha
  rw [hp, hw]
  simp only [true_and]
  rw [OptimizeImage_split env cm t3 t4]
  simp only [stepCall]
  generalize lookupStep env cm t3 _ fullPath origin = r
  obtain ⟨w1, l⟩ := r
  cases l <;> exact ⟨rfl, rfl⟩

/-- Two calls that both look the cache up before either writes: after the miss of the first
lookup the second lookup misses as well, and both calls go on to steps 4 to 6. -/
theorem runSchedule_overlap (env : Env) (cm : cache.CacheManager) (t1 t2 t3 t4 : Int)
    (w : World) (fullPath origin : String) (params : ImageParams)
    (hparse : ParseURLParams env.net fullPath origin = .ok params)
    (hmiss : (cache.GetCachedImage cm t1 w.fs
        (cache.GenerateCacheKey env.md5hex params.URL params.Width params.Quality)).2.2 = false) :
    runSchedule env cm fullPath origin [(true, t1), (false, t2), (true, t3), (false, t4)]
        ⟨w, .start, .start⟩ =
      ⟨(fetchStep env cm t4
          (fetchStep env cm t3
            { fs := (cache.GetCachedImage cm t2
                (cache.GetCachedImage cm t1 w.fs
                  (cache.GenerateCacheKey env.md5hex params.URL params.Width params.Quality)).1
                (cache.GenerateCacheKey env.md5hex params.URL params.Width params.Quality)).1,
              log := w.log }
            params
            (cache.GenerateCacheKey env.md5hex params.URL params.Width params.Quality)).1
          params
          (cache.GenerateCacheKey env.md5hex params.URL params.Width params.Quality)).1,
        .finished (fetchStep env cm t3
            { fs := (cache.GetCachedImage cm t2
                (cache.GetCachedImage cm t1 w.fs
                  (cache.GenerateCacheKey env.md5hex params.URL params.Width params.Quality)).1
                (cache.GenerateCacheKey env.md5hex params.URL params.Width params.Quality)).1,
              log := w.log }
            params
            (cache.GenerateCacheKey env.md5hex params.URL params.Width params.Quality)).2,
        .finished (fetchStep env cm t4
          (fetchStep env cm t3
            { fs := (cache.GetCachedImage cm t2
                (cache.GetCachedImage cm t1 w.fs
                  (cache.GenerateCacheKey env.md5hex params.URL params.Width params.Quality)).1
                (cache.GenerateCacheKey env.md5hex params.URL params.Width params.Quality)).1,
              log := w.log }
            params
            (cache.GenerateCacheKey env.md5hex params.URL params.Width params.Quality)).1
          params
          (cache.GenerateCacheKey env.md5hex params.URL params.Width params.Quality)).2⟩ := by
  have h1 := lookupStep_miss env cm t1 w fullPath origin params hparse hmiss
  have hmiss2 := cache.GetCachedImage_miss_of_no_file cm t2 _ _
    (cache.GetCachedImage_miss_no_file cm t1 w.fs _ hmiss)
  have h2 := lookupStep_miss env cm t2
    { fs := (cache.GetCachedImage cm t1 w.fs
        (cache.GenerateCacheKey env.md5hex params.URL params.Width params.Quality)).1,
      log := w.log } fullPath origin params hparse hmiss2
  simp only [runSchedule, stepCall, h1, h2]

/-- Two calls one after the other, the first of which downloads, processes and stores: the
second finds the stored bytes, and the log has grown by one download and one processing. -/
theorem OptimizeImage_twice (env : Env) (cm : cache.CacheManager) (t1 t2 t3 t4 : Int)
    (w : World) (fullPath origin : String) (params : ImageParams)
    (imageData processedData : Bytes)
    (hparse : ParseURLParams env.net fullPath origin = .ok params)
    (hmiss : (cache.GetCachedImage cm t1 w.fs
        (cache.GenerateCacheKey env.md5hex params.URL params.Width params.Quality)).2.2 = false)
    (hdownload : DownloadImage env params.URL params.Origin = .ok imageData)
    (hprocess : env.ProcessImage imageData params.Width params.Quality = .ok processedData)
    (hsave : (cache.SaveImageToCache cm t2
        (cache.GetCachedImage cm t1 w.fs
          (cache.GenerateCacheKey env.md5hex params.URL params.Width params.Quality)).1
        (cache.GenerateCacheKey env.md5hex params.URL params.Width params.Quality)
        processedData).2 = none)
    (hfresh : time.Since t3 t2 ≤ cm.CacheDuration) :
    OptimizeImage env cm t1 t2 w fullPath origin =
      ({ fs := (cache.SaveImageToCache cm t2
            (cache.GetCachedImage cm t1 w.fs
              (cache.GenerateCacheKey env.md5hex params.URL params.Width params.Quality)).1
            (cache.GenerateCacheKey env.md5hex params.URL params.Width params.Quality)
            processedData).1,
         log := w.log ++ [Event.download params.URL params.Origin] ++
           [Event.process imageData params.Width params.Quality] },
        .ok (processedData, "image/jpeg")) ∧
    OptimizeImage env cm t3 t4 (OptimizeImage env cm t1 t2 w fullPath origin).1
        fullPath origin =
      ((OptimizeImage env cm t1 t2 w fullPath origin).1, .ok (processedData, "image/jpeg")) := by
  have h1 := lookupStep_miss env cm t1 w fullPath origin params hparse hmiss
  have hfirst : OptimizeImage env cm t1 t2 w fullPath origin =
      ({ fs := (cache.SaveImageToCache cm t2
            (cache.GetCachedImage cm t1 w.fs
              (cache.GenerateCacheKey env.md5hex params.URL params.Width params.Quality)).1
            (cache.GenerateCacheKey env.md5hex params.URL params.Width params.Quality)
            processedData).1,
         log := w.log ++ [Event.download params.URL params.Origin] ++
           [Event.process imageData params.Width params.Quality] },
        .ok (processedData, "image/jpeg")) := by
    rw [OptimizeImage_split, h1]
    exact fetchStep_fs_of_saved env cm t2 _ params _ imageData processedData
      hdownload hprocess hsave
  refine ⟨hfirst, ?_⟩
  rw [hfirst, OptimizeImage_split]
  have hentry := cache.lookup_SaveToCache hsave
  rw [lookupStep_hit env cm t3 _ fullPath origin params processedData t2 hparse hentry hfresh]

theorem downloads_append_download_process (log : List Event) (u o : String) (d : Bytes)
    (width quality : Int) :
    downloads (log ++ [Event.download u o] ++ [Event.process d width quality]) =
      downloads log + 1 := by
  simp [downloads, List.countP_append]

end images

/-! ## Claim C17: two calls for the same uncached request -/

namespace images

/-- Claim C17, as the code has it. Two calls of `OptimizeImage` for the same request, whose key
the cache does not hold at the first lookup, where the download and the processing succeed, the
first call's write to the cache reports no error and the entry it wrote is not expired at the
instant `t3`. When the second call starts after the first has returned (first call at `t1` and
`t2`, second call at `t3` and `t4`), both calls return the same processed bytes and
`DownloadImage` is invoked exactly once; this run is the schedule lookup A, rest of A,
lookup B, rest of B. In the schedule lookup A, lookup B, rest of A, rest of B, where nothing
in `OptimizeImage` makes the second call wait, both calls return these bytes as well and
`DownloadImage` is invoked twice. -/
theorem OptimizeImage_sequential_calls_download_once (env : Env) (cm : cache.CacheManager)
    (t1 t2 t3 t4 : Int) (w : World) (fullPath origin : String) (params : ImageParams)
    (imageData processedData : Bytes)
    (hparse : ParseURLParams env.net fullPath origin = .ok params)
    (hmiss : (cache.GetCachedImage cm t1 w.fs
        (cache.GenerateCacheKey env.md5hex params.URL params.Width params.Quality)).2.2 = false)
    (hdownload : DownloadImage env params.URL params.Origin = .ok imageData)
    (hprocess : env.ProcessImage imageData params.Width params.Quality = .ok processedData)
    (hsave : (cache.SaveImageToCache cm t2
        (cache.GetCachedImage cm t1 w.fs
          (cache.GenerateCacheKey env.md5hex params.URL params.Width params.Quality)).1
        (cache.GenerateCacheKey env.md5hex params.URL params.Width params.Quality)
        processedData).2 = none)
    (hfresh : time.Since t3 t2 ≤ cm.CacheDuration) :
    ((OptimizeImage env cm t1 t2 w fullPath origin).2 = .ok (processedData, "image/jpeg") ∧
      (OptimizeImage env cm t3 t4 (OptimizeImage env cm t1 t2 w fullPath origin).1
        fullPath origin).2 = .ok (processedData, "image/jpeg") ∧
      downloads (OptimizeImage env cm t3 t4 (OptimizeImage env cm t1 t2 w fullPath origin).1
        fullPath origin).1.log = downloads w.log + 1 ∧
      runSchedule env cm fullPath origin [(true, t1), (true, t2), (false, t3), (false, t4)]
          ⟨w, .start, .start⟩ =
        ⟨(OptimizeImage env cm t3 t4 (OptimizeImage env cm t1 t2 w fullPath origin).1
            fullPath origin).1,
          .finished (.ok (processedData, "image/jpeg")),
          .finished (.ok (processedData, "image/jpeg"))⟩) ∧
    ((runSchedule env cm fullPath origin [(true, t1), (false, t2), (true, t3), (false, t4)]
          ⟨w, .start, .start⟩).a = .finished (.ok (processedData, "image/jpeg")) ∧
      (runSchedule env cm fullPath origin [(true, t1), (false, t2), (true, t3), (false, t4)]
          ⟨w, .start, .start⟩).b = .finished (.ok (processedData, "image/jpeg")) ∧
      downloads (runSchedule env cm fullPath origin
          [(true, t1), (false, t2), (true, t3), (false, t4)]
          ⟨w, .start, .start⟩).world.log = downloads w.log + 2) := by
  obtain ⟨h1, h2⟩ := OptimizeImage_twice env cm t1 t2 t3 t4 w fullPath origin params
    imageData processedData hparse hmiss hdownload hprocess hsave hfresh
  refine ⟨⟨?_, ?_, ?_, ?_⟩, ?_, ?_, ?_⟩
  · rw [h1]
  · rw [h2]
  · rw [h2]
    simp only
    rw [h1]
    exact downloads_append_download_process _ _ _ _ _ _
  · rw [runSchedule_sequential, h2]
    simp only
    rw [h1]
  · rw [runSchedule_overlap env cm t1 t2 t3 t4 w fullPath origin params hparse hmiss]
    simp only
    rw [fetchStep_result env cm t3 _ params _ imageData processedData hdownload hprocess]
  · rw [runSchedule_overlap env cm t1 t2 t3 t4 w fullPath origin params hparse hmiss]
    simp only
    rw [fetchStep_result env cm t4 _ params _ imageData processedData hdownload hprocess]
  · rw [runSchedule_overlap env cm t1 t2 t3 t4 w fullPath origin params hparse hmiss]
    simp only
    rw [downloads_fetchStep, downloads_fetchStep]

/-- An instance of C17 in sequence: an empty cache directory, a lifetime of 3600 and a budget of
100 bytes, the request `/example.com/a.jpg` served by the demonstration environment, the first
call at the instants 10 and 11, the second at 12 and 13. -/
theorem OptimizeImage_sequential_calls_download_once_witness :
    ((OptimizeImage demoEnv ⟨"cache", 3600, 100⟩ 10 11 ⟨[], []⟩
        "/example.com/a.jpg" "").2 = .ok ([3, 2, 1], "image/jpeg") ∧
      (OptimizeImage demoEnv ⟨"cache", 3600, 100⟩ 12 13
        (OptimizeImage demoEnv ⟨"cache", 3600, 100⟩ 10 11 ⟨[], []⟩
          "/example.com/a.jpg" "").1
        "/example.com/a.jpg" "").2 = .ok ([3, 2, 1], "image/jpeg") ∧
      downloads (OptimizeImage demoEnv ⟨"cache", 3600, 100⟩ 12 13
        (OptimizeImage demoEnv ⟨"cache", 3600, 100⟩ 10 11 ⟨[], []⟩
          "/example.com/a.jpg" "").1
        "/example.com/a.jpg" "").1.log = downloads ([] : List Event) + 1 ∧
      runSchedule demoEnv ⟨"cache", 3600, 100⟩ "/example.com/a.jpg" ""
          [(true, 10), (true, 11), (false, 12), (false, 13)] ⟨⟨[], []⟩, .start, .start⟩ =
        ⟨(OptimizeImage demoEnv ⟨"cache", 3600, 100⟩ 12 13
            (OptimizeImage demoEnv ⟨"cache", 3600, 100⟩ 10 11 ⟨[], []⟩
              "/example.com/a.jpg" "").1
            "/example.com/a.jpg" "").1,
          .finished (.ok ([3, 2, 1], "image/jpeg")),
          .finished (.ok ([3, 2, 1], "image/jpeg"))⟩) ∧
    ((runSchedule demoEnv ⟨"cache", 3600, 100⟩ "/example.com/a.jpg" ""
          [(true, 10), (false, 11), (true, 12), (false, 13)]
          ⟨⟨[], []⟩, .start, .start⟩).a = .finished (.ok ([3, 2, 1], "image/jpeg")) ∧
      (runSchedule demoEnv ⟨"cache", 3600, 100⟩ "/example.com/a.jpg" ""
          [(true, 10), (false, 11), (true, 12), (false, 13)]
          ⟨⟨[], []⟩, .start, .start⟩).b = .finished (.ok ([3, 2, 1], "image/jpeg")) ∧
      downloads (runSchedule demoEnv ⟨"cache", 3600, 100⟩ "/example.com/a.jpg" ""
          [(true, 10), (false, 11), (true, 12), (false, 13)]
          ⟨⟨[], []⟩, .start, .start⟩).world.log = downloads ([] : List Event) + 2) :=
  OptimizeImage_sequential_calls_download_once demoEnv ⟨"cache", 3600, 100⟩ 10 11 12 13
    ⟨[], []⟩ "/example.com/a.jpg" ""
    { URL := "https://example.com/a.jpg", Quality := 90, Width := 400, Origin := "" }
    [1, 2, 3] [3, 2, 1] (by decide) (by decide) (by decide) (by decide) (by decide) (by decide)

/-- Claim C17, refuted as stated. An empty cache directory and two calls for the request
`/example.com/a.jpg`, so for the same triple, in the interleaving lookup A at 10, lookup B at
11, rest of A at 12, rest of B at 13: both lookups miss, both calls return the bytes 3, 2, 1,
and the log holds two downloads of `https://example.com/a.jpg`, not one. -/
theorem OptimizeImage_overlapping_calls_download_twice :
    os.lookup ([] : os.FS) (cache.GenerateCacheKey demoEnv.md5hex
      "https://example.com/a.jpg" 400 90) = none ∧
    runSchedule demoEnv ⟨"cache", 3600, 100⟩ "/example.com/a.jpg" ""
        [(true, 10), (false, 11), (true, 12), (false, 13)] ⟨⟨[], []⟩, .start, .start⟩ =
      ⟨⟨[⟨"182185447.jpg", .file [3, 2, 1] 13⟩],
          [Event.download "https://example.com/a.jpg" "", Event.process [1, 2, 3] 400 90,
            Event.download "https://example.com/a.jpg" "", Event.process [1, 2, 3] 400 90]⟩,
        .finished (.ok ([3, 2, 1], "image/jpeg")),
        .finished (.ok ([3, 2, 1], "image/jpeg"))⟩ ∧
    downloads (runSchedule demoEnv ⟨"cache", 3600, 100⟩ "/example.com/a.jpg" ""
        [(true, 10), (false, 11), (true, 12), (false, 13)]
        ⟨⟨[], []⟩, .start, .start⟩).world.log = 2 ∧
    downloads (runSchedule demoEnv ⟨"cache", 3600, 100⟩ "/example.com/a.jpg" ""
        [(true, 10), (false, 11), (true, 12), (false, 13)]
        ⟨⟨[], []⟩, .start, .start⟩).world.log ≠ 1 := by
  decide

end images
